import Mathlib

/-!
# urlpattern: URL templates, their compiled descriptors and the Pattern builder

A shallow embedding of `pattern.go` and `regexp.go`.

* Go strings are lists of characters; an index is a position in that list.
* Go's `regexp` package is not part of the repository.  The embedding takes it
  as a parameter (`RegexpLib`); `goRegexp` further down is an executable model
  of a fragment of its syntax, used to evaluate the code on concrete inputs.
* A Go `error` value is a constructor of `Err`; a run-time panic is the
  separate outcome `Fault.panic`.
-/

namespace Urlpattern

/-- A Go string. -/
abbrev Str := List Char

/-- The error values the two source files create. -/
inductive Err where
  /-- The error of pattern.go:146, "path must start with a slash". -/
  | pathMustStartWithSlash (tpl : Str)
  /-- The error of pattern.go:110, "number of parameters must be multiple of 2". -/
  | oddQueryPairs (pairs : List Str)
  /-- The error of pattern.go:193, "duplicated route variable". -/
  | duplicatedRouteVariable (v : Str)
  /-- The error of regexp.go:229 and regexp.go:234, "unbalanced braces". -/
  | unbalancedBraces (s : Str)
  /-- The error of regexp.go:67, "missing name or pattern". -/
  | missingNameOrPattern (span : Str)
  /-- An error returned by regexp.Compile for the given expression. -/
  | regexpCompile (expr : Str)
  /-- The error of regexp.go:174, "missing route variable". -/
  | missingRouteVariable (v : Str)
  /-- The error of regexp.go:185, "variable doesn't match". -/
  | variableDoesntMatch (value expected : Str)
  deriving DecidableEq, Repr

/-- How a call ends when it does not return a value: with a Go error, or in a panic. -/
inductive Fault where
  | err (e : Err)
  | panic
  deriving DecidableEq, Repr

/-- What the code uses of Go's `regexp` package.  A compiled expression is
identified with its source text.  `compile e` is `some n` when `regexp.Compile e`
succeeds with `NumSubexp() = n`, and `none` when it returns an error.
`find e s` is `FindStringSubmatchIndex` of the compiled `e` on `s`; the nil
slice is `[]`. -/
structure RegexpLib where
  compile : Str → Option Nat
  find : Str → Str → List Int

/-- The method `MatchString`: whether the expression has a match in `s`, that is
whether `FindStringSubmatchIndex` is not nil. -/
def RegexpLib.matchString (re : RegexpLib) (e s : Str) : Bool :=
  !(re.find e s).isEmpty

/-! ## String helpers of the Go standard library -/

/-- Go's `s[lo:hi]`, which panics unless `0 ≤ lo ≤ hi ≤ len(s)`. -/
def slice (s : Str) (lo hi : Int) : Option Str :=
  if 0 ≤ lo ∧ lo ≤ hi ∧ hi ≤ (s.length : Int) then
    some ((s.drop lo.toNat).take (hi.toNat - lo.toNat))
  else none

/-- Go's `strings.SplitN(s, sep, 2)` for a one-character separator: the part before
the first separator, and the part after it when there is one. -/
def splitN2 (sep : Char) : Str → Str × Option Str
  | [] => ([], none)
  | c :: cs =>
    if c = sep then ([], some cs)
    else ((splitN2 sep cs).1.cons c, (splitN2 sep cs).2)

/-- Go's `strings.HasSuffix(s, "/")`. -/
def hasSuffixSlash (s : Str) : Bool :=
  s.getLast? = some '/'

/-- Go's `strings.TrimRight(s, "/")`. -/
def trimRightSlash (s : Str) : Str :=
  (s.reverse.dropWhile (fun c => c = '/')).reverse

/-- The characters `regexp.QuoteMeta` escapes. -/
def isSpecial (c : Char) : Bool :=
  c ∈ ['\\', '.', '+', '*', '?', '(', ')', '|', '[', ']', '{', '}', '^', '$']

/-- Go's `regexp.QuoteMeta`. -/
def quoteMeta : Str → Str
  | [] => []
  | c :: cs => if isSpecial c then '\\' :: c :: quoteMeta cs else c :: quoteMeta cs

/-- Go's `strconv.Itoa` on a natural number. -/
def itoa (n : Nat) : Str :=
  (Nat.toDigits 10 n)

/-! ## regexp.go -/

/-- The loop of `braceIndices` from position `i` on: the rest of the string, the
brace level, the start of the open span and the indices found so far.  It returns
the final level and indices, or the error of a closing brace at level zero. -/
def braceLoop (s : Str) : Str → Nat → Int → Nat → List Nat → Except Err (Int × List Nat)
  | [], _, level, _, idxs => .ok (level, idxs)
  | c :: cs, i, level, idx, idxs =>
    if c = '{' then
      braceLoop s cs (i + 1) (level + 1) (if level + 1 = 1 then i else idx) idxs
    else if c = '}' then
      if level - 1 = 0 then braceLoop s cs (i + 1) (level - 1) idx (idxs ++ [idx, i + 1])
      else if level - 1 < 0 then .error (.unbalancedBraces s)
      else braceLoop s cs (i + 1) (level - 1) idx idxs
    else braceLoop s cs (i + 1) level idx idxs

/-- The function `braceIndices`: the first level curly brace indices of a string, or
an error in case of unbalanced braces. -/
def braceIndices (s : Str) : Except Err (List Nat) :=
  match braceLoop s s 0 0 0 [] with
  | .error e => .error e
  | .ok (level, idxs) => if level ≠ 0 then .error (.unbalancedBraces s) else .ok idxs

/-- The function `varGroupName`. -/
def varGroupName (idx : Nat) : Str :=
  'v' :: itoa idx

/-- The type `routeRegexp`: a compiled template.  `regexp` and the entries of
`varsR` are compiled expressions, kept as their source text. -/
structure routeRegexp where
  template : Str
  matchHost : Bool
  matchQuery : Bool
  strictSlash : Bool
  useEncodedPath : Bool
  regexp : Str
  reverse : Str
  varsN : List Str
  varsR : List Str
  deriving DecidableEq, Repr

/-- What the parsing loop of `newRouteRegexp` carries from one span to the next. -/
structure ParseState where
  endIdx : Nat
  pattern : Str
  reverse : Str
  varsN : List Str
  varsR : List Str
  deriving DecidableEq, Repr

/-- The parsing loop of `newRouteRegexp` (regexp.go:55-82) over the remaining
indices; `k` is `i/2`.  `varsN` and `varsR` are filled in index order, so the
assignments to position `i/2` are appends. -/
def parseSpans (re : RegexpLib) (tpl defaultPattern : Str) :
    List Nat → Nat → ParseState → Except Fault ParseState
  | [], _, st => .ok st
  | [_], _, _ => .error .panic
  | a :: b :: rest, k, st =>
    match slice tpl st.endIdx a, slice tpl (a + 1) ((b : Int) - 1) with
    | some raw, some inner =>
      let parts := splitN2 ':' inner
      let name := parts.1
      let patt := parts.2.getD defaultPattern
      if name = [] ∨ patt = [] then
        match slice tpl a b with
        | some span => .error (.err (.missingNameOrPattern span))
        | none => .error .panic
      else
        let expr := "^".toList ++ patt ++ "$".toList
        match re.compile expr with
        | none => .error (.err (.regexpCompile expr))
        | some _ =>
          parseSpans re tpl defaultPattern rest (k + 1)
            { endIdx := b
              pattern := st.pattern ++ quoteMeta raw ++ "(?P<".toList ++ varGroupName k
                ++ ">".toList ++ patt ++ ")".toList
              reverse := st.reverse ++ raw ++ "%s".toList
              varsN := st.varsN ++ [name]
              varsR := st.varsR ++ [expr] }
    | _, _ => .error .panic

/-- The body of `newRouteRegexp` after the brace check (regexp.go:28-125), for the
indices `idxs` that `braceIndices` returned. -/
def assembleRouteRegexp (re : RegexpLib) (tpl : Str) (idxs : List Nat)
    (matchHost matchPrefix matchQuery strictSlash useEncodedPath : Bool) :
    Except Fault routeRegexp :=
  let template := tpl
  let defaultPattern : Str :=
    if matchQuery then "[^?&]*".toList
    else if matchHost then "[^.]+".toList else "[^/]+".toList
  let matchPrefix := if !matchQuery && matchHost then false else matchPrefix
  let strictSlash := if matchPrefix || matchHost || matchQuery then false else strictSlash
  let endSlash := strictSlash && hasSuffixSlash tpl
  let tpl := if endSlash then tpl.dropLast else tpl
  match parseSpans re tpl defaultPattern idxs 0
      { endIdx := 0, pattern := "^".toList, reverse := [], varsN := [], varsR := [] } with
  | .error f => .error f
  | .ok st =>
    match slice tpl st.endIdx tpl.length with
    | none => .error .panic
    | some raw =>
      let pattern := st.pattern ++ quoteMeta raw
      let pattern := if strictSlash then pattern ++ "[/]?".toList else pattern
      let queryVal : Option Str := if matchQuery then (splitN2 '=' template).2 else some []
      match queryVal with
      | none => .error .panic
      | some qv =>
        let pattern :=
          if matchQuery && qv = [] then pattern ++ defaultPattern else pattern
        let pattern := if !matchPrefix then pattern ++ "$".toList else pattern
        let reverse := st.reverse ++ raw
        let reverse := if endSlash then reverse ++ "/".toList else reverse
        match re.compile pattern with
        | none => .error (.err (.regexpCompile pattern))
        | some n =>
          if n ≠ idxs.length / 2 then .error .panic
          else .ok
            { template := template
              matchHost := matchHost
              matchQuery := matchQuery
              strictSlash := strictSlash
              useEncodedPath := useEncodedPath
              regexp := pattern
              reverse := reverse
              varsN := st.varsN
              varsR := st.varsR }

/-- The function `newRouteRegexp`. -/
def newRouteRegexp (re : RegexpLib) (tpl : Str)
    (matchHost matchPrefix matchQuery strictSlash useEncodedPath : Bool) :
    Except Fault routeRegexp :=
  match braceIndices tpl with
  | .error e => .error (.err e)
  | .ok idxs =>
    assembleRouteRegexp re tpl idxs matchHost matchPrefix matchQuery strictSlash useEncodedPath

/-- The type `routeRegexpGroup`. -/
structure routeRegexpGroup where
  host : Option routeRegexp
  path : Option routeRegexp
  queries : List routeRegexp
  deriving DecidableEq, Repr

/-- What the code reads of a `*url.URL`: the fields `Scheme`, `Host` and `Path`, and
the results of the methods `RequestURI()` and `Query()` (each key once, with its
values in order). -/
structure URL where
  Scheme : Str
  Host : Str
  Path : Str
  RequestURI : Str
  Query : List (Str × List Str)
  deriving DecidableEq, Repr

/-- A `map[string]string`: the keys in the order of their first insertion. -/
abbrev Vars := List (Str × Str)

/-- The assignment `output[name] = value`. -/
def Vars.set : Vars → Str → Str → Vars
  | [], name, value => [(name, value)]
  | (k, v) :: rest, name, value =>
    if k = name then (k, value) :: rest else (k, v) :: Vars.set rest name value

/-- The lookup `m[name]` with its presence flag. -/
def Vars.get (m : Vars) (name : Str) : Option Str :=
  (m.find? (fun kv => kv.1 = name)).map Prod.snd

/-- The function `getHost`. -/
def getHost (u : URL) : Str :=
  if u.Scheme ≠ [] then u.Host
  else (splitN2 ':' u.Host).1

/-- Go's `strings.TrimPrefix`. -/
def trimPrefix (s pre : Str) : Str :=
  if pre.isPrefixOf s then s.drop pre.length else s

/-- Go's `path[:i]` for `i = strings.LastIndex(path, c)` when `i > -1`, else `path`. -/
def cutAtLast (c : Char) (s : Str) : Str :=
  if c ∈ s then (s.reverse.dropWhile (fun x => x ≠ c)).tail.reverse else s

/-- The function `getPath`. -/
def getPath (u : URL) : Str :=
  if u.RequestURI ≠ [] then
    let path := trimPrefix u.RequestURI (u.Scheme ++ "://".toList)
    let path := trimPrefix path u.Host
    let path := cutAtLast '?' path
    cutAtLast '#' path
  else u.Path

/-- One element of a Go `[]int`, or none when the index is out of range. -/
def intAt (m : List Int) (i : Nat) : Option Int := m.get? i

/-- The function `extractVars`; none when an index or a slice is out of range (a panic). -/
def extractVars (input : Str) (ms : List Int) : List Str → Nat → Vars → Option Vars
  | [], _, output => some output
  | name :: names, i, output =>
    match intAt ms (2 * i + 2), intAt ms (2 * i + 3) with
    | some lo, some hi =>
      match slice input lo hi with
      | some value => extractVars input ms names (i + 1) (output.set name value)
      | none => none
    | _, _ => none

/-- The method `routeRegexp.getURLQuery`. -/
def routeRegexp.getURLQuery (r : routeRegexp) (u : URL) : Str :=
  if !r.matchQuery then []
  else
    let templateKey := (splitN2 '=' r.template).1
    match u.Query.find? (fun kv => kv.1 = templateKey ∧ kv.2.length > 0) with
    | some (key, vals) => key ++ "=".toList ++ vals.headD []
    | none => []

/-- The method `routeRegexp.matchQueryString`. -/
def routeRegexp.matchQueryString (re : RegexpLib) (r : routeRegexp) (u : URL) : Bool :=
  re.matchString r.regexp (r.getURLQuery u)

/-- The method `routeRegexp.Match`. -/
def routeRegexp.Match (re : RegexpLib) (r : routeRegexp) (u : URL) : Bool :=
  if !r.matchHost then
    if r.matchQuery then r.matchQueryString re u
    else re.matchString r.regexp (if r.useEncodedPath then getPath u else u.Path)
  else re.matchString r.regexp (getHost u)

/-- One step of `getMatch`: the variables of descriptor `d` found in `input`. -/
def extractFrom (re : RegexpLib) (d : routeRegexp) (input : Str) (vars : Vars) : Option Vars :=
  let ms := re.find d.regexp input
  if ms.length > 0 then extractVars input ms d.varsN 0 vars else some vars

/-- The query loop of `getMatch` (regexp.go:278-284). -/
def extractQueries (re : RegexpLib) (u : URL) : List routeRegexp → Vars → Option Vars
  | [], vars => some vars
  | q :: qs, vars =>
    match extractFrom re q (q.getURLQuery u) vars with
    | some vars => extractQueries re u qs vars
    | none => none

/-- The method `routeRegexpGroup.getMatch`; none when `extractVars` panics. -/
def routeRegexpGroup.getMatch (re : RegexpLib) (v : routeRegexpGroup) (u : URL) : Option Vars :=
  let afterHost : Option Vars :=
    match v.host with
    | some h => extractFrom re h (getHost u) []
    | none => some []
  match afterHost with
  | none => none
  | some vars =>
    let afterPath : Option Vars :=
      match v.path with
      | some p => extractFrom re p (if p.useEncodedPath then getPath u else u.Path) vars
      | none => some vars
    match afterPath with
    | none => none
    | some vars => extractQueries re u v.queries vars

/-! ## pattern.go -/

/-- The type `Pattern`. -/
structure Pattern where
  strictSlash : Bool
  useEncodedPath : Bool
  regexp : routeRegexpGroup
  matchers : List routeRegexp
  err : Option Err
  deriving DecidableEq, Repr

/-- The function `NewPatternWithOptions`. -/
def NewPatternWithOptions (strictSlash useEncodedPath : Bool) : Pattern :=
  { strictSlash := strictSlash
    useEncodedPath := useEncodedPath
    regexp := { host := none, path := none, queries := [] }
    matchers := []
    err := none }

/-- The function `NewPattern`. -/
def NewPattern : Pattern := NewPatternWithOptions true false

/-- The function `uniqueVars`: the error for the first pair of equal strings. -/
def uniqueVars : List Str → List Str → Option Err
  | [], _ => none
  | v1 :: s1, s2 =>
    match s2.find? (fun v2 => v1 = v2) with
    | some v2 => some (.duplicatedRouteVariable v2)
    | none => uniqueVars s1 s2

/-- The loop of pattern.go:156-160 over the stored query descriptors. -/
def uniqueAgainstQueries (varsN : List Str) : List routeRegexp → Option Err
  | [] => none
  | q :: qs =>
    match uniqueVars varsN q.varsN with
    | some e => some e
    | none => uniqueAgainstQueries varsN qs

/-- The check `uniqueVars(rr.varsN, d.varsN)` against a slot that may be nil. -/
def uniqueAgainstSlot (varsN : List Str) : Option routeRegexp → Option Err
  | none => none
  | some d => uniqueVars varsN d.varsN

/-- The method `Pattern.addRegexpMatcher`: the receiver after the call and the
returned error, or none when the call panics. -/
def Pattern.addRegexpMatcher (re : RegexpLib) (p : Pattern) (tpl : Str)
    (matchHost matchPrefix matchQuery : Bool) : Option (Pattern × Option Err) :=
  if p.err ≠ none then some (p, p.err)
  else if !matchHost && !matchQuery && (tpl.length > 0 && tpl.head? ≠ some '/') then
    some (p, some (.pathMustStartWithSlash tpl))
  else
    let tpl :=
      if !matchHost && !matchQuery then
        match p.regexp.path with
        | some path => trimRightSlash path.template ++ tpl
        | none => tpl
      else tpl
    match newRouteRegexp re tpl matchHost matchPrefix matchQuery p.strictSlash p.useEncodedPath with
    | .error .panic => none
    | .error (.err e) => some (p, some e)
    | .ok rr =>
      match uniqueAgainstQueries rr.varsN p.regexp.queries with
      | some e => some (p, some e)
      | none =>
        if matchHost then
          match uniqueAgainstSlot rr.varsN p.regexp.path with
          | some e => some (p, some e)
          | none =>
            some ({ p with regexp := { p.regexp with host := some rr },
                           matchers := p.matchers ++ [rr] }, none)
        else
          match uniqueAgainstSlot rr.varsN p.regexp.host with
          | some e => some (p, some e)
          | none =>
            if matchQuery then
              some ({ p with regexp := { p.regexp with queries := p.regexp.queries ++ [rr] },
                             matchers := p.matchers ++ [rr] }, none)
            else
              some ({ p with regexp := { p.regexp with path := some rr },
                             matchers := p.matchers ++ [rr] }, none)

/-- The pointer a build call returns: its receiver, or nil. -/
inductive Ret where
  | receiver
  | nil
  deriving DecidableEq, Repr

/-- The outcome of a build call that does not panic: the receiver after the call and
the pointer returned. -/
structure Built where
  pattern : Pattern
  ret : Ret
  deriving DecidableEq, Repr

/-- The body shared by `Host`, `Path` and `PathPrefix`:
`p.err = p.addRegexpMatcher(...); return p`. -/
def Pattern.addAndReturn (re : RegexpLib) (p : Pattern) (tpl : Str)
    (matchHost matchPrefix matchQuery : Bool) : Option Built :=
  match p.addRegexpMatcher re tpl matchHost matchPrefix matchQuery with
  | none => none
  | some (p1, e) => some { pattern := { p1 with err := e }, ret := .receiver }

/-- The method `Pattern.Host`. -/
def Pattern.Host (re : RegexpLib) (p : Pattern) (tpl : Str) : Option Built :=
  p.addAndReturn re tpl true false false

/-- The method `Pattern.Path`. -/
def Pattern.Path (re : RegexpLib) (p : Pattern) (tpl : Str) : Option Built :=
  p.addAndReturn re tpl false false false

/-- The method `Pattern.PathPrefix`. -/
def Pattern.PathPrefix (re : RegexpLib) (p : Pattern) (tpl : Str) : Option Built :=
  p.addAndReturn re tpl false true false

/-- The loop of `Queries` (pattern.go:114-118) over the remaining pairs. -/
def Pattern.queriesLoop (re : RegexpLib) : Pattern → List Str → Option Built
  | p, k :: v :: rest =>
    match p.addRegexpMatcher re (k ++ "=".toList ++ v) false false true with
    | none => none
    | some (p1, some e) => some { pattern := { p1 with err := some e }, ret := .receiver }
    | some (p1, none) => Pattern.queriesLoop re { p1 with err := none } rest
  | p, _ => some { pattern := p, ret := .receiver }

/-- The method `Pattern.Queries`. -/
def Pattern.Queries (re : RegexpLib) (p : Pattern) (pairs : List Str) : Option Built :=
  if pairs.length % 2 ≠ 0 then
    some { pattern := { p with err := some (.oddQueryPairs pairs) }, ret := .nil }
  else p.queriesLoop re pairs

/-- The method `Pattern.Match`: the variables and the matched flag, or none when
`getMatch` panics. -/
def Pattern.Match (re : RegexpLib) (p : Pattern) (u : URL) : Option (Vars × Bool) :=
  if p.err ≠ none then some ([], false)
  else if p.matchers.all (fun m => m.Match re u) then
    match p.regexp.getMatch re u with
    | some vars => some (vars, true)
    | none => none
  else some ([], false)

/-- A build call, as data. -/
inductive Call where
  | Host (tpl : Str)
  | Path (tpl : Str)
  | PathPrefix (tpl : Str)
  | Queries (pairs : List Str)
  deriving DecidableEq, Repr

/-- One build call on `p`. -/
def Pattern.call (re : RegexpLib) (p : Pattern) : Call → Option Built
  | .Host tpl => p.Host re tpl
  | .Path tpl => p.Path re tpl
  | .PathPrefix tpl => p.PathPrefix re tpl
  | .Queries pairs => p.Queries re pairs

/-- A sequence of build calls made one after the other on the same Pattern
(`p.Host(..); p.Path(..); ...`): the Pattern afterwards, or none when a call panics. -/
def Pattern.calls (re : RegexpLib) : Pattern → List Call → Option Pattern
  | p, [] => some p
  | p, c :: cs =>
    match p.call re c with
    | none => none
    | some b => Pattern.calls re b.pattern cs

/-! ## A model of Go's regexp package

`goRegexp` models `regexp.Compile`, `NumSubexp` and `FindStringSubmatchIndex` for a
fragment of the RE2 syntax: literals, backslash escapes of punctuation, the classes
`\d \w \s` and their negations, bracket classes with ranges, `.`, `^`, `$`, the word
boundaries `\b` and `\B`, groups
`(...)`, `(?:...)` and `(?P<name>...)`, alternation, and the repetitions
`* + ? {n} {n,} {n,m}` with their non-greedy forms.  An expression outside the
fragment (flags, POSIX and Unicode classes, `\Q`, `\A`, `\z`, octal and hex escapes) is
reported like a compile error.  Matching is leftmost-first, as in Go, and a repetition
is run as Go compiles it: a loop is left after a first round that consumed nothing, and
a later round that consumes nothing is dropped.  The limits Go puts on the size and
nesting depth of an expression are not modelled.  What is proved of the code for every
regexp package is stated with a `RegexpLib` as parameter, and with the property of the
package that the proof uses as a hypothesis. -/

/-- The tokens of an expression. -/
inductive Tok where
  | lit (c : Char)
  | cls (neg : Bool) (items : List (Char × Char))
  | dot
  | bol
  | eol
  | wordB (neg : Bool)
  | lpar (cap : Bool)
  | rpar
  | bar
  | star
  | plus
  | quest
  | rep (min : Nat) (max : Option Nat)
  deriving DecidableEq, Repr

/-- Where the tokenizer stands inside a multi-character token. -/
inductive Mode where
  | normal
  | esc
  | lparen
  | lparenQ
  | lparenP
  | name (acc : Str)
  | clsOpen
  | clsItem (first neg : Bool) (items : List (Char × Char))
  | clsLo (neg : Bool) (items : List (Char × Char)) (lo : Char)
  | clsDash (neg : Bool) (items : List (Char × Char)) (lo : Char)
  | clsEsc (neg : Bool) (items : List (Char × Char))
  | clsEscHi (neg : Bool) (items : List (Char × Char)) (lo : Char)
  | repMin (digits : Str)
  | repComma (min : Str)
  | repMax (min max : Str)
  deriving DecidableEq, Repr

/-- ASCII letters and digits. -/
def isAlnum (c : Char) : Bool :=
  ('0' ≤ c ∧ c ≤ '9') ∨ ('a' ≤ c ∧ c ≤ 'z') ∨ ('A' ≤ c ∧ c ≤ 'Z')

/-- ASCII punctuation, which a backslash makes literal. -/
def isPunct (c : Char) : Bool :=
  c.val < 128 && !isAlnum c

/-- The control character a backslash escape names. -/
def ctrlEscape (c : Char) : Option Char :=
  if c = 'n' then some '\n' else if c = 'r' then some '\r' else if c = 't' then some '\t'
  else if c = 'f' then some (Char.ofNat 12) else if c = 'v' then some (Char.ofNat 11)
  else if c = 'a' then some (Char.ofNat 7) else none

/-- The ranges of the classes `\d`, `\w` and `\s`. -/
def perlClass (c : Char) : Option (List (Char × Char)) :=
  if c = 'd' then some [('0', '9')]
  else if c = 'w' then some [('0', '9'), ('A', 'Z'), ('_', '_'), ('a', 'z')]
  else if c = 's' then some [('\t', '\n'), (Char.ofNat 12, '\r'), (' ', ' ')]
  else none

/-- The negated classes `\D`, `\W` and `\S`, by the letter of the class they negate. -/
def perlClassNeg (c : Char) : Option (List (Char × Char)) :=
  if c = 'D' then perlClass 'd' else if c = 'W' then perlClass 'w'
  else if c = 'S' then perlClass 's' else none

/-- The value of a string of decimal digits. -/
def digitsVal (ds : Str) : Nat :=
  ds.foldl (fun n d => 10 * n + (d.toNat - '0'.toNat)) 0

/-- A character read outside any multi-character token: the next mode and the tokens
it completes. -/
def lexNormal (c : Char) : Mode × List Tok :=
  if c = '\\' then (.esc, [])
  else if c = '(' then (.lparen, [])
  else if c = '[' then (.clsOpen, [])
  else if c = '{' then (.repMin [], [])
  else if c = ')' then (.normal, [.rpar])
  else if c = '|' then (.normal, [.bar])
  else if c = '*' then (.normal, [.star])
  else if c = '+' then (.normal, [.plus])
  else if c = '?' then (.normal, [.quest])
  else if c = '.' then (.normal, [.dot])
  else if c = '^' then (.normal, [.bol])
  else if c = '$' then (.normal, [.eol])
  else (.normal, [.lit c])

/-- A character read where a bracket class expects an item or its closing bracket. -/
def lexClsItem (first neg : Bool) (items : List (Char × Char)) (c : Char) :
    Mode × List Tok :=
  if c = ']' then
    if first then (.clsLo neg items ']', []) else (.normal, [.cls neg items])
  else if c = '\\' then (.clsEsc neg items, [])
  else (.clsLo neg items c, [])

/-- The tokens of a brace that turned out not to open a repetition. -/
def flushBrace (seen : Str) : List Tok :=
  .lit '{' :: seen.map Tok.lit

/-- A character read after a brace that does not open a repetition: the brace and what
followed it are literals, and the character is read in the normal mode. -/
def lexAfterBrace (seen : Str) (c : Char) : Mode × List Tok :=
  ((lexNormal c).1, flushBrace seen ++ (lexNormal c).2)

/-- One character of the expression in a mode: the next mode and the tokens completed;
none is a syntax error. -/
def lexStep (m : Mode) (c : Char) : Option (Mode × List Tok) :=
  match m with
  | .normal => some (lexNormal c)
  | .esc =>
    if c = 'b' then some (.normal, [.wordB false])
    else if c = 'B' then some (.normal, [.wordB true])
    else
      match perlClass c, perlClassNeg c, ctrlEscape c with
      | some items, _, _ => some (.normal, [.cls false items])
      | none, some items, _ => some (.normal, [.cls true items])
      | none, none, some x => some (.normal, [.lit x])
      | none, none, none => if isPunct c then some (.normal, [.lit c]) else none
  | .lparen =>
    if c = '?' then some (.lparenQ, [])
    else some ((lexNormal c).1, .lpar true :: (lexNormal c).2)
  | .lparenQ =>
    if c = ':' then some (.normal, [.lpar false])
    else if c = 'P' then some (.lparenP, []) else none
  | .lparenP => if c = '<' then some (.name [], []) else none
  | .name acc =>
    if c = '>' then
      if acc = [] then none else some (.normal, [.lpar true])
    else if c = '_' ∨ isAlnum c then some (.name (acc ++ [c]), []) else none
  | .clsOpen =>
    if c = '^' then some (.clsItem true true [], [])
    else some (lexClsItem true false [] c)
  | .clsItem first neg items => some (lexClsItem first neg items c)
  | .clsLo neg items lo =>
    if lo = '[' ∧ c = ':' then none
    else if c = '-' then some (.clsDash neg items lo, [])
    else some (lexClsItem false neg (items ++ [(lo, lo)]) c)
  | .clsDash neg items lo =>
    if c = ']' then some (.normal, [.cls neg (items ++ [(lo, lo), ('-', '-')])])
    else if c = '\\' then some (.clsEscHi neg items lo, [])
    else if lo ≤ c then some (.clsItem false neg (items ++ [(lo, c)]), []) else none
  | .clsEsc neg items =>
    match perlClass c, ctrlEscape c with
    | some more, _ => some (.clsItem false neg (items ++ more), [])
    | none, some x => some (.clsLo neg items x, [])
    | none, none => if isPunct c then some (.clsLo neg items c, []) else none
  | .clsEscHi neg items lo =>
    match ctrlEscape c with
    | some x => if lo ≤ x then some (.clsItem false neg (items ++ [(lo, x)]), []) else none
    | none =>
      if isPunct c ∧ lo ≤ c then some (.clsItem false neg (items ++ [(lo, c)]), [])
      else none
  | .repMin digits =>
    if c.isDigit then
      if digits = ['0'] then some (lexAfterBrace digits c)
      else some (.repMin (digits ++ [c]), [])
    else if c = ',' ∧ digits ≠ [] then some (.repComma digits, [])
    else if c = '}' ∧ digits ≠ [] then
      if digits.length ≤ 4 ∧ digitsVal digits ≤ 1000 then
        some (.normal, [.rep (digitsVal digits) (some (digitsVal digits))])
      else none
    else some (lexAfterBrace digits c)
  | .repComma min =>
    if c = '}' then
      if min.length ≤ 4 ∧ digitsVal min ≤ 1000 then
        some (.normal, [.rep (digitsVal min) none])
      else none
    else if c.isDigit then some (.repMax min [c], [])
    else some (lexAfterBrace (min ++ [',']) c)
  | .repMax min max =>
    if c.isDigit then
      if max = ['0'] then some (lexAfterBrace (min ++ ',' :: max) c)
      else some (.repMax min (max ++ [c]), [])
    else if c = '}' then
      if min.length ≤ 4 ∧ max.length ≤ 4 ∧ digitsVal min ≤ digitsVal max
          ∧ digitsVal max ≤ 1000 then
        some (.normal, [.rep (digitsVal min) (some (digitsVal max))])
      else none
    else some (lexAfterBrace (min ++ ',' :: max) c)

/-- The characters of an expression from a mode on: the mode reached and the tokens
completed on the way. -/
def lexRun : Mode → Str → Option (Mode × List Tok)
  | m, [] => some (m, [])
  | m, c :: cs =>
    match lexStep m c with
    | none => none
    | some (m1, out) =>
      match lexRun m1 cs with
      | none => none
      | some (m2, more) => some (m2, out ++ more)

/-- The tokens an expression ends with when it stops in a mode; none when it stops
inside a token. -/
def lexFinish : Mode → Option (List Tok)
  | .normal => some []
  | .lparen => some [.lpar true]
  | .repMin digits => some (flushBrace digits)
  | .repComma min => some (flushBrace (min ++ [',']))
  | .repMax min max => some (flushBrace (min ++ ',' :: max))
  | _ => none

/-- The tokens of an expression. -/
def lex (e : Str) : Option (List Tok) :=
  match lexRun .normal e with
  | none => none
  | some (m, toks) =>
    match lexFinish m with
    | none => none
    | some last => some (toks ++ last)

/-- The syntax tree of an expression. -/
inductive Re where
  | empty
  | lit (c : Char)
  | cls (neg : Bool) (items : List (Char × Char))
  | dot
  | bol
  | eol
  | wordB (neg : Bool)
  | cat (a b : Re)
  | alt (a b : Re)
  | star (r : Re) (greedy : Bool)
  | plus (r : Re) (greedy : Bool)
  | quest (r : Re) (greedy : Bool)
  | «repeat» (r : Re) (min : Nat) (max : Option Nat) (greedy : Bool)
  | group (idx : Nat) (r : Re)
  deriving DecidableEq, Repr

/-- The concatenation of a sequence. -/
def mkCat : List Re → Re
  | [] => .empty
  | [r] => r
  | r :: rs => .cat r (mkCat rs)

/-- The alternation of a non-empty sequence. -/
def mkAlt : List Re → Re
  | [] => .empty
  | [r] => r
  | r :: rs => .alt r (mkAlt rs)

/-- Go's `repeatIsValid`: nested counted repetitions may not multiply past `n`. -/
def repeatIsValid : Re → Nat → Bool
  | .cat a b, n => repeatIsValid a n && repeatIsValid b n
  | .alt a b, n => repeatIsValid a n && repeatIsValid b n
  | .star r _, n => repeatIsValid r n
  | .plus r _, n => repeatIsValid r n
  | .quest r _, n => repeatIsValid r n
  | .group _ r, n => repeatIsValid r n
  | .repeat r min max _, n =>
    let m := max.getD min
    if max = some 0 then true
    else if m > n then false
    else repeatIsValid r (if m > 0 then n / m else n)
  | _, _ => true

/-- Whether the last thing read was a repetition, and whether it can still be made
non-greedy. -/
inductive LastRep where
  | no
  | greedy
  | final
  deriving DecidableEq, Repr

/-- The part of an expression between an opening parenthesis (or the start) and the
point reached: the capture index of the parenthesis, the finished alternatives and the
items of the alternative being read. -/
structure Frame where
  cap : Option Nat
  alts : List Re
  seq : List Re
  deriving DecidableEq, Repr

/-- The parser: the open frames below the current one, the current frame, the number
of capture groups so far, and the repetition state. -/
structure Parser where
  outer : List Frame
  cur : Frame
  numCap : Nat
  last : LastRep
  deriving DecidableEq, Repr

/-- A frame closed into one expression. -/
def Frame.close (f : Frame) : Re :=
  let r := mkAlt (f.alts ++ [mkCat f.seq])
  match f.cap with
  | some i => .group i r
  | none => r

/-- An item appended to the current alternative. -/
def Parser.push (p : Parser) (r : Re) : Parser :=
  { p with cur := { p.cur with seq := p.cur.seq ++ [r] }, last := .no }

/-- A repetition applied to the last item of the current alternative. -/
def Parser.applyRep (p : Parser) (mk : Re → Bool → Re) : Option Parser :=
  match p.cur.seq.getLast? with
  | none => none
  | some r =>
    if p.last ≠ .no then none
    else
      let r1 := mk r true
      if repeatIsValid r1 1000 then
        some { p with cur := { p.cur with seq := p.cur.seq.dropLast ++ [r1] }, last := .greedy }
      else none

/-- The greedy flag of a repetition turned off. -/
def Re.lazy : Re → Re
  | .star r _ => .star r false
  | .plus r _ => .plus r false
  | .quest r _ => .quest r false
  | .repeat r min max _ => .repeat r min max false
  | r => r

/-- One token; none is a syntax error. -/
def parseStep (p : Parser) : Tok → Option Parser
  | .lit c => some (p.push (.lit c))
  | .cls neg items => some (p.push (.cls neg items))
  | .dot => some (p.push .dot)
  | .bol => some (p.push .bol)
  | .eol => some (p.push .eol)
  | .wordB neg => some (p.push (.wordB neg))
  | .lpar cap =>
    some { outer := p.cur :: p.outer
           cur := { cap := if cap then some (p.numCap + 1) else none, alts := [], seq := [] }
           numCap := if cap then p.numCap + 1 else p.numCap
           last := .no }
  | .rpar =>
    match p.outer with
    | [] => none
    | f :: fs =>
      some { outer := fs
             cur := { f with seq := f.seq ++ [p.cur.close] }
             numCap := p.numCap
             last := .no }
  | .bar =>
    some { p with cur := { p.cur with alts := p.cur.alts ++ [mkCat p.cur.seq], seq := [] },
                  last := .no }
  | .star => p.applyRep Re.star
  | .plus => p.applyRep Re.plus
  | .quest =>
    if p.last = .greedy then
      match p.cur.seq.getLast? with
      | some r => some { p with cur := { p.cur with seq := p.cur.seq.dropLast ++ [r.lazy] },
                                last := .final }
      | none => none
    else p.applyRep Re.quest
  | .rep min max => p.applyRep (fun r g => .repeat r min max g)

/-- The tokens of an expression, one after the other. -/
def parseRun : Parser → List Tok → Option Parser
  | p, [] => some p
  | p, t :: ts =>
    match parseStep p t with
    | some p1 => parseRun p1 ts
    | none => none

/-- The parser before the first token. -/
def Parser.init : Parser :=
  ⟨[], ⟨none, [], []⟩, 0, .no⟩

/-- The syntax tree and the number of capture groups of an expression. -/
def parse (e : Str) : Option (Re × Nat) :=
  match lex e with
  | none => none
  | some toks =>
    match parseRun Parser.init toks with
    | none => none
    | some p => if p.outer = [] then some (p.cur.close, p.numCap) else none

/-- Whether a character is in one of the ranges. -/
def inRanges (items : List (Char × Char)) (c : Char) : Bool :=
  items.any (fun r => r.1 ≤ c ∧ c ≤ r.2)

/-- The capture positions of a match in progress: entry `i` is the span of group `i`. -/
abbrev Caps := List (Option (Nat × Nat))

/-- The rest of a match: from a position, given by the input before it (last character
first) and the input left, and the captures so far. -/
abbrev Cont := Str → Str → Caps → Option Caps

/-- One character tested by `ok`. -/
def stepChar (ok : Char → Bool) (k : Cont) : Cont
  | before, c :: rest, caps => if ok c then k (c :: before) rest caps else none
  | _, [], _ => none

/-- The characters of `\w`. -/
def isWordChar (c : Char) : Bool :=
  isAlnum c || c = '_'

/-- Whether the position between `before` and `rest` is an ASCII word boundary. -/
def atWordBoundary (before rest : Str) : Bool :=
  (before.head?.map isWordChar).getD false != (rest.head?.map isWordChar).getD false

/-- The rounds of a loop after its first one, Go's jump back to the body: a round that
ends where it began comes back to a state of the program already visited at this
position, and is dropped, so every further round consumes input.  A greedy loop tries
another round before it goes on. -/
def loopRest (step : Cont → Cont) (greedy : Bool) : Nat → Cont → Cont
  | 0, _, _, _, _ => none
  | fuel + 1, k, before, rest, caps =>
    let more : Option Caps :=
      step (fun b r c =>
        if r.length = rest.length then none else loopRest step greedy fuel k b r c)
        before rest caps
    if greedy then
      match more with
      | some c => some c
      | none => k before rest caps
    else
      match k before rest caps with
      | some c => some c
      | none => more

/-- The loop of `x+`: one round, then the rounds of `loopRest`.  After a first round
that consumed nothing the jump back to the body is dropped and the loop is left. -/
def loopPlus (step : Cont → Cont) (greedy : Bool) (fuel : Nat) (k : Cont) : Cont :=
  fun before rest caps =>
    step (fun b r c =>
      if r.length = rest.length then k b r c else loopRest step greedy fuel k b r c)
      before rest caps

/-- The loop of `x*`, which Go compiles as `(x+)?`. -/
def loopStar (step : Cont → Cont) (greedy : Bool) (fuel : Nat) (k : Cont) : Cont :=
  fun before rest caps =>
    if greedy then
      match loopPlus step greedy fuel k before rest caps with
      | some c => some c
      | none => k before rest caps
    else
      match k before rest caps with
      | some c => some c
      | none => loopPlus step greedy fuel k before rest caps

/-- The optional rounds of `x{n,m}`, which Go nests as `(x(x(x)?)?)?`; `x?` is one
such round. -/
def optRounds (step : Cont → Cont) (greedy : Bool) : Nat → Cont → Cont
  | 0, k => k
  | m + 1, k => fun before rest caps =>
    if greedy then
      match step (optRounds step greedy m k) before rest caps with
      | some c => some c
      | none => k before rest caps
    else
      match k before rest caps with
      | some c => some c
      | none => step (optRounds step greedy m k) before rest caps

/-- The required rounds of `x{n,m}` and `x{n,}`: copies of `x` one after the other. -/
def reqRounds (step : Cont → Cont) : Nat → Cont → Cont
  | 0, k => k
  | n + 1, k => step (reqRounds step n k)

/-- The backtracking matcher: the first way, in the order of preference of the
expression, to match `r` here and the rest of the match after it.  The repetitions
are run as Go compiles them: `x*` as `(x+)?`, `x{n,}` as `n - 1` copies of `x` and
`x+`, `x{n,m}` as `n` copies of `x` and `m - n` nested optional rounds. -/
def Re.run : Re → Cont → Cont
  | .empty, k, before, rest, caps => k before rest caps
  | .lit c, k, before, rest, caps => stepChar (fun x => x = c) k before rest caps
  | .cls neg items, k, before, rest, caps =>
    stepChar (fun x => if neg then !inRanges items x else inRanges items x) k before rest caps
  | .dot, k, before, rest, caps => stepChar (fun x => x ≠ '\n') k before rest caps
  | .bol, k, before, rest, caps => if before = [] then k before rest caps else none
  | .eol, k, before, rest, caps => if rest = [] then k before rest caps else none
  | .wordB neg, k, before, rest, caps =>
    if atWordBoundary before rest != neg then k before rest caps else none
  | .cat a b, k, before, rest, caps => a.run (b.run k) before rest caps
  | .alt a b, k, before, rest, caps =>
    match a.run k before rest caps with
    | some c => some c
    | none => b.run k before rest caps
  | .star r g, k, before, rest, caps =>
    loopStar r.run g (rest.length + 1) k before rest caps
  | .plus r g, k, before, rest, caps =>
    loopPlus r.run g (rest.length + 1) k before rest caps
  | .quest r g, k, before, rest, caps =>
    optRounds r.run g 1 k before rest caps
  | .repeat r min max g, k, before, rest, caps =>
    match max with
    | some m => reqRounds r.run min (optRounds r.run g (m - min) k) before rest caps
    | none =>
      match min with
      | 0 => loopStar r.run g (rest.length + 1) k before rest caps
      | n + 1 =>
        reqRounds r.run n (loopPlus r.run g (rest.length + 1) k) before rest caps
  | .group idx r, k, before, rest, caps =>
    r.run (fun b x c => k b x (c.set idx (some (before.length, b.length)))) before rest caps

/-- The match that starts at the earliest position. -/
def findFrom (r : Re) (n : Nat) : Str → Str → Option Caps
  | before, rest =>
    match r.run (fun b _ c => some (c.set 0 (some (before.length, b.length)))) before rest
        (List.replicate (n + 1) none) with
    | some c => some c
    | none =>
      match rest with
      | [] => none
      | x :: rest1 => findFrom r n (x :: before) rest1

/-- The index pairs of `FindStringSubmatchIndex`; a group that took no part is -1, -1. -/
def capsToInts : Caps → List Int
  | [] => []
  | some (a, b) :: rest => (a : Int) :: (b : Int) :: capsToInts rest
  | none :: rest => (-1) :: (-1) :: capsToInts rest

/-- The model of the regexp package. -/
def goRegexp : RegexpLib where
  compile e := (parse e).map Prod.snd
  find e s :=
    match parse e with
    | none => []
    | some (r, n) =>
      match findFrom r n [] s with
      | some caps => capsToInts caps
      | none => []


/-- The template `addRegexpMatcher` compiles (pattern.go:144-151): for a path or path
prefix, the template of the stored path descriptor with its trailing slashes
trimmed, followed by `tpl`. -/
def Pattern.fullTemplate (p : Pattern) (tpl : Str) (matchHost matchQuery : Bool) : Str :=
  if !matchHost && !matchQuery then
    match p.regexp.path with
    | some path => trimRightSlash path.template ++ tpl
    | none => tpl
  else tpl

/-- The Pattern after `addRegexpMatcher` has stored the descriptor `rr`
(pattern.go:161-184). -/
def Pattern.store (p : Pattern) (rr : routeRegexp) (matchHost matchQuery : Bool) : Pattern :=
  { p with
    regexp :=
      if matchHost then { p.regexp with host := some rr }
      else if matchQuery then { p.regexp with queries := p.regexp.queries ++ [rr] }
      else { p.regexp with path := some rr }
    matchers := p.matchers ++ [rr] }

/-- The descriptors a new descriptor's variable names are compared with
(pattern.go:156-173): the stored queries, and the path descriptor for a host, the
host descriptor otherwise. -/
def Pattern.comparedWith (p : Pattern) (matchHost : Bool) : List routeRegexp :=
  p.regexp.queries ++ (if matchHost then p.regexp.path.toList else p.regexp.host.toList)

/-- The descriptors of a group: host, path, then the queries. -/
def routeRegexpGroup.descriptors (g : routeRegexpGroup) : List routeRegexp :=
  g.host.toList ++ g.path.toList ++ g.queries

/-- The part of the URL a descriptor is matched against (`routeRegexp.Match`): the
host, the single query `key=value`, or the path. -/
def routeRegexp.component (d : routeRegexp) (u : URL) : Str :=
  if d.matchHost then getHost u
  else if d.matchQuery then d.getURLQuery u
  else if d.useEncodedPath then getPath u else u.Path

/-- The value `v` is what capture group `i + 1` of the descriptor's expression spans in
its component of the URL, and `k` is the descriptor's `i`-th variable name. -/
def routeRegexp.captures (re : RegexpLib) (d : routeRegexp) (u : URL) (k v : Str) : Prop :=
  ∃ i lo hi, d.varsN.get? i = some k
    ∧ intAt (re.find d.regexp (d.component u)) (2 * i + 2) = some lo
    ∧ intAt (re.find d.regexp (d.component u)) (2 * i + 3) = some hi
    ∧ slice (d.component u) lo hi = some v

/-- The invariant of the build calls: every descriptor of the group is in the matcher
list, and sits in the slot of its kind. -/
def GroupInv (p : Pattern) : Prop :=
  (∀ d, p.regexp.host = some d → d ∈ p.matchers ∧ d.matchHost = true)
    ∧ (∀ d, p.regexp.path = some d → d ∈ p.matchers ∧ d.matchHost = false ∧ d.matchQuery = false)
    ∧ (∀ d ∈ p.regexp.queries, d ∈ p.matchers ∧ d.matchHost = false ∧ d.matchQuery = true)

/-- What `getMatch` has put in the map after the descriptors `ds`: the keys are their
variable names, each once, and every value is the span of a capture group of one of
them. -/
def Extracted (re : RegexpLib) (u : URL) (ds : List routeRegexp) (vars : Vars) : Prop :=
  (∀ k, k ∈ vars.map Prod.fst ↔ ∃ d ∈ ds, k ∈ d.varsN)
    ∧ (vars.map Prod.fst).Nodup
    ∧ (∀ k v, (k, v) ∈ vars → ∃ d ∈ ds, d.captures re u k v)

/-- The brace depth of a string: its opening braces minus its closing braces. -/
def depth (s : Str) : Int :=
  (s.count '{' : Int) - (s.count '}' : Int)

/-- Unbalanced braces: some prefix holds more closing than opening braces, or the
totals differ. -/
def Unbalanced (s : Str) : Prop :=
  (∃ n, (s.take n).count '{' < (s.take n).count '}') ∨ s.count '{' ≠ s.count '}'

/-- The index list `[a0, b0, a1, b1, ...]` of a list of spans. -/
def flatSpans : List (Nat × Nat) → List Nat
  | [] => []
  | (a, b) :: rest => a :: b :: flatSpans rest

/-- The half-open range `[a, b)` of `s` is a top-level brace span: it opens with `{` at
depth zero and closes with the first `}` that brings the depth back to zero. -/
structure TopLevelSpan (s : Str) (a b : Nat) : Prop where
  lt : a < b
  le : b ≤ s.length
  opens : s.get? a = some '{'
  closes : s.get? (b - 1) = some '}'
  depth_before : depth (s.take a) = 0
  depth_after : depth (s.take b) = 0
  inside : ∀ j, a < j → j < b → 0 < depth (s.take j)

/-- The invariant of the loop of `braceIndices` before position `i`. -/
structure BraceInv (s : Str) (i : Nat) (level : Int) (idx : Nat) (spans : List (Nat × Nat)) :
    Prop where
  level_eq : level = depth (s.take i)
  nonneg : ∀ n, n ≤ i → 0 ≤ depth (s.take n)
  sorted : spans.Pairwise (fun x y => x.2 ≤ y.1)
  good : ∀ ab ∈ spans, TopLevelSpan s ab.1 ab.2
  bound : ∀ ab ∈ spans, ab.2 ≤ (if level = 0 then i else idx)
  covered : ∀ j c, j < (if level = 0 then i else idx) → s.get? j = some c →
    (c = '{' ∨ c = '}') → ∃ ab ∈ spans, ab.1 ≤ j ∧ j < ab.2
  «open» : 0 < level → idx < i ∧ s.get? idx = some '{' ∧ depth (s.take idx) = 0
    ∧ ∀ j, idx < j → j ≤ i → 0 < depth (s.take j)

/-- Go's `fmt.Sprintf` for string operands and a format whose only directives are `%s`
and `%%`: a `%s` without an operand prints `%!s(MISSING)`, operands left over are
listed as `%!(EXTRA string=..., ...)`.  none for a format with another directive,
which is not modelled. -/
def sprintf : Str → List Str → Option Str
  | [], [] => some []
  | [], a :: args =>
    some ("%!(EXTRA ".toList
      ++ ", ".toList.intercalate ((a :: args).map (fun x => "string=".toList ++ x))
      ++ ")".toList)
  | '%' :: 's' :: fmt, a :: args => (sprintf fmt args).map (a ++ ·)
  | '%' :: 's' :: fmt, [] => (sprintf fmt []).map ("%!s(MISSING)".toList ++ ·)
  | '%' :: '%' :: fmt, args => (sprintf fmt args).map ('%' :: ·)
  | '%' :: _, _ => none
  | c :: fmt, args => (sprintf fmt args).map (c :: ·)

/-- The first loop of `routeRegexp.url` (regexp.go:171-177): the values of the
variable names, or the error for the first name the map lacks. -/
def lookupValues (values : Vars) : List Str → Except Err (List Str)
  | [] => .ok []
  | v :: vs =>
    match values.get v with
    | none => .error (.missingRouteVariable v)
    | some value =>
      match lookupValues values vs with
      | .ok rest => .ok (value :: rest)
      | .error e => .error e

/-- The second loop of `routeRegexp.url` (regexp.go:183-189) from index `k` on: the
error for the first value its validator rejects; `values[v]` of a missing key is the
empty string, and an index past the end of `varsR` is a panic. -/
def checkValues (re : RegexpLib) (values : Vars) (varsR : List Str) :
    List Str → Nat → Except Fault Unit
  | [], _ => .ok ()
  | v :: vs, k =>
    match varsR.get? k with
    | none => .error .panic
    | some validator =>
      if !re.matchString validator ((values.get v).getD []) then
        .error (.err (.variableDoesntMatch ((values.get v).getD []) validator))
      else checkValues re values varsR vs (k + 1)

/-- The method `routeRegexp.url`; none when `Sprintf` leaves the modelled formats. -/
def routeRegexp.url (re : RegexpLib) (r : routeRegexp) (values : Vars) :
    Option (Except Fault Str) :=
  match lookupValues values r.varsN with
  | .error e => some (.error (.err e))
  | .ok urlValues =>
    match sprintf r.reverse urlValues with
    | none => none
    | some rv =>
      if !re.matchString r.regexp rv then
        match checkValues re values r.varsR r.varsN 0 with
        | .error f => some (.error f)
        | .ok _ => some (.ok rv)
      else some (.ok rv)

/-- The items of a run of literal characters. -/
def litItems (raw : Str) : List Re := raw.map Re.lit

/-- One brace span of a template as `newRouteRegexp` reads it: the literal text before
it, the variable name and the pattern of the variable. -/
structure Seg where
  raw : Str
  name : Str
  patt : Str
  deriving DecidableEq, Repr

/-- The text the parsing loop adds to the expression for a list of spans, the first of
which gets the group name `v<k>`. -/
def patText : Nat → List Seg → Str
  | _, [] => []
  | k, g :: gs =>
    quoteMeta g.raw ++ ("(?P<".toList ++ (varGroupName k ++ (">".toList ++ (g.patt
      ++ (")".toList ++ patText (k + 1) gs)))))

/-- The text the parsing loop adds to the reverse template for a list of spans. -/
def revText : List Seg → Str
  | [] => []
  | g :: gs => g.raw ++ ("%s".toList ++ revText gs)

/-- The validator expression of a span. -/
def Seg.validator (g : Seg) : Str :=
  "^".toList ++ g.patt ++ "$".toList

/-- The literal texts of the spans with a value put after each. -/
def fill : List Seg → List Str → Str
  | g :: gs, v :: vs => g.raw ++ (v ++ fill gs vs)
  | _, _ => []

/-- The tokens of one span in the assembled expression: the literal text before the
group, the tokens of the pattern, and whether the pattern ends in a backslash, which
turns the closing of the group into a literal. -/
structure SegToks where
  raw : Str
  toks : List Tok
  esc : Bool
  deriving DecidableEq, Repr

/-- The token that `)` gives after a pattern. -/
def closeTok (esc : Bool) : Tok :=
  if esc then .lit ')' else .rpar

/-- The token that `$` gives after a pattern. -/
def endTok (esc : Bool) : Tok :=
  if esc then .lit '$' else .eol

/-- The tokens of the spans of an assembled expression. -/
def skelToks : List SegToks → List Tok
  | [] => []
  | g :: gs =>
    g.raw.map Tok.lit ++ (Tok.lpar true :: (g.toks ++ (closeTok g.esc :: skelToks gs)))

/-- The parentheses a token list opens minus those it closes. -/
def tokDepth : List Tok → Int
  | [] => 0
  | .lpar _ :: ts => 1 + tokDepth ts
  | .rpar :: ts => -1 + tokDepth ts
  | _ :: ts => tokDepth ts

/-- The capturing parentheses of a token list. -/
def capCount : List Tok → Nat
  | [] => 0
  | .lpar true :: ts => 1 + capCount ts
  | _ :: ts => capCount ts

/-- An expression without capture groups. -/
def GroupFree : Re → Bool
  | .cat a b => GroupFree a && GroupFree b
  | .alt a b => GroupFree a && GroupFree b
  | .star r _ => GroupFree r
  | .plus r _ => GroupFree r
  | .quest r _ => GroupFree r
  | .repeat r _ _ _ => GroupFree r
  | .group _ _ => false
  | _ => true

/-- A frame whose items have no capture groups. -/
def Frame.groupFree (f : Frame) : Prop :=
  (∀ r ∈ f.alts, GroupFree r = true) ∧ (∀ r ∈ f.seq, GroupFree r = true)

/-- The parser inside the capture group `idx`, opened on the frames `B`: the frames `E`
opened since then are non-capturing, no item on them has a capture group, and the
group count has not moved. -/
def Above (B : List Frame) (idx nc : Nat) (E : List Frame) (p : Parser) : Prop :=
  p.outer = E ++ B ∧ p.numCap = nc
    ∧ (p.cur :: E).map Frame.cap = List.replicate E.length none ++ [some idx]
    ∧ ∀ f ∈ p.cur :: E, f.groupFree

/-- The items of the spans of an assembled expression: literal text, then the group of
the variable. -/
def skelItems : Nat → List Str → List Re → List Re
  | k, raw :: raws, r :: rs => litItems raw ++ (Re.group k r :: skelItems (k + 1) raws rs)
  | _, _, _ => []

/-- The capture positions of the values `vs` put after the literal texts of the spans,
for text that starts at position `pos`. -/
def spansFrom : Nat → List Seg → List Str → List (Nat × Nat)
  | pos, g :: gs, v :: vs =>
    (pos + g.raw.length, pos + g.raw.length + v.length)
      :: spansFrom (pos + g.raw.length + v.length) gs vs
  | _, _, _ => []

/-- Capture positions stored for the groups `k`, `k + 1`, ... -/
def setSpans : Nat → List (Nat × Nat) → Caps → Caps
  | _, [], c => c
  | k, sp :: sps, c => setSpans (k + 1) sps (c.set k (some sp))

/-- The assignments `output[name] = value` for a list of names and their values. -/
def Vars.setAll : Vars → List Str → List Str → Vars
  | m, name :: names, v :: vs => Vars.setAll (m.set name v) names vs
  | m, _, _ => m

/-- What `newRouteRegexp` appends to the expression after the last literal text
(regexp.go:91-101): the optional slash, the default pattern of a query without a
value, and the end anchor. -/
def exprTail (tpl : Str) (matchHost matchPrefix matchQuery strictSlash : Bool) : Str :=
  let matchPrefix := if !matchQuery && matchHost then false else matchPrefix
  let strictSlash := if matchPrefix || matchHost || matchQuery then false else strictSlash
  (if strictSlash then "[/]?".toList else [])
    ++ ((if matchQuery && (splitN2 '=' tpl).2 = some [] then "[^?&]*".toList else [])
      ++ (if !matchPrefix then "$".toList else []))

/-- The three optional parts of the tail of an expression: `[/]?`, `[^?&]*` and `$`. -/
def tailText (slash query anchor : Bool) : Str :=
  (if slash then "[/]?".toList else [])
    ++ ((if query then "[^?&]*".toList else []) ++ (if anchor then "$".toList else []))

/-- The tokens of the tail of an expression. -/
def tailToks (slash query anchor : Bool) : List Tok :=
  (if slash then [Tok.cls false [('/', '/')], Tok.quest] else [])
    ++ ((if query then [Tok.cls true [('?', '?'), ('&', '&')], Tok.star] else [])
      ++ (if anchor then [Tok.eol] else []))

/-- The items of the tail of an expression. -/
def tailItems (slash query anchor : Bool) : List Re :=
  (if slash then [Re.quest (.cls false [('/', '/')]) true] else [])
    ++ ((if query then [Re.star (.cls true [('?', '?'), ('&', '&')]) true] else [])
      ++ (if anchor then [Re.eol] else []))

/-- The round trip of a descriptor on a text it matches: the variables `extractVars`
reads from the match into an empty map, given to `url`.  none when the descriptor does
not match the text. -/
def routeRegexp.roundTrip (re : RegexpLib) (d : routeRegexp) (s : Str) :
    Option (Except Fault Str) :=
  if re.matchString d.regexp s then
    (extractVars s (re.find d.regexp s) d.varsN 0 []).bind (d.url re)
  else none

/-- The expression that `newRouteRegexp` hands to `regexp.Compile` at regexp.go:103,
for the indices `idxs` that `braceIndices` returned: what `assembleRouteRegexp` has
written to `pattern` when it gets there. -/
def routeExpr (re : RegexpLib) (tpl : Str) (idxs : List Nat)
    (matchHost matchPrefix matchQuery strictSlash : Bool) : Except Fault Str :=
  let template := tpl
  let defaultPattern : Str :=
    if matchQuery then "[^?&]*".toList
    else if matchHost then "[^.]+".toList else "[^/]+".toList
  let matchPrefix := if !matchQuery && matchHost then false else matchPrefix
  let strictSlash := if matchPrefix || matchHost || matchQuery then false else strictSlash
  let endSlash := strictSlash && hasSuffixSlash tpl
  let tpl := if endSlash then tpl.dropLast else tpl
  match parseSpans re tpl defaultPattern idxs 0
      { endIdx := 0, pattern := "^".toList, reverse := [], varsN := [], varsR := [] } with
  | .error f => .error f
  | .ok st =>
    match slice tpl st.endIdx tpl.length with
    | none => .error .panic
    | some raw =>
      let pattern := st.pattern ++ quoteMeta raw
      let pattern := if strictSlash then pattern ++ "[/]?".toList else pattern
      let queryVal : Option Str := if matchQuery then (splitN2 '=' template).2 else some []
      match queryVal with
      | none => .error .panic
      | some qv =>
        let pattern :=
          if matchQuery && qv = [] then pattern ++ defaultPattern else pattern
        .ok (if !matchPrefix then pattern ++ "$".toList else pattern)

/-- The variable `defaultPattern` of `newRouteRegexp` (regexp.go:31-37). -/
def defaultPattern (matchHost matchQuery : Bool) : Str :=
  if matchQuery then "[^?&]*".toList
  else if matchHost then "[^.]+".toList else "[^/]+".toList

/-- The text between the braces of the span `[a, b)` of a template. -/
def spanInner (tpl : Str) (a b : Nat) : Str :=
  (tpl.drop (a + 1)).take (b - 1 - (a + 1))

/-- The name a span declares, in the words of the spec: the text before the first `:`
(all of it when there is no `:`). -/
def spanName (inner : Str) : Str :=
  inner.takeWhile (fun c => c ≠ ':')

/-- The pattern of a span, in the words of the spec: the text after the first `:`, and
the default pattern `dp` when the span has no `:`. -/
def spanPattern (dp inner : Str) : Str :=
  if ':' ∈ inner then (inner.dropWhile (fun c => c ≠ ':')).drop 1 else dp

/-- The spans of a template as `newRouteRegexp` reads them, for the spans `[a, b)` that
`braceIndices` found: the literal text between the end `e` of the span before and the
span, the name and the pattern. -/
def spanSegs (tpl dp : Str) : Nat → List (Nat × Nat) → List Seg
  | _, [] => []
  | e, (a, b) :: rest =>
    ⟨(tpl.drop e).take (a - e), spanName (spanInner tpl a b), spanPattern dp (spanInner tpl a b)⟩
      :: spanSegs tpl dp b rest

/-- Spans that follow each other from position `e` on in a text of length `n`, each
with room for its two braces. -/
def SpansWithin (n : Nat) : Nat → List (Nat × Nat) → Prop
  | _, [] => True
  | e, (a, b) :: rest => e ≤ a ∧ a + 2 ≤ b ∧ b ≤ n ∧ SpansWithin n b rest

/-- The contract of the regexp package that the round trip of a descriptor rests on.
Take an expression made of `^`, then for each span its quoted literal text and a named
capture group around its pattern, then quoted literal text and a tail.  When every
pattern compiles between `^` and `$`, every pattern compiles in a named group of its
own to one capture group, and the whole expression compiles to as many capture groups
as it has spans, the expression matches only texts made of the literal texts with a
value after each, followed by what the tail lets through, and
`FindStringSubmatchIndex` reports the positions of these values, in order.  The two
conditions on the patterns make each pattern a closed expression without capture
groups, so that each named group is entered and left once on the way through a
matching text; the model `goRegexp` keeps the contract (`goRegexp_tiles`). -/
def RegexpLib.Tiles (re : RegexpLib) : Prop :=
  ∀ (segs : List Seg) (rawN : Str) (a b c : Bool) (s : Str),
    (∀ g ∈ segs, (re.compile g.validator).isSome) →
    (∀ g ∈ segs, re.compile ("(?P<v0>".toList ++ (g.patt ++ ")".toList)) = some 1) →
    re.compile ("^".toList ++ (patText 0 segs ++ (quoteMeta rawN ++ tailText a b c)))
      = some segs.length →
    re.matchString ("^".toList ++ (patText 0 segs ++ (quoteMeta rawN ++ tailText a b c))) s
      = true →
    ∃ (vs : List Str) (rem : Str) (stop : Nat), vs.length = segs.length
      ∧ s = fill segs vs ++ (rawN ++ rem)
      ∧ re.find ("^".toList ++ (patText 0 segs ++ (quoteMeta rawN ++ tailText a b c))) s
        = capsToInts (some (0, stop) :: (spansFrom 0 segs vs).map some)
      ∧ (a = true → b = false → c = true → rem = [] ∨ rem = ['/'])
      ∧ (a = false → b = false → c = true → rem = [])

/-! ## The sticky error -/

theorem addRegexpMatcher_errored (re : RegexpLib) (p : Pattern) (tpl : Str) (mh mp mq : Bool)
    (h : p.err ≠ none) : p.addRegexpMatcher re tpl mh mp mq = some (p, p.err) := by
  simp [Pattern.addRegexpMatcher, h]

theorem addAndReturn_errored (re : RegexpLib) (p : Pattern) (tpl : Str) (mh mp mq : Bool)
    (h : p.err ≠ none) : p.addAndReturn re tpl mh mp mq = some ⟨p, .receiver⟩ := by
  simp [Pattern.addAndReturn, addRegexpMatcher_errored re p tpl mh mp mq h]

theorem queriesLoop_errored (re : RegexpLib) (p : Pattern) (pairs : List Str)
    (h : p.err ≠ none) : p.queriesLoop re pairs = some ⟨p, .receiver⟩ := by
  match pairs with
  | [] => simp [Pattern.queriesLoop]
  | [_] => simp [Pattern.queriesLoop]
  | k :: v :: rest =>
    obtain ⟨e, he⟩ := Option.ne_none_iff_exists'.mp h
    have h1 := addRegexpMatcher_errored re p (k ++ "=".toList ++ v) false false true h
    rw [he] at h1
    simp only [Pattern.queriesLoop, h1]
    cases p
    simp_all

/-- A build call on an errored Pattern returns, keeps the Pattern errored and leaves
everything but the error value as it was. -/
theorem call_errored (re : RegexpLib) (p : Pattern) (c : Call) (h : p.err ≠ none) :
    ∃ b, p.call re c = some b ∧ b.pattern.err ≠ none ∧ b.pattern.matchers = p.matchers
      ∧ b.pattern.regexp = p.regexp := by
  cases c with
  | Host tpl => exact ⟨_, addAndReturn_errored re p tpl _ _ _ h, h, rfl, rfl⟩
  | Path tpl => exact ⟨_, addAndReturn_errored re p tpl _ _ _ h, h, rfl, rfl⟩
  | PathPrefix tpl => exact ⟨_, addAndReturn_errored re p tpl _ _ _ h, h, rfl, rfl⟩
  | Queries pairs =>
    by_cases hodd : pairs.length % 2 ≠ 0
    · exact ⟨_, by simp only [Pattern.call, Pattern.Queries, if_pos hodd]; rfl, by simp, rfl, rfl⟩
    · exact ⟨_, by simp only [Pattern.call, Pattern.Queries, if_neg hodd];
                   exact queriesLoop_errored re p pairs h, h, rfl, rfl⟩

theorem Match_errored (re : RegexpLib) (p : Pattern) (u : URL) (h : p.err ≠ none) :
    p.Match re u = some ([], false) := by
  simp [Pattern.Match, h]

/-- C2. Errored is a terminal state: on a Pattern whose error is set, every finite
sequence of Host, Path, PathPrefix and Queries calls returns, the error is still set
afterwards, the matcher list and the group are unchanged, and Match returns the empty
map and matched = false for every URL. -/
theorem errored_is_terminal (re : RegexpLib) (p : Pattern) (cs : List Call)
    (h : p.err ≠ none) :
    ∃ q, p.calls re cs = some q ∧ q.err ≠ none ∧ q.matchers = p.matchers
      ∧ q.regexp = p.regexp ∧ ∀ u, q.Match re u = some ([], false) := by
  induction cs generalizing p with
  | nil => exact ⟨p, rfl, h, rfl, rfl, fun u => Match_errored re p u h⟩
  | cons c cs ih =>
    obtain ⟨b, hb, he, hm, hg⟩ := call_errored re p c h
    obtain ⟨q, hq, hqe, hqm, hqg, hmatch⟩ := ih b.pattern he
    exact ⟨q, by simp only [Pattern.calls, hb, hq], hqe, hqm.trans hm, hqg.trans hg, hmatch⟩

/-- The witness of C2: the Pattern left errored by `Path("x")`, then three more calls. -/
theorem errored_is_terminal_witness :
    ∃ q, Pattern.calls goRegexp
        { NewPattern with err := some (.pathMustStartWithSlash "x".toList) }
        [.Host "{a}.com".toList, .Queries ["k".toList], .Path "/{a}".toList] = some q
      ∧ q.err ≠ none ∧ q.matchers = [] ∧ q.regexp = NewPattern.regexp
      ∧ ∀ u, q.Match goRegexp u = some ([], false) :=
  errored_is_terminal goRegexp
    { NewPattern with err := some (.pathMustStartWithSlash "x".toList) }
    [.Host "{a}.com".toList, .Queries ["k".toList], .Path "/{a}".toList] (by decide)


/-! ## The return value and the error of a build call -/

/-- C3. `Queries` with an odd number of arguments returns nil, not its receiver, and
on a Pattern that is already errored (here by `Path("x")`) it replaces the first
error by its own. -/
theorem Queries_odd_returns_nil_and_overwrites :
    NewPattern.Queries goRegexp ["a".toList]
        = some ⟨{ NewPattern with err := some (.oddQueryPairs ["a".toList]) }, .nil⟩
      ∧ NewPattern.Path goRegexp "x".toList
        = some ⟨{ NewPattern with err := some (.pathMustStartWithSlash "x".toList) }, .receiver⟩
      ∧ Pattern.Queries goRegexp
          { NewPattern with err := some (.pathMustStartWithSlash "x".toList) } ["a".toList]
        = some ⟨{ NewPattern with err := some (.oddQueryPairs ["a".toList]) }, .nil⟩ := by
  decide

/-! ## What addRegexpMatcher does -/

/-- The body of `addRegexpMatcher` once the sticky error and the leading slash are
checked: compile, compare the variable names, store. -/
theorem addRegexpMatcher_eq (re : RegexpLib) (p : Pattern) (tpl : Str) (mh mp mq : Bool)
    (hp : p.err = none)
    (hs : (!mh && !mq && (decide (tpl.length > 0) && decide (tpl.head? ≠ some '/'))) = false) :
    p.addRegexpMatcher re tpl mh mp mq =
      match newRouteRegexp re (p.fullTemplate tpl mh mq) mh mp mq p.strictSlash
          p.useEncodedPath with
      | .error .panic => none
      | .error (.err e) => some (p, some e)
      | .ok rr =>
        match uniqueAgainstQueries rr.varsN p.regexp.queries with
        | some e => some (p, some e)
        | none =>
          match uniqueAgainstSlot rr.varsN (if mh then p.regexp.path else p.regexp.host) with
          | some e => some (p, some e)
          | none => some (p.store rr mh mq, none) := by
  unfold Pattern.addRegexpMatcher
  rw [if_neg (by simp [hp]), if_neg (by simp only [hs]; decide)]
  dsimp only
  have hft : (if (!mh && !mq) = true then
        match p.regexp.path with
        | some path => trimRightSlash path.template ++ tpl
        | none => tpl
      else tpl) = p.fullTemplate tpl mh mq := rfl
  rw [hft]
  cases hnew : newRouteRegexp re (p.fullTemplate tpl mh mq) mh mp mq p.strictSlash
      p.useEncodedPath with
  | error f => cases f <;> rfl
  | ok rr =>
    dsimp only
    cases hq : uniqueAgainstQueries rr.varsN p.regexp.queries with
    | some e => rfl
    | none =>
      dsimp only
      cases mh with
      | true =>
        simp only [if_true]
        cases hsl : uniqueAgainstSlot rr.varsN p.regexp.path with
        | some e => rfl
        | none => simp [Pattern.store]
      | false =>
        simp only [Bool.false_eq_true, if_false]
        cases hsl : uniqueAgainstSlot rr.varsN p.regexp.host with
        | some e => rfl
        | none => cases mq <;> simp [Pattern.store]

/-- A failed or refused add leaves the Pattern as it was; a successful one stores the
new descriptor. -/
theorem addRegexpMatcher_cases (re : RegexpLib) (p q : Pattern) (tpl : Str) (mh mp mq : Bool)
    (e : Option Err) (h : p.addRegexpMatcher re tpl mh mp mq = some (q, e)) :
    (q = p ∧ (p.err = none → e ≠ none)) ∨
      (p.err = none ∧ e = none ∧ ∃ rr,
        newRouteRegexp re (p.fullTemplate tpl mh mq) mh mp mq p.strictSlash p.useEncodedPath
          = .ok rr ∧ q = p.store rr mh mq) := by
  by_cases hp : p.err = none
  · by_cases hs : (!mh && !mq && (decide (tpl.length > 0) && decide (tpl.head? ≠ some '/'))) = false
    · rw [addRegexpMatcher_eq re p tpl mh mp mq hp hs] at h
      cases hnew : newRouteRegexp re (p.fullTemplate tpl mh mq) mh mp mq p.strictSlash
          p.useEncodedPath with
      | error f =>
        rw [hnew] at h
        cases f with
        | panic => simp at h
        | err e1 => simp at h; exact Or.inl ⟨h.1.symm, fun _ => by simp [← h.2]⟩
      | ok rr =>
        rw [hnew] at h
        dsimp only at h
        cases hq : uniqueAgainstQueries rr.varsN p.regexp.queries with
        | some e1 => rw [hq] at h; simp at h; exact Or.inl ⟨h.1.symm, fun _ => by simp [← h.2]⟩
        | none =>
          rw [hq] at h
          dsimp only at h
          cases hsl : uniqueAgainstSlot rr.varsN (if mh then p.regexp.path else p.regexp.host) with
          | some e1 => rw [hsl] at h; simp at h; exact Or.inl ⟨h.1.symm, fun _ => by simp [← h.2]⟩
          | none =>
            rw [hsl] at h; simp at h
            exact Or.inr ⟨hp, h.2.symm, rr, rfl, h.1.symm⟩
    · simp only [Bool.not_eq_false] at hs
      unfold Pattern.addRegexpMatcher at h
      rw [if_neg (by simp [hp]), if_pos hs] at h
      simp at h
      exact Or.inl ⟨h.1.symm, fun _ => by simp [← h.2]⟩
  · rw [addRegexpMatcher_errored re p tpl mh mp mq hp] at h
    simp at h
    exact Or.inl ⟨h.1.symm, fun hp1 => absurd hp1 hp⟩

theorem addRegexpMatcher_appends (re : RegexpLib) (p q : Pattern) (tpl : Str) (mh mp mq : Bool)
    (e : Option Err) (h : p.addRegexpMatcher re tpl mh mp mq = some (q, e)) :
    ∃ added, q.matchers = p.matchers ++ added := by
  rcases addRegexpMatcher_cases re p q tpl mh mp mq e h with ⟨rfl, _⟩ | ⟨_, _, rr, _, rfl⟩
  · exact ⟨[], by simp⟩
  · exact ⟨[rr], rfl⟩

theorem addAndReturn_appends (re : RegexpLib) (p : Pattern) (tpl : Str) (mh mp mq : Bool)
    (b : Built) (h : p.addAndReturn re tpl mh mp mq = some b) :
    ∃ added, b.pattern.matchers = p.matchers ++ added := by
  unfold Pattern.addAndReturn at h
  split at h
  · simp at h
  · rename_i p1 e heq
    simp at h
    obtain ⟨added, ha⟩ := addRegexpMatcher_appends re p p1 tpl mh mp mq e heq
    exact ⟨added, by rw [← h]; exact ha⟩

theorem queriesLoop_appends (re : RegexpLib) (n : Nat) (p : Pattern) (pairs : List Str)
    (hn : pairs.length ≤ n) (b : Built) (h : p.queriesLoop re pairs = some b) :
    ∃ added, b.pattern.matchers = p.matchers ++ added := by
  induction n generalizing p pairs with
  | zero =>
    match pairs, hn with
    | [], _ => simp [Pattern.queriesLoop] at h; exact ⟨[], by simp [← h]⟩
  | succ n ih =>
    match pairs, hn with
    | [], _ => simp [Pattern.queriesLoop] at h; exact ⟨[], by simp [← h]⟩
    | [_], _ => simp [Pattern.queriesLoop] at h; exact ⟨[], by simp [← h]⟩
    | k :: v :: rest, hn =>
      simp only [Pattern.queriesLoop] at h
      split at h
      · simp at h
      · rename_i p1 e heq
        simp at h
        obtain ⟨added, ha⟩ := addRegexpMatcher_appends re p p1 _ _ _ _ _ heq
        exact ⟨added, by rw [← h]; exact ha⟩
      · rename_i p1 heq
        obtain ⟨added, ha⟩ := addRegexpMatcher_appends re p p1 _ _ _ _ _ heq
        obtain ⟨more, hm⟩ := ih { p1 with err := none } rest
          (by simp at hn; omega) h
        exact ⟨added ++ more, by rw [hm]; simp [ha]⟩

/-- A build call only appends to the matcher list. -/
theorem call_appends (re : RegexpLib) (p : Pattern) (c : Call) (b : Built)
    (h : p.call re c = some b) : ∃ added, b.pattern.matchers = p.matchers ++ added := by
  cases c with
  | Host tpl => exact addAndReturn_appends re p tpl _ _ _ b h
  | Path tpl => exact addAndReturn_appends re p tpl _ _ _ b h
  | PathPrefix tpl => exact addAndReturn_appends re p tpl _ _ _ b h
  | Queries pairs =>
    simp only [Pattern.call, Pattern.Queries] at h
    split_ifs at h
    · simp at h; exact ⟨[], by simp [← h]⟩
    · exact queriesLoop_appends re pairs.length p pairs le_rfl b h

/-! ## Match -/

/-- C4. On a Pattern that is not errored, Match runs the matcher list, to which a
build call only ever appends: when some matcher rejects the URL it returns the empty
map and matched = false; when all accept it returns the group's extraction with
matched = true (and panics exactly when that extraction does); so whenever it returns,
matched is true if and only if every matcher of the list accepts the URL. -/
theorem Match_iff_all_matchers_accept (re : RegexpLib) (p : Pattern) (u : URL)
    (h : p.err = none) :
    ((∃ m ∈ p.matchers, m.Match re u = false) → p.Match re u = some ([], false))
      ∧ ((∀ m ∈ p.matchers, m.Match re u = true) →
          p.Match re u = (p.regexp.getMatch re u).map (fun vars => (vars, true)))
      ∧ (∀ vars matched, p.Match re u = some (vars, matched) →
          (matched = true ↔ ∀ m ∈ p.matchers, m.Match re u = true))
      ∧ (∀ c b, p.call re c = some b → ∃ added, b.pattern.matchers = p.matchers ++ added) := by
  refine ⟨?_, ?_, ?_, fun c b hb => call_appends re p c b hb⟩
  · rintro ⟨m, hm, hrej⟩
    have : p.matchers.all (fun m => m.Match re u) = false := by
      rw [List.all_eq_false]; exact ⟨m, hm, by simp [hrej]⟩
    simp [Pattern.Match, h, this]
  · intro hall
    have : p.matchers.all (fun m => m.Match re u) = true := by
      rw [List.all_eq_true]; exact hall
    simp only [Pattern.Match, h, this]
    cases p.regexp.getMatch re u <;> simp
  · intro vars matched hm
    by_cases hall : p.matchers.all (fun m => m.Match re u) = true
    · simp only [Pattern.Match, h, hall] at hm
      rw [List.all_eq_true] at hall
      cases hg : p.regexp.getMatch re u <;> simp [hg] at hm
      obtain ⟨_, rfl⟩ := hm
      simp only [true_iff]
      exact hall
    · simp only [Pattern.Match, h, hall] at hm
      simp at hm
      obtain ⟨_, rfl⟩ := hm
      constructor
      · intro ht; cases ht
      · intro hall2; exact absurd (List.all_eq_true.mpr hall2) hall

/-- The witness of C4: the Pattern of `TestMatchHostNoMatch`. -/
theorem Match_iff_all_matchers_accept_witness :
    ∃ p, (NewPattern.Host goRegexp "{subdomain}.example.com".toList).map Built.pattern = some p
      ∧ p.Match goRegexp ⟨"http".toList, "example.com".toList, "/api/events/12345".toList,
          "/api/events/12345".toList, []⟩ = some ([], false)
      ∧ ((∃ m ∈ p.matchers, m.Match goRegexp ⟨"http".toList, "example.com".toList,
            "/api/events/12345".toList, "/api/events/12345".toList, []⟩ = false) →
          p.Match goRegexp ⟨"http".toList, "example.com".toList, "/api/events/12345".toList,
            "/api/events/12345".toList, []⟩ = some ([], false)) :=
  ⟨_, rfl, by decide,
    (Match_iff_all_matchers_accept goRegexp _ _ (by decide)).1⟩

/-! ## Path templates and the leading slash -/

/-- C9 as stated fails: the empty template passes the leading-slash check; `Path("")`
on a fresh Pattern sets no error and adds a matcher. -/
theorem Path_empty_template_accepted :
    ∃ b, NewPattern.Path goRegexp [] = some b ∧ b.pattern.err = none
      ∧ b.pattern.matchers.length = 1
      ∧ (b.pattern.regexp.path.map routeRegexp.regexp) = some "^[/]?$".toList :=
  ⟨_, rfl, by decide, by decide, by decide⟩

/-- C9, amended. For every non-empty template that does not start with a slash, Path
and PathPrefix on a Pattern that is not errored fail with the "path must start with a
slash" error: the Pattern becomes errored, and its group and matcher list are not
touched. -/
theorem Path_requires_leading_slash (re : RegexpLib) (p : Pattern) (tpl : Str)
    (h : p.err = none) (hne : tpl ≠ []) (hslash : tpl.head? ≠ some '/') :
    p.Path re tpl = some ⟨{ p with err := some (.pathMustStartWithSlash tpl) }, .receiver⟩
      ∧ p.PathPrefix re tpl
        = some ⟨{ p with err := some (.pathMustStartWithSlash tpl) }, .receiver⟩ := by
  have hlen : tpl.length > 0 := List.length_pos.mpr hne
  constructor <;>
    simp [Pattern.Path, Pattern.PathPrefix, Pattern.addAndReturn, Pattern.addRegexpMatcher, h,
      hlen, hslash, hne]

/-- The witness of C9: `Path("api")` and `PathPrefix("api")` on a fresh Pattern. -/
theorem Path_requires_leading_slash_witness :
    NewPattern.Path goRegexp "api".toList
        = some ⟨{ NewPattern with err := some (.pathMustStartWithSlash "api".toList) }, .receiver⟩
      ∧ NewPattern.PathPrefix goRegexp "api".toList
        = some ⟨{ NewPattern with err := some (.pathMustStartWithSlash "api".toList) }, .receiver⟩ :=
  Path_requires_leading_slash goRegexp NewPattern "api".toList (by decide) (by decide) (by decide)


/-! ## Duplicated variable names -/

theorem uniqueVars_some (s1 s2 : List Str) (e : Err) (h : uniqueVars s1 s2 = some e) :
    ∃ w, e = .duplicatedRouteVariable w ∧ w ∈ s1 ∧ w ∈ s2 := by
  induction s1 with
  | nil => simp [uniqueVars] at h
  | cons v1 s1 ih =>
    simp only [uniqueVars] at h
    split at h
    · rename_i v2 hfind
      simp at h
      have h1 := List.find?_some hfind
      have h2 := List.mem_of_find?_eq_some hfind
      simp at h1
      subst h1
      exact ⟨v1, h.symm, by simp, h2⟩
    · obtain ⟨w, hw, hw1, hw2⟩ := ih h
      exact ⟨w, hw, by simp [hw1], hw2⟩

theorem uniqueVars_none (s1 s2 : List Str) (h : uniqueVars s1 s2 = none) :
    ∀ v ∈ s1, v ∉ s2 := by
  induction s1 with
  | nil => simp
  | cons v1 s1 ih =>
    simp only [uniqueVars] at h
    split at h
    · simp at h
    · rename_i hfind
      intro v hv
      rcases List.mem_cons.mp hv with rfl | hv
      · intro hmem
        have := List.find?_eq_none.mp hfind v hmem
        simp at this
      · exact ih h v hv

theorem uniqueAgainstQueries_some (varsN : List Str) (qs : List routeRegexp) (e : Err)
    (h : uniqueAgainstQueries varsN qs = some e) :
    ∃ w, e = .duplicatedRouteVariable w ∧ w ∈ varsN ∧ ∃ q ∈ qs, w ∈ q.varsN := by
  induction qs with
  | nil => simp [uniqueAgainstQueries] at h
  | cons q qs ih =>
    simp only [uniqueAgainstQueries] at h
    split at h
    · rename_i e1 he1
      simp at h
      subst h
      obtain ⟨w, hw, hw1, hw2⟩ := uniqueVars_some _ _ _ he1
      exact ⟨w, hw, hw1, q, by simp, hw2⟩
    · obtain ⟨w, hw, hw1, q1, hq1, hw2⟩ := ih h
      exact ⟨w, hw, hw1, q1, by simp [hq1], hw2⟩

theorem uniqueAgainstQueries_none (varsN : List Str) (qs : List routeRegexp)
    (h : uniqueAgainstQueries varsN qs = none) :
    ∀ q ∈ qs, ∀ v ∈ varsN, v ∉ q.varsN := by
  induction qs with
  | nil => simp
  | cons q qs ih =>
    simp only [uniqueAgainstQueries] at h
    split at h
    · simp at h
    · rename_i hq
      intro q1 hq1
      rcases List.mem_cons.mp hq1 with rfl | hq1
      · exact uniqueVars_none _ _ hq
      · exact ih h q1 hq1

theorem uniqueAgainstSlot_some (varsN : List Str) (slot : Option routeRegexp) (e : Err)
    (h : uniqueAgainstSlot varsN slot = some e) :
    ∃ w, e = .duplicatedRouteVariable w ∧ w ∈ varsN ∧ ∃ d ∈ slot.toList, w ∈ d.varsN := by
  cases slot with
  | none => simp [uniqueAgainstSlot] at h
  | some d =>
    obtain ⟨w, hw, hw1, hw2⟩ := uniqueVars_some _ _ _ h
    exact ⟨w, hw, hw1, d, by simp, hw2⟩

theorem uniqueAgainstSlot_none (varsN : List Str) (slot : Option routeRegexp)
    (h : uniqueAgainstSlot varsN slot = none) :
    ∀ d ∈ slot.toList, ∀ v ∈ varsN, v ∉ d.varsN := by
  cases slot with
  | none => simp
  | some d =>
    intro d1 hd1
    simp at hd1
    subst hd1
    exact uniqueVars_none _ _ h

theorem slot_toList_eq (p : Pattern) (mh : Bool) :
    (if mh then p.regexp.path else p.regexp.host).toList
      = (if mh then p.regexp.path.toList else p.regexp.host.toList) := by
  cases mh <;> rfl

/-- `Queries(k, v)` with one pair is one add of the template `k=v`. -/
theorem Queries_pair (re : RegexpLib) (p : Pattern) (k v : Str) :
    p.Queries re [k, v] = p.addAndReturn re (k ++ "=".toList ++ v) false false true := by
  simp only [Pattern.Queries, Pattern.addAndReturn, Pattern.queriesLoop]
  cases h : p.addRegexpMatcher re (k ++ "=".toList ++ v) false false true with
  | none => simp
  | some r =>
    obtain ⟨p1, e⟩ := r
    cases e <;> simp

/-- C1, the case the code misses.  `addRegexpMatcher` compares the descriptor of a
`Queries` pair with the stored query descriptors and with the host descriptor, never
with the path descriptor (pattern.go:156-178): on a Pattern that is not errored, when
the descriptor of `k=v` compiles and shares no name with a stored query or with the
host, `Queries(k, v)` stores it and sets no error, whatever the path descriptor
declares.  So after `Path("/{id}")` then `Queries("x", "{id}")` the Pattern is not
errored, its path descriptor and its query descriptor both declare `id`, and Match on
`/5?x=7` reports matched with `id = 7`.  In the other order, `Queries("x", "{id}")`
then `Path("/{id}")`, the Path call fails with the duplicated-route-variable error for
`id` and Match returns unmatched. -/
theorem Queries_not_compared_with_path :
    (∀ (re : RegexpLib) (p : Pattern) (k v : Str) (rr : routeRegexp), p.err = none →
        newRouteRegexp re (k ++ "=".toList ++ v) false false true p.strictSlash
          p.useEncodedPath = .ok rr →
        uniqueAgainstQueries rr.varsN p.regexp.queries = none →
        uniqueAgainstSlot rr.varsN p.regexp.host = none →
        p.Queries re [k, v] = some ⟨p.store rr false true, .receiver⟩
          ∧ (p.store rr false true).err = none)
      ∧ (∃ q, NewPattern.calls goRegexp
            [.Path "/{id}".toList, .Queries ["x".toList, "{id}".toList]] = some q
          ∧ q.err = none
          ∧ q.regexp.path.map routeRegexp.varsN = some ["id".toList]
          ∧ q.regexp.queries.map routeRegexp.varsN = [["id".toList]]
          ∧ q.Match goRegexp
              ⟨[], [], "/5".toList, "/5?x=7".toList, [("x".toList, ["7".toList])]⟩
            = some ([("id".toList, "7".toList)], true))
      ∧ (∃ q, NewPattern.calls goRegexp
            [.Queries ["x".toList, "{id}".toList], .Path "/{id}".toList] = some q
          ∧ q.err = some (.duplicatedRouteVariable "id".toList)
          ∧ q.regexp.path = none
          ∧ q.Match goRegexp
              ⟨[], [], "/5".toList, "/5?x=7".toList, [("x".toList, ["7".toList])]⟩
            = some ([], false)) := by
  refine ⟨?_, ⟨_, rfl, by decide, by decide, by decide, by decide⟩,
    ⟨_, rfl, by decide, by decide, by decide⟩⟩
  intro re p k v rr hp hnew hq hh
  have hft : p.fullTemplate (k ++ "=".toList ++ v) false true = k ++ "=".toList ++ v := rfl
  rw [Queries_pair, Pattern.addAndReturn,
    addRegexpMatcher_eq re p _ false false true hp (by rfl), hft, hnew]
  simp only [hq, Bool.false_eq_true, if_false, hh]
  refine ⟨?_, hp⟩
  have e : ({ p.store rr false true with err := none } : Pattern) = p.store rr false true := by
    cases p
    dsimp only at hp
    subst hp
    rfl
  rw [e]

/-- The comparisons `addRegexpMatcher` makes.  On a Pattern that is not errored, an add
(Host, Path and PathPrefix are `addAndReturn` with the flags (true, false, false),
(false, false, false) and (false, true, false); `Queries(k, v)` is `addAndReturn` of
`k=v` with (false, false, true)) whose template compiles to a descriptor `rr` that
declares a variable name also declared by a descriptor the code compares it with (the
stored queries, and the path descriptor for Host, the host descriptor otherwise) fails
with a duplicated-route-variable error naming such a variable; the group and the
matcher list are not touched, the Pattern is errored, and Match on it returns
unmatched. -/
theorem duplicate_variable_rejected (re : RegexpLib) (p : Pattern) (tpl : Str)
    (mh mp mq : Bool) (rr d : routeRegexp) (v : Str)
    (hp : p.err = none)
    (hs : (!mh && !mq && (decide (tpl.length > 0) && decide (tpl.head? ≠ some '/'))) = false)
    (hnew : newRouteRegexp re (p.fullTemplate tpl mh mq) mh mp mq p.strictSlash
      p.useEncodedPath = .ok rr)
    (hd : d ∈ p.comparedWith mh) (hv : v ∈ rr.varsN) (hvd : v ∈ d.varsN) :
    (∃ w, p.addAndReturn re tpl mh mp mq
          = some ⟨{ p with err := some (.duplicatedRouteVariable w) }, .receiver⟩
        ∧ w ∈ rr.varsN ∧ (∃ d1 ∈ p.comparedWith mh, w ∈ d1.varsN)
        ∧ ∀ u, Pattern.Match re { p with err := some (.duplicatedRouteVariable w) } u
            = some ([], false))
      ∧ (∀ k val, p.Queries re [k, val]
          = p.addAndReturn re (k ++ "=".toList ++ val) false false true)
      ∧ p.Host re tpl = p.addAndReturn re tpl true false false
      ∧ p.Path re tpl = p.addAndReturn re tpl false false false
      ∧ p.PathPrefix re tpl = p.addAndReturn re tpl false true false := by
  refine ⟨?_, fun k val => Queries_pair re p k val, rfl, rfl, rfl⟩
  have key : ∃ w, p.addRegexpMatcher re tpl mh mp mq
      = some (p, some (.duplicatedRouteVariable w)) ∧ w ∈ rr.varsN
        ∧ ∃ d1 ∈ p.comparedWith mh, w ∈ d1.varsN := by
    rw [addRegexpMatcher_eq re p tpl mh mp mq hp hs, hnew]
    dsimp only
    cases hq : uniqueAgainstQueries rr.varsN p.regexp.queries with
    | some e =>
      obtain ⟨w, rfl, hw1, q, hq1, hw2⟩ := uniqueAgainstQueries_some _ _ _ hq
      exact ⟨w, rfl, hw1, q, by simp [Pattern.comparedWith, hq1], hw2⟩
    | none =>
      dsimp only
      cases hsl : uniqueAgainstSlot rr.varsN (if mh then p.regexp.path else p.regexp.host) with
      | some e =>
        obtain ⟨w, rfl, hw1, d1, hd1, hw2⟩ := uniqueAgainstSlot_some _ _ _ hsl
        rw [slot_toList_eq] at hd1
        exact ⟨w, rfl, hw1, d1, by simp only [Pattern.comparedWith, List.mem_append]; exact Or.inr hd1, hw2⟩
      | none =>
        exfalso
        simp only [Pattern.comparedWith, List.mem_append] at hd
        rcases hd with hd | hd
        · exact uniqueAgainstQueries_none _ _ hq d hd v hv hvd
        · rw [← slot_toList_eq] at hd
          exact uniqueAgainstSlot_none _ _ hsl d hd v hv hvd
  obtain ⟨w, hw, hw1, hw2⟩ := key
  exact ⟨w, by simp [Pattern.addAndReturn, hw], hw1, hw2,
    fun u => Match_errored re _ u (by simp)⟩

/-- An instance of the comparisons: `Host("{id}.example.com")` on the Pattern left by
`Path("/{id}")` fails with the error for `id`. -/
theorem duplicate_variable_rejected_witness :
    ∃ p rr, (NewPattern.Path goRegexp "/{id}".toList).map Built.pattern = some p
      ∧ newRouteRegexp goRegexp "{id}.example.com".toList true false false true false = .ok rr
      ∧ ∃ w, p.Host goRegexp "{id}.example.com".toList
          = some ⟨{ p with err := some (.duplicatedRouteVariable w) }, .receiver⟩
        ∧ w ∈ rr.varsN :=
  ⟨_, _, rfl, rfl,
    ((duplicate_variable_rejected goRegexp
      (((NewPattern.Path goRegexp "/{id}".toList).map Built.pattern).get (by decide))
      "{id}.example.com".toList true false false _
      ((((NewPattern.Path goRegexp "/{id}".toList).map Built.pattern).get
        (by decide)).regexp.path.get (by decide))
      "id".toList (by decide) (by decide) (by rfl) (by decide) (by decide) (by decide)).1).imp
      (fun _ h => ⟨h.1, h.2.1⟩)⟩


/-! ## The variables Match returns -/

theorem Vars.mem_set (m : Vars) (k v k1 v1 : Str) (h : (k1, v1) ∈ m.set k v) :
    (k1 = k ∧ v1 = v) ∨ (k1, v1) ∈ m := by
  induction m with
  | nil => simp [Vars.set] at h; exact Or.inl h
  | cons kv rest ih =>
    obtain ⟨a, b⟩ := kv
    simp only [Vars.set] at h
    split_ifs at h with hk
    · rcases List.mem_cons.mp h with h | h
      · simp at h; exact Or.inl ⟨by rw [h.1, hk], h.2⟩
      · exact Or.inr (List.mem_cons_of_mem _ h)
    · rcases List.mem_cons.mp h with h | h
      · exact Or.inr (by rw [h]; exact List.mem_cons_self _ _)
      · rcases ih h with h | h
        · exact Or.inl h
        · exact Or.inr (List.mem_cons_of_mem _ h)

theorem Vars.keys_set (m : Vars) (k v : Str) (k1 : Str) :
    k1 ∈ (m.set k v).map Prod.fst ↔ k1 ∈ m.map Prod.fst ∨ k1 = k := by
  induction m with
  | nil => simp [Vars.set]
  | cons kv rest ih =>
    obtain ⟨a, b⟩ := kv
    simp only [Vars.set]
    split_ifs with hk
    · subst hk
      simp only [List.map_cons, List.mem_cons]
      tauto
    · simp only [List.map_cons, List.mem_cons, ih]
      tauto

theorem Vars.nodup_set (m : Vars) (k v : Str) (h : (m.map Prod.fst).Nodup) :
    ((m.set k v).map Prod.fst).Nodup := by
  induction m with
  | nil => simp [Vars.set]
  | cons kv rest ih =>
    obtain ⟨a, b⟩ := kv
    simp only [Vars.set]
    split_ifs with hk
    · simpa using h
    · simp only [List.map_cons, List.nodup_cons] at h ⊢
      refine ⟨?_, ih h.2⟩
      intro hmem
      rcases (Vars.keys_set rest k v a).mp hmem with h1 | h1
      · exact h.1 h1
      · exact hk h1

/-- What `extractVars` leaves in the map: the old entries that were not overwritten,
and for each name the span of its capture group. -/
theorem extractVars_spec (input : Str) (ms : List Int) (names : List Str) (i : Nat)
    (out out1 : Vars) (h : extractVars input ms names i out = some out1) :
    (∀ k, k ∈ out1.map Prod.fst ↔ k ∈ out.map Prod.fst ∨ k ∈ names)
      ∧ ((out.map Prod.fst).Nodup → (out1.map Prod.fst).Nodup)
      ∧ (∀ k v, (k, v) ∈ out1 → (k, v) ∈ out ∨ ∃ j lo hi, names.get? j = some k
          ∧ intAt ms (2 * (i + j) + 2) = some lo ∧ intAt ms (2 * (i + j) + 3) = some hi
          ∧ slice input lo hi = some v) := by
  induction names generalizing i out with
  | nil =>
    simp only [extractVars, Option.some.injEq] at h
    subst h
    exact ⟨by simp, id, fun k v hkv => Or.inl hkv⟩
  | cons name names ih =>
    simp only [extractVars] at h
    split at h
    · rename_i lo hi hlo hhi
      split at h
      · rename_i value hval
        obtain ⟨h1, h2, h3⟩ := ih (i + 1) (out.set name value) h
        refine ⟨?_, ?_, ?_⟩
        · intro k
          rw [h1 k, Vars.keys_set]
          simp only [List.mem_cons]
          tauto
        · intro hnd
          exact h2 (Vars.nodup_set out name value hnd)
        · intro k v hkv
          rcases h3 k v hkv with hmem | ⟨j, lo1, hi1, hj, hlo1, hhi1, hsl⟩
          · rcases Vars.mem_set out name value k v hmem with ⟨rfl, rfl⟩ | hold
            · exact Or.inr ⟨0, lo, hi, by simp, by simpa using hlo, by simpa using hhi, hval⟩
            · exact Or.inl hold
          · refine Or.inr ⟨j + 1, lo1, hi1, by simpa using hj, ?_, ?_, hsl⟩
            · rw [← hlo1]; congr 1; omega
            · rw [← hhi1]; congr 1; omega
      · simp at h
    · simp at h

theorem assembleRouteRegexp_fields (re : RegexpLib) (tpl : Str) (idxs : List Nat)
    (mh mp mq ss ue : Bool) (rr : routeRegexp)
    (h : assembleRouteRegexp re tpl idxs mh mp mq ss ue = .ok rr) :
    rr.template = tpl ∧ rr.matchHost = mh ∧ rr.matchQuery = mq ∧ rr.useEncodedPath = ue := by
  unfold assembleRouteRegexp at h
  dsimp only at h
  split at h
  · simp at h
  · split at h
    · simp at h
    · split at h
      · simp at h
      · split at h
        · simp at h
        · split at h
          · simp at h
          · simp only [Except.ok.injEq] at h
            subst h
            exact ⟨rfl, rfl, rfl, rfl⟩

/-- The fields `newRouteRegexp` copies from its arguments. -/
theorem newRouteRegexp_fields (re : RegexpLib) (tpl : Str) (mh mp mq ss ue : Bool)
    (rr : routeRegexp) (h : newRouteRegexp re tpl mh mp mq ss ue = .ok rr) :
    rr.template = tpl ∧ rr.matchHost = mh ∧ rr.matchQuery = mq ∧ rr.useEncodedPath = ue := by
  unfold newRouteRegexp at h
  split at h
  · simp at h
  · exact assembleRouteRegexp_fields re tpl _ mh mp mq ss ue rr h

theorem GroupInv_seterr (p : Pattern) (e : Option Err) (h : GroupInv p) :
    GroupInv { p with err := e } := h

theorem GroupInv_store (re : RegexpLib) (p : Pattern) (tpl : Str) (mh mp mq ss ue : Bool)
    (rr : routeRegexp) (hnew : newRouteRegexp re tpl mh mp mq ss ue = .ok rr)
    (h : GroupInv p) : GroupInv (p.store rr mh mq) := by
  obtain ⟨_, hmh, hmq, _⟩ := newRouteRegexp_fields re tpl mh mp mq ss ue rr hnew
  obtain ⟨h1, h2, h3⟩ := h
  cases mh with
  | true =>
    refine ⟨?_, ?_, ?_⟩
    · intro d hd
      simp only [Pattern.store, if_true, Option.some.injEq] at hd
      subst hd
      exact ⟨by simp [Pattern.store], hmh⟩
    · intro d hd
      have := h2 d (by simpa [Pattern.store] using hd)
      exact ⟨by simp [Pattern.store, this.1], this.2⟩
    · intro d hd
      have := h3 d (by simpa [Pattern.store] using hd)
      exact ⟨by simp [Pattern.store, this.1], this.2⟩
  | false =>
    cases mq with
    | true =>
      refine ⟨?_, ?_, ?_⟩
      · intro d hd
        have := h1 d (by simpa [Pattern.store] using hd)
        exact ⟨by simp [Pattern.store, this.1], this.2⟩
      · intro d hd
        have := h2 d (by simpa [Pattern.store] using hd)
        exact ⟨by simp [Pattern.store, this.1], this.2⟩
      · intro d hd
        simp only [Pattern.store, Bool.false_eq_true, if_false, if_true, List.mem_append,
          List.mem_singleton] at hd
        rcases hd with hd | rfl
        · have := h3 d hd
          exact ⟨by simp [Pattern.store, this.1], this.2⟩
        · exact ⟨by simp [Pattern.store], hmh, hmq⟩
    | false =>
      refine ⟨?_, ?_, ?_⟩
      · intro d hd
        have := h1 d (by simpa [Pattern.store] using hd)
        exact ⟨by simp [Pattern.store, this.1], this.2⟩
      · intro d hd
        simp only [Pattern.store, Bool.false_eq_true, if_false, Option.some.injEq] at hd
        subst hd
        exact ⟨by simp [Pattern.store], hmh, hmq⟩
      · intro d hd
        have := h3 d (by simpa [Pattern.store] using hd)
        exact ⟨by simp [Pattern.store, this.1], this.2⟩

theorem GroupInv_add (re : RegexpLib) (p q : Pattern) (tpl : Str) (mh mp mq : Bool)
    (e : Option Err) (h : p.addRegexpMatcher re tpl mh mp mq = some (q, e))
    (hinv : GroupInv p) : GroupInv q := by
  rcases addRegexpMatcher_cases re p q tpl mh mp mq e h with ⟨rfl, _⟩ | ⟨_, _, rr, hnew, rfl⟩
  · exact hinv
  · exact GroupInv_store re p _ mh mp mq _ _ rr hnew hinv

theorem GroupInv_queriesLoop (re : RegexpLib) (n : Nat) (p : Pattern) (pairs : List Str)
    (hn : pairs.length ≤ n) (b : Built) (h : p.queriesLoop re pairs = some b)
    (hinv : GroupInv p) : GroupInv b.pattern := by
  induction n generalizing p pairs with
  | zero =>
    match pairs, hn with
    | [], _ => simp [Pattern.queriesLoop] at h; rw [← h]; exact hinv
  | succ n ih =>
    match pairs, hn with
    | [], _ => simp [Pattern.queriesLoop] at h; rw [← h]; exact hinv
    | [_], _ => simp [Pattern.queriesLoop] at h; rw [← h]; exact hinv
    | k :: v :: rest, hn =>
      simp only [Pattern.queriesLoop] at h
      split at h
      · simp at h
      · rename_i p1 e heq
        simp at h
        rw [← h]
        exact GroupInv_seterr p1 _ (GroupInv_add re p p1 _ _ _ _ _ heq hinv)
      · rename_i p1 heq
        exact ih { p1 with err := none } rest (by simp at hn; omega) h
          (GroupInv_seterr p1 _ (GroupInv_add re p p1 _ _ _ _ _ heq hinv))

theorem GroupInv_call (re : RegexpLib) (p : Pattern) (c : Call) (b : Built)
    (h : p.call re c = some b) (hinv : GroupInv p) : GroupInv b.pattern := by
  have hadd : ∀ tpl mh mp mq, p.addAndReturn re tpl mh mp mq = some b → GroupInv b.pattern := by
    intro tpl mh mp mq hb
    unfold Pattern.addAndReturn at hb
    split at hb
    · simp at hb
    · rename_i p1 e heq
      simp at hb
      rw [← hb]
      exact GroupInv_seterr p1 _ (GroupInv_add re p p1 _ _ _ _ _ heq hinv)
  cases c with
  | Host tpl => exact hadd tpl _ _ _ h
  | Path tpl => exact hadd tpl _ _ _ h
  | PathPrefix tpl => exact hadd tpl _ _ _ h
  | Queries pairs =>
    simp only [Pattern.call, Pattern.Queries] at h
    split_ifs at h
    · simp at h; rw [← h]; exact GroupInv_seterr p _ hinv
    · exact GroupInv_queriesLoop re pairs.length p pairs le_rfl b h hinv

theorem GroupInv_calls (re : RegexpLib) (p q : Pattern) (cs : List Call)
    (h : p.calls re cs = some q) (hinv : GroupInv p) : GroupInv q := by
  induction cs generalizing p with
  | nil => simp [Pattern.calls] at h; rw [← h]; exact hinv
  | cons c cs ih =>
    simp only [Pattern.calls] at h
    split at h
    · simp at h
    · rename_i b hb
      exact ih b.pattern h (GroupInv_call re p c b hb hinv)

theorem GroupInv_new (ss ue : Bool) : GroupInv (NewPatternWithOptions ss ue) := by
  refine ⟨?_, ?_, ?_⟩ <;> simp [NewPatternWithOptions]

theorem Match_eq_component (re : RegexpLib) (d : routeRegexp) (u : URL) :
    d.Match re u = re.matchString d.regexp (d.component u) := by
  unfold routeRegexp.Match routeRegexp.component routeRegexp.matchQueryString
  cases d.matchHost <;> cases d.matchQuery <;> cases d.useEncodedPath <;> rfl

theorem find_length_pos_of_Match (re : RegexpLib) (d : routeRegexp) (u : URL)
    (h : d.Match re u = true) : (re.find d.regexp (d.component u)).length > 0 := by
  rw [Match_eq_component, RegexpLib.matchString] at h
  cases hf : re.find d.regexp (d.component u) with
  | nil => simp [hf] at h
  | cons a l => simp

theorem Extracted_step (re : RegexpLib) (u : URL) (ds : List routeRegexp) (d : routeRegexp)
    (vars vars1 : Vars) (hP : Extracted re u ds vars) (hm : d.Match re u = true)
    (h : extractFrom re d (d.component u) vars = some vars1) :
    Extracted re u (ds ++ [d]) vars1 := by
  have hlen := find_length_pos_of_Match re d u hm
  simp only [extractFrom, hlen, if_true] at h
  obtain ⟨h1, h2, h3⟩ := extractVars_spec _ _ _ _ _ _ h
  obtain ⟨p1, p2, p3⟩ := hP
  refine ⟨?_, h2 p2, ?_⟩
  · intro k
    rw [h1 k, p1 k]
    constructor
    · rintro (⟨d1, hd1, hk⟩ | hk)
      · exact ⟨d1, by simp [hd1], hk⟩
      · exact ⟨d, by simp, hk⟩
    · rintro ⟨d1, hd1, hk⟩
      rcases List.mem_append.mp hd1 with hd1 | hd1
      · exact Or.inl ⟨d1, hd1, hk⟩
      · simp at hd1; subst hd1; exact Or.inr hk
  · intro k v hkv
    rcases h3 k v hkv with hold | ⟨j, lo, hi, hj, hlo, hhi, hsl⟩
    · obtain ⟨d1, hd1, hc⟩ := p3 k v hold
      exact ⟨d1, by simp [hd1], hc⟩
    · exact ⟨d, by simp, j, lo, hi, hj, by simpa using hlo, by simpa using hhi, hsl⟩

theorem Extracted_queries (re : RegexpLib) (u : URL) (qs : List routeRegexp)
    (ds : List routeRegexp) (vars vars1 : Vars) (hP : Extracted re u ds vars)
    (hq : ∀ q ∈ qs, q.Match re u = true ∧ q.matchHost = false ∧ q.matchQuery = true)
    (h : extractQueries re u qs vars = some vars1) :
    Extracted re u (ds ++ qs) vars1 := by
  induction qs generalizing ds vars with
  | nil => simp only [extractQueries, Option.some.injEq] at h; subst h; simpa using hP
  | cons q qs ih =>
    simp only [extractQueries] at h
    split at h
    · rename_i vars2 hstep
      have hq1 := hq q (by simp)
      have hcomp : q.getURLQuery u = q.component u := by
        simp [routeRegexp.component, hq1.2.1, hq1.2.2]
      rw [hcomp] at hstep
      have := ih (ds ++ [q]) vars2 (Extracted_step re u ds q vars vars2 hP hq1.1 hstep)
        (fun q1 hq1 => hq q1 (by simp [hq1])) h
      simpa using this
    · simp at h

/-- After a match of every matcher, `getMatch` returns the variables of the group's
descriptors. -/
theorem Extracted_getMatch (re : RegexpLib) (p : Pattern) (u : URL) (vars : Vars)
    (hinv : GroupInv p) (hall : ∀ m ∈ p.matchers, m.Match re u = true)
    (h : p.regexp.getMatch re u = some vars) :
    Extracted re u p.regexp.descriptors vars := by
  obtain ⟨i1, i2, i3⟩ := hinv
  have h0 : Extracted re u [] [] := ⟨by simp, by simp, by simp⟩
  unfold routeRegexpGroup.getMatch at h
  dsimp only at h
  -- the host descriptor
  have hhost : ∀ vars1, (match p.regexp.host with
      | some h => extractFrom re h (getHost u) []
      | none => some []) = some vars1 → Extracted re u p.regexp.host.toList vars1 := by
    intro vars1 hv
    cases hh : p.regexp.host with
    | none => rw [hh] at hv; simp at hv; subst hv; simpa using h0
    | some d =>
      rw [hh] at hv
      have hd := i1 d hh
      have hcomp : getHost u = d.component u := by simp [routeRegexp.component, hd.2]
      simp only at hv
      rw [hcomp] at hv
      simpa using Extracted_step re u [] d [] vars1 h0 (hall d hd.1) hv
  split at h
  · simp at h
  · rename_i vars1 hv1
    have e1 := hhost vars1 hv1
    -- the path descriptor
    have hpath : ∀ vars2, (match p.regexp.path with
        | some d => extractFrom re d (if d.useEncodedPath then getPath u else u.Path) vars1
        | none => some vars1) = some vars2 →
        Extracted re u (p.regexp.host.toList ++ p.regexp.path.toList) vars2 := by
      intro vars2 hv
      cases hh : p.regexp.path with
      | none => rw [hh] at hv; simp at hv; subst hv; simpa using e1
      | some d =>
        rw [hh] at hv
        have hd := i2 d hh
        have hcomp : (if d.useEncodedPath then getPath u else u.Path) = d.component u := by
          simp [routeRegexp.component, hd.2.1, hd.2.2]
        simp only at hv
        rw [hcomp] at hv
        simpa using Extracted_step re u _ d vars1 vars2 e1 (hall d hd.1) hv
    split at h
    · simp at h
    · rename_i vars2 hv2
      have e2 := hpath vars2 hv2
      exact Extracted_queries re u p.regexp.queries _ vars2 vars e2
        (fun q hq => ⟨hall q (i3 q hq).1, (i3 q hq).2⟩) h

/-- C5. For every Pattern built from a new Pattern without error and every URL on which
Match reports matched = true, the keys of the returned map are exactly the variable
names declared by the group's host, path and query descriptors, each once (the group
names `v0`, `v1`, ... of the compiled expressions never appear), and every value is the
substring of its descriptor's URL component that the capture group of that variable
spans. -/
theorem Match_returns_declared_variables (re : RegexpLib) (ss ue : Bool) (cs : List Call)
    (p : Pattern) (u : URL) (vars : Vars)
    (hbuilt : (NewPatternWithOptions ss ue).calls re cs = some p) (herr : p.err = none)
    (hm : p.Match re u = some (vars, true)) :
    (∀ k, k ∈ vars.map Prod.fst ↔ ∃ d ∈ p.regexp.descriptors, k ∈ d.varsN)
      ∧ (vars.map Prod.fst).Nodup
      ∧ (∀ k v, (k, v) ∈ vars → ∃ d ∈ p.regexp.descriptors, d.captures re u k v) := by
  have hinv := GroupInv_calls re _ p cs hbuilt (GroupInv_new ss ue)
  by_cases hall : p.matchers.all (fun m => m.Match re u) = true
  · simp only [Pattern.Match, herr, hall] at hm
    cases hg : p.regexp.getMatch re u with
    | none => simp [hg] at hm
    | some vars1 =>
      simp [hg] at hm
      subst hm
      exact Extracted_getMatch re p u vars1 hinv (List.all_eq_true.mp hall) hg
  · simp only [Pattern.Match, herr, hall] at hm
    simp at hm

/-- The witness of C5, `TestMatchHostAndPathAndPathPrefix`: Host, PathPrefix and Path
on one Pattern, matched against `http://foo.example.com/api/events/12345`, give
exactly `subdomain = foo` and `id = 12345`. -/
theorem Match_returns_declared_variables_witness :
    (NewPattern.calls goRegexp [.Host "{subdomain}.example.com".toList,
        .PathPrefix "/api".toList, .Path "/events/{id:[0-9]+}".toList]).bind
        (fun p => p.Match goRegexp ⟨"http".toList, "foo.example.com".toList,
          "/api/events/12345".toList, "/api/events/12345".toList, []⟩)
      = some ([("subdomain".toList, "foo".toList), ("id".toList, "12345".toList)], true)
    ∧ ∀ k, k ∈ [("subdomain".toList, "foo".toList), ("id".toList, "12345".toList)].map Prod.fst
        ↔ ∃ d ∈ ((NewPattern.calls goRegexp [.Host "{subdomain}.example.com".toList,
            .PathPrefix "/api".toList, .Path "/events/{id:[0-9]+}".toList]).get
              (by decide)).regexp.descriptors, k ∈ d.varsN :=
  ⟨by decide,
    (Match_returns_declared_variables goRegexp true false
      [.Host "{subdomain}.example.com".toList, .PathPrefix "/api".toList,
        .Path "/events/{id:[0-9]+}".toList] _
      ⟨"http".toList, "foo.example.com".toList, "/api/events/12345".toList,
        "/api/events/12345".toList, []⟩ _ (by decide) (by decide) (by decide)).1⟩


/-! ## braceIndices -/

theorem depth_append_singleton (l : Str) (c : Char) :
    depth (l ++ [c]) = depth l + (if c = '{' then 1 else if c = '}' then -1 else 0) := by
  unfold depth
  by_cases h1 : c = '{'
  · subst h1; simp [List.count_append, List.count_singleton]; ring
  · by_cases h2 : c = '}'
    · subst h2; simp [List.count_append, List.count_singleton]; ring
    · have e1 : ('{' == c) = false := by simp [Ne.symm h1]
      have e2 : ('}' == c) = false := by simp [Ne.symm h2]
      simp [List.count_append, List.count_singleton, h1, h2, e1, e2]

theorem drop_eq_cons_get (s : Str) (i : Nat) (c : Char) (cs : Str) (h : c :: cs = s.drop i) :
    s.get? i = some c ∧ cs = s.drop (i + 1) ∧ i < s.length
      ∧ s.take (i + 1) = s.take i ++ [c] := by
  have hlt : i < s.length := by
    by_contra hge
    rw [List.drop_eq_nil_of_le (by omega)] at h
    cases h
  have h2 : c :: cs = s[i] :: s.drop (i + 1) := by
    rw [h]; exact List.drop_eq_getElem_cons hlt
  have hc : s[i] = c := (List.cons.inj h2).1.symm
  have hget : s.get? i = some c := by
    rw [List.get?_eq_getElem?, List.getElem?_eq_getElem hlt, hc]
  refine ⟨hget, (List.cons.inj h2).2, hlt, ?_⟩
  rw [List.take_succ]
  rw [List.get?_eq_getElem?] at hget
  simp [hget]


theorem flatSpans_append (spans : List (Nat × Nat)) (a b : Nat) :
    flatSpans (spans ++ [(a, b)]) = flatSpans spans ++ [a, b] := by
  induction spans with
  | nil => rfl
  | cons x rest ih => obtain ⟨x1, x2⟩ := x; simp [flatSpans, ih]

theorem flatSpans_length (spans : List (Nat × Nat)) :
    (flatSpans spans).length = 2 * spans.length := by
  induction spans with
  | nil => rfl
  | cons x rest ih => obtain ⟨x1, x2⟩ := x; simp [flatSpans, ih]; omega

theorem BraceInv.level_nonneg {s : Str} {i : Nat} {level : Int} {idx : Nat}
    {spans : List (Nat × Nat)} (h : BraceInv s i level idx spans) : 0 ≤ level := by
  rw [h.level_eq]; exact h.nonneg i le_rfl

theorem BraceInv.step_open {s : Str} {i : Nat} {level : Int} {idx : Nat}
    {spans : List (Nat × Nat)} (h : BraceInv s i level idx spans)
    (hget : s.get? i = some '{') (htake : s.take (i + 1) = s.take i ++ ['{']) :
    BraceInv s (i + 1) (level + 1) (if level + 1 = 1 then i else idx) spans := by
  have h0 := h.level_nonneg
  have hd : depth (s.take (i + 1)) = level + 1 := by
    rw [htake, depth_append_singleton, ← h.level_eq]; simp
  have hne : ¬ (level + 1 = 0) := by omega
  refine ⟨hd.symm, ?_, h.sorted, h.good, ?_, ?_, ?_⟩
  · intro n hn
    rcases Nat.lt_or_ge n (i + 1) with hlt | hge
    · exact h.nonneg n (by omega)
    · have : n = i + 1 := by omega
      subst this; rw [hd]; omega
  · intro ab hab
    have := h.bound ab hab
    rw [if_neg hne]
    by_cases hl : level = 0
    · rw [if_pos hl] at this; rw [if_pos (by omega)]; exact this
    · rw [if_neg hl] at this; rw [if_neg (by omega)]; exact this
  · intro j c hj hc hbrace
    rw [if_neg hne] at hj
    refine h.covered j c ?_ hc hbrace
    by_cases hl : level = 0
    · rw [if_pos hl]; rw [if_pos (by omega)] at hj; exact hj
    · rw [if_neg hl]; rw [if_neg (by omega)] at hj; exact hj
  · intro _
    by_cases hl : level = 0
    · rw [if_pos (by omega)]
      refine ⟨by omega, hget, ?_, ?_⟩
      · rw [← h.level_eq]; exact hl
      · intro j hj1 hj2
        have : j = i + 1 := by omega
        subst this; rw [hd]; omega
    · rw [if_neg (by omega)]
      obtain ⟨o1, o2, o3, o4⟩ := h.open (by omega)
      refine ⟨by omega, o2, o3, ?_⟩
      intro j hj1 hj2
      rcases Nat.lt_or_ge j (i + 1) with hlt | hge
      · exact o4 j hj1 (by omega)
      · have : j = i + 1 := by omega
        subst this; rw [hd]; omega

theorem BraceInv.step_close_zero {s : Str} {i : Nat} {level : Int} {idx : Nat}
    {spans : List (Nat × Nat)} (h : BraceInv s i level idx spans)
    (hget : s.get? i = some '}') (hlt : i < s.length)
    (htake : s.take (i + 1) = s.take i ++ ['}']) (hl : level - 1 = 0) :
    BraceInv s (i + 1) (level - 1) idx (spans ++ [(idx, i + 1)]) := by
  have hd : depth (s.take (i + 1)) = level - 1 := by
    rw [htake, depth_append_singleton, ← h.level_eq]; simp; ring
  have hl1 : ¬ (level = 0) := by omega
  obtain ⟨o1, o2, o3, o4⟩ := h.open (by omega)
  have hgood : TopLevelSpan s idx (i + 1) :=
    ⟨by omega, by omega, o2, by simpa using hget, o3, by rw [hd]; exact hl,
      fun j hj1 hj2 => o4 j hj1 (by omega)⟩
  refine ⟨hd.symm, ?_, ?_, ?_, ?_, ?_, ?_⟩
  · intro n hn
    rcases Nat.lt_or_ge n (i + 1) with hlt | hge
    · exact h.nonneg n (by omega)
    · have : n = i + 1 := by omega
      subst this; rw [hd]; omega
  · rw [List.pairwise_append]
    refine ⟨h.sorted, by simp, ?_⟩
    intro ab hab cd hcd
    simp at hcd
    subst hcd
    have := h.bound ab hab
    rw [if_neg hl1] at this
    exact this
  · intro ab hab
    rcases List.mem_append.mp hab with hab | hab
    · exact h.good ab hab
    · simp at hab; subst hab; exact hgood
  · intro ab hab
    rw [if_pos hl]
    rcases List.mem_append.mp hab with hab | hab
    · have := h.bound ab hab
      rw [if_neg hl1] at this
      omega
    · simp at hab; subst hab; exact le_rfl
  · intro j c hj hc hbrace
    rw [if_pos hl] at hj
    rcases Nat.lt_or_ge j idx with hji | hji
    · obtain ⟨ab, hab, h1, h2⟩ := h.covered j c (by rw [if_neg hl1]; exact hji) hc hbrace
      exact ⟨ab, by simp [hab], h1, h2⟩
    · exact ⟨(idx, i + 1), by simp, hji, hj⟩
  · intro hpos; omega

theorem BraceInv.step_close_pos {s : Str} {i : Nat} {level : Int} {idx : Nat}
    {spans : List (Nat × Nat)} (h : BraceInv s i level idx spans)
    (htake : s.take (i + 1) = s.take i ++ ['}']) (hl : ¬ (level - 1 = 0))
    (hl2 : ¬ (level - 1 < 0)) :
    BraceInv s (i + 1) (level - 1) idx spans := by
  have hd : depth (s.take (i + 1)) = level - 1 := by
    rw [htake, depth_append_singleton, ← h.level_eq]; simp; ring
  have hl1 : ¬ (level = 0) := by omega
  obtain ⟨o1, o2, o3, o4⟩ := h.open (by omega)
  refine ⟨hd.symm, ?_, h.sorted, h.good, ?_, ?_, ?_⟩
  · intro n hn
    rcases Nat.lt_or_ge n (i + 1) with hlt | hge
    · exact h.nonneg n (by omega)
    · have : n = i + 1 := by omega
      subst this; rw [hd]; omega
  · intro ab hab
    have := h.bound ab hab
    rw [if_neg hl1] at this
    rw [if_neg hl]; exact this
  · intro j c hj hc hbrace
    rw [if_neg hl] at hj
    exact h.covered j c (by rw [if_neg hl1]; exact hj) hc hbrace
  · intro _
    refine ⟨by omega, o2, o3, ?_⟩
    intro j hj1 hj2
    rcases Nat.lt_or_ge j (i + 1) with hlt | hge
    · exact o4 j hj1 (by omega)
    · have : j = i + 1 := by omega
      subst this; rw [hd]; omega

theorem BraceInv.step_other {s : Str} {i : Nat} {level : Int} {idx : Nat}
    {spans : List (Nat × Nat)} (h : BraceInv s i level idx spans) (c : Char)
    (hget : s.get? i = some c) (htake : s.take (i + 1) = s.take i ++ [c])
    (h1 : c ≠ '{') (h2 : c ≠ '}') :
    BraceInv s (i + 1) level idx spans := by
  have h0 := h.level_nonneg
  have hd : depth (s.take (i + 1)) = level := by
    rw [htake, depth_append_singleton, ← h.level_eq]; simp [h1, h2]
  refine ⟨hd.symm, ?_, h.sorted, h.good, ?_, ?_, ?_⟩
  · intro n hn
    rcases Nat.lt_or_ge n (i + 1) with hlt | hge
    · exact h.nonneg n (by omega)
    · have : n = i + 1 := by omega
      subst this; rw [hd]; omega
  · intro ab hab
    have := h.bound ab hab
    by_cases hl : level = 0
    · rw [if_pos hl] at this ⊢; omega
    · rw [if_neg hl] at this ⊢; exact this
  · intro j c1 hj hc hbrace
    by_cases hl : level = 0
    · rw [if_pos hl] at hj
      rcases Nat.lt_or_ge j i with hji | hji
      · exact h.covered j c1 (by rw [if_pos hl]; exact hji) hc hbrace
      · have : j = i := by omega
        subst this
        rw [hget] at hc
        simp at hc
        subst hc
        rcases hbrace with hb | hb
        · exact absurd hb h1
        · exact absurd hb h2
    · rw [if_neg hl] at hj
      exact h.covered j c1 (by rw [if_neg hl]; exact hj) hc hbrace
  · intro hpos
    obtain ⟨o1, o2, o3, o4⟩ := h.open hpos
    refine ⟨by omega, o2, o3, ?_⟩
    intro j hj1 hj2
    rcases Nat.lt_or_ge j (i + 1) with hlt | hge
    · exact o4 j hj1 (by omega)
    · have : j = i + 1 := by omega
      subst this; rw [hd]; exact hpos

/-- The loop of `braceIndices` from an invariant state: it stops with the error at a
prefix of negative depth, or ends in an invariant state for the whole string. -/
theorem braceLoop_spec (s : Str) (rest : Str) (i : Nat) (level : Int) (idx : Nat)
    (spans : List (Nat × Nat)) (hrest : rest = s.drop i) (hi : i ≤ s.length)
    (hinv : BraceInv s i level idx spans) :
    ((∃ n, depth (s.take n) < 0)
        ∧ braceLoop s rest i level idx (flatSpans spans) = .error (.unbalancedBraces s))
      ∨ ∃ level1 idx1 spans1,
          braceLoop s rest i level idx (flatSpans spans) = .ok (level1, flatSpans spans1)
            ∧ BraceInv s s.length level1 idx1 spans1 := by
  induction rest generalizing i level idx spans with
  | nil =>
    have : i = s.length := by
      have := congrArg List.length hrest
      simp at this
      omega
    subst this
    exact Or.inr ⟨level, idx, spans, rfl, hinv⟩
  | cons c cs ih =>
    obtain ⟨hget, hcs, hlt, htake⟩ := drop_eq_cons_get s i c cs hrest
    simp only [braceLoop]
    by_cases h1 : c = '{'
    · subst h1
      rw [if_pos rfl]
      exact ih (i + 1) (level + 1) _ spans hcs hlt (hinv.step_open hget htake)
    · rw [if_neg h1]
      by_cases h2 : c = '}'
      · subst h2
        rw [if_pos rfl]
        by_cases hl : level - 1 = 0
        · rw [if_pos hl, ← flatSpans_append]
          exact ih (i + 1) (level - 1) idx _ hcs hlt (hinv.step_close_zero hget hlt htake hl)
        · rw [if_neg hl]
          by_cases hl2 : level - 1 < 0
          · rw [if_pos hl2]
            refine Or.inl ⟨⟨i + 1, ?_⟩, rfl⟩
            rw [htake, depth_append_singleton, ← hinv.level_eq]
            simp; omega
          · rw [if_neg hl2]
            exact ih (i + 1) (level - 1) idx spans hcs hlt (hinv.step_close_pos htake hl hl2)
      · rw [if_neg h2]
        exact ih (i + 1) level idx spans hcs hlt (hinv.step_other c hget htake h1 h2)

theorem BraceInv.init (s : Str) : BraceInv s 0 0 0 [] := by
  refine ⟨by simp [depth], ?_, by simp, by simp, by simp, ?_, by simp⟩
  · intro n hn
    have : n = 0 := by omega
    subst this; simp [depth]
  · intro j c hj; simp at hj


theorem depth_neg_iff (l : Str) : depth l < 0 ↔ l.count '{' < l.count '}' := by
  unfold depth; omega

theorem depth_ne_zero_iff (l : Str) : depth l ≠ 0 ↔ l.count '{' ≠ l.count '}' := by
  unfold depth; omega

theorem mem_flatSpans (spans : List (Nat × Nat)) (x : Nat) (h : x ∈ flatSpans spans) :
    ∃ ab ∈ spans, x = ab.1 ∨ x = ab.2 := by
  induction spans with
  | nil => simp [flatSpans] at h
  | cons y rest ih =>
    obtain ⟨a, b⟩ := y
    simp only [flatSpans, List.mem_cons] at h
    rcases h with h | h | h
    · exact ⟨(a, b), by simp, Or.inl h⟩
    · exact ⟨(a, b), by simp, Or.inr h⟩
    · obtain ⟨ab, hab, hx⟩ := ih h
      exact ⟨ab, by simp [hab], hx⟩

theorem flatSpans_sorted (spans : List (Nat × Nat))
    (hs : spans.Pairwise (fun x y => x.2 ≤ y.1)) (hlt : ∀ ab ∈ spans, ab.1 < ab.2) :
    (flatSpans spans).Pairwise (· ≤ ·) := by
  induction spans with
  | nil => simp [flatSpans]
  | cons y rest ih =>
    obtain ⟨a, b⟩ := y
    rw [List.pairwise_cons] at hs
    have hab : a < b := hlt (a, b) (by simp)
    have hrest : ∀ x ∈ flatSpans rest, b ≤ x := by
      intro x hx
      obtain ⟨cd, hcd, hx⟩ := mem_flatSpans rest x hx
      have h1 := hs.1 cd hcd
      have h2 := hlt cd (by simp [hcd])
      simp only at h1
      rcases hx with hx | hx <;> omega
    simp only [flatSpans, List.pairwise_cons, List.mem_cons]
    refine ⟨?_, hrest, ih hs.2 (fun ab hab => hlt ab (by simp [hab]))⟩
    rintro x (hx | hx)
    · omega
    · have := hrest x hx; omega

/-- C7 as stated fails: the indices of adjacent spans are not strictly increasing;
`braceIndices("{a}{b}")` is `[0, 3, 3, 6]`. -/
theorem braceIndices_not_strictly_increasing :
    braceIndices "{a}{b}".toList = .ok [0, 3, 3, 6]
      ∧ ¬ List.Pairwise (· < ·) [0, 3, 3, 6] :=
  ⟨rfl, by decide⟩

/-- C7, amended. `braceIndices(s)` returns an error, the unbalanced-braces error, if and
only if the braces of `s` are unbalanced (some prefix holds more `}` than `{`, or the
totals differ).  Otherwise it returns the indices `[a0, b0, a1, b1, ...]` of a list of
spans: the list has even length and is non-decreasing, with `a_k < b_k ≤ a_(k+1)`;
each `s[a_k .. b_k)` opens with `{` at depth zero and ends with the first `}` that
returns to depth zero, so nested braces stay inside it; and every brace of `s` lies in
one of the spans.  `"{id:[0-9]{3}}"` gives `[0, 13]`. -/
theorem braceIndices_spec (s : Str) :
    ((∃ e, braceIndices s = .error e) ↔ Unbalanced s)
      ∧ (∀ e, braceIndices s = .error e → e = .unbalancedBraces s)
      ∧ (∀ idxs, braceIndices s = .ok idxs →
          ∃ spans, idxs = flatSpans spans ∧ idxs.length = 2 * spans.length
            ∧ idxs.Pairwise (· ≤ ·)
            ∧ spans.Pairwise (fun x y => x.2 ≤ y.1)
            ∧ (∀ ab ∈ spans, TopLevelSpan s ab.1 ab.2)
            ∧ ∀ j c, s.get? j = some c → (c = '{' ∨ c = '}') →
                ∃ ab ∈ spans, ab.1 ≤ j ∧ j < ab.2)
      ∧ braceIndices "{id:[0-9]{3}}".toList = .ok [0, 13] := by
  have hloop := braceLoop_spec s s 0 0 0 [] (by simp) (Nat.zero_le _) (BraceInv.init s)
  have hflat : flatSpans [] = [] := rfl
  rw [hflat] at hloop
  rcases hloop with ⟨⟨n, hn⟩, herr⟩ | ⟨level1, idx1, spans1, hok, hinv⟩
  · -- the loop stopped at a closing brace of depth zero
    have hres : braceIndices s = .error (.unbalancedBraces s) := by
      simp [braceIndices, herr]
    refine ⟨?_, ?_, ?_, rfl⟩
    · constructor
      · intro _; exact Or.inl ⟨n, (depth_neg_iff _).mp hn⟩
      · intro _; exact ⟨_, hres⟩
    · intro e he; rw [hres] at he; cases he; rfl
    · intro idxs hidxs; rw [hres] at hidxs; cases hidxs
  · have hlev : level1 = depth s := by
      have := hinv.level_eq; rwa [List.take_length] at this
    by_cases hz : level1 = 0
    · -- balanced
      have hres : braceIndices s = .ok (flatSpans spans1) := by
        simp [braceIndices, hok, hz]
      refine ⟨?_, ?_, ?_, rfl⟩
      · constructor
        · rintro ⟨e, he⟩; rw [hres] at he; cases he
        · rintro (⟨n, hn⟩ | hne)
          · exfalso
            have h1 := (depth_neg_iff _).mpr hn
            rcases Nat.le_total n s.length with hle | hle
            · have := hinv.nonneg n hle; omega
            · rw [List.take_of_length_le hle] at h1
              rw [← hlev, hz] at h1; omega
          · exfalso
            exact (depth_ne_zero_iff s).mpr hne (by rw [← hlev, hz])
      · intro e he; rw [hres] at he; cases he
      · intro idxs hidxs
        rw [hres] at hidxs
        cases hidxs
        refine ⟨spans1, rfl, flatSpans_length spans1,
          flatSpans_sorted spans1 hinv.sorted (fun ab hab => (hinv.good ab hab).lt),
          hinv.sorted, hinv.good, ?_⟩
        intro j c hc hbrace
        have hj : j < s.length := by
          rw [List.get?_eq_getElem?] at hc
          exact (List.getElem?_eq_some_iff.mp hc).1
        exact hinv.covered j c (by rw [if_pos hz]; exact hj) hc hbrace
    · -- an opening brace is never closed
      have hres : braceIndices s = .error (.unbalancedBraces s) := by
        simp [braceIndices, hok, hz]
      refine ⟨?_, ?_, ?_, rfl⟩
      · constructor
        · intro _
          exact Or.inr ((depth_ne_zero_iff s).mp (by rw [← hlev]; exact hz))
        · intro _; exact ⟨_, hres⟩
      · intro e he; rw [hres] at he; cases he; rfl
      · intro idxs hidxs; rw [hres] at hidxs; cases hidxs


/-! ## The tokenizer on the text newRouteRegexp assembles -/

theorem lexRun_append (m : Mode) (a b : Str) :
    lexRun m (a ++ b) = (lexRun m a).bind (fun r =>
      (lexRun r.1 b).map (fun r2 => (r2.1, r.2 ++ r2.2))) := by
  induction a generalizing m with
  | nil =>
    simp only [List.nil_append, lexRun, Option.some_bind, List.nil_append]
    cases lexRun m b <;> simp
  | cons c cs ih =>
    show lexRun m (c :: (cs ++ b)) = _
    simp only [lexRun]
    cases lexStep m c with
    | none => rfl
    | some r =>
      obtain ⟨m1, out⟩ := r
      simp only [ih m1]
      cases lexRun m1 cs with
      | none => simp
      | some r1 =>
        obtain ⟨m2, more⟩ := r1
        simp only [Option.some_bind]
        cases lexRun m2 b with
        | none => simp
        | some r2 => simp [List.append_assoc]

/-- Text tokenized from the normal mode back to it, followed by more text. -/
theorem lexRun_normal (s rest : Str) (X : List Tok)
    (h : lexRun .normal s = some (.normal, X)) :
    lexRun .normal (s ++ rest) = (lexRun .normal rest).map (fun r => (r.1, X ++ r.2)) := by
  rw [lexRun_append, h]; rfl

theorem lexStep_esc_special (c : Char) (h : isSpecial c = true) :
    lexStep .esc c = some (.normal, [.lit c]) := by
  simp only [isSpecial, List.mem_cons, List.mem_singleton, decide_eq_true_eq] at h
  simp only [List.not_mem_nil, or_false] at h
  rcases h with rfl | rfl | rfl | rfl | rfl | rfl | rfl | rfl | rfl | rfl | rfl | rfl | rfl | rfl <;>
    rfl

theorem lexNormal_plain (c : Char) (h : isSpecial c = false) :
    lexNormal c = (.normal, [.lit c]) := by
  have h1 : ¬ (c ∈ ['\\', '.', '+', '*', '?', '(', ')', '|', '[', ']', '{', '}', '^', '$']) := by
    intro hc; simp [isSpecial, hc] at h
  simp only [List.mem_cons, List.mem_singleton, List.not_mem_nil, or_false, not_or] at h1
  obtain ⟨a1, a2, a3, a4, a5, a6, a7, a8, a9, a10, a11, a12, a13, a14⟩ := h1
  simp [lexNormal, a1, a2, a3, a4, a5, a6, a7, a8, a9, a11, a13, a14]

/-- The tokens of quoted text are its characters. -/
theorem lexRun_quoteMeta (raw : Str) :
    lexRun .normal (quoteMeta raw) = some (.normal, raw.map Tok.lit) := by
  induction raw with
  | nil => rfl
  | cons c cs ih =>
    by_cases h : isSpecial c = true
    · have h1 : lexStep .normal '\\' = some (.esc, []) := rfl
      simp [quoteMeta, h, lexRun, h1, lexStep_esc_special c h, ih]
    · simp only [Bool.not_eq_true] at h
      have h1 : lexStep .normal c = some (.normal, [.lit c]) := by
        simp [lexStep, lexNormal_plain c h]
      simp [quoteMeta, h, lexRun, h1, ih]

/-! ## The parser on literal tokens -/

theorem parseRun_append (p : Parser) (a b : List Tok) :
    parseRun p (a ++ b) = (parseRun p a).bind (fun p1 => parseRun p1 b) := by
  induction a generalizing p with
  | nil => rfl
  | cons t ts ih =>
    simp only [List.cons_append, parseRun]
    cases parseStep p t with
    | none => rfl
    | some p1 => exact ih p1

theorem parseRun_lits (p : Parser) (c : Char) (raw : Str) :
    parseRun p ((c :: raw).map Tok.lit)
      = some { p with cur := { p.cur with seq := p.cur.seq ++ litItems (c :: raw) },
                      last := .no } := by
  induction raw generalizing p c with
  | nil => simp [parseRun, parseStep, Parser.push, litItems]
  | cons d ds ih =>
    have := ih (p.push (.lit c)) d
    simp only [List.map_cons, parseRun, parseStep] at this ⊢
    rw [this]
    simp [Parser.push, litItems]


/-! ## The matcher on literal items -/

theorem run_empty (k : Cont) : Re.empty.run k = k := by
  funext before rest caps; rfl

theorem run_mkCat_cons (x : Re) (xs : List Re) (k : Cont) :
    (mkCat (x :: xs)).run k = x.run ((mkCat xs).run k) := by
  cases xs with
  | nil => simp [mkCat, run_empty]
  | cons y ys => funext before rest caps; rfl

theorem run_lit_cons (c : Char) (k : Cont) (before rest : Str) (caps : Caps) :
    (Re.lit c).run k before (c :: rest) caps = k (c :: before) rest caps := by
  simp [Re.run, stepChar]

theorem run_lit_some (c : Char) (k : Cont) (before s : Str) (caps out : Caps)
    (h : (Re.lit c).run k before s caps = some out) :
    ∃ rest, s = c :: rest ∧ k (c :: before) rest caps = some out := by
  cases s with
  | nil => simp [Re.run, stepChar] at h
  | cons x rest =>
    simp only [Re.run, stepChar] at h
    split_ifs at h with hx
    simp at hx
    subst hx
    exact ⟨rest, rfl, h⟩

/-- Literal items consume exactly their characters. -/
theorem run_lits_append (raw : Str) (xs : List Re) (k : Cont) (before rest : Str)
    (caps : Caps) :
    (mkCat (litItems raw ++ xs)).run k before (raw ++ rest) caps
      = (mkCat xs).run k (raw.reverse ++ before) rest caps := by
  induction raw generalizing before with
  | nil => rfl
  | cons c cs ih =>
    simp only [litItems, List.map_cons, List.cons_append, run_mkCat_cons, run_lit_cons]
    have := ih (c :: before)
    simp only [litItems] at this
    rw [this]
    simp

theorem run_lits_some (raw : Str) (xs : List Re) (k : Cont) (before s : Str)
    (caps out : Caps) (h : (mkCat (litItems raw ++ xs)).run k before s caps = some out) :
    ∃ rest, s = raw ++ rest ∧ (mkCat xs).run k (raw.reverse ++ before) rest caps = some out := by
  induction raw generalizing before s with
  | nil => exact ⟨s, rfl, h⟩
  | cons c cs ih =>
    simp only [litItems, List.map_cons, List.cons_append, run_mkCat_cons] at h
    obtain ⟨rest1, rfl, h1⟩ := run_lit_some c _ before s caps out h
    obtain ⟨rest, rfl, h2⟩ := ih (c :: before) rest1 h1
    exact ⟨rest, rfl, by simpa using h2⟩

/-- The optional slash and the end of text: what is left is nothing or one slash. -/
theorem run_optional_slash (k : Cont) (before rest : Str) (caps : Caps) :
    (mkCat [Re.quest (.cls false [('/', '/')]) true, Re.eol]).run k before rest caps
      = if rest = [] then k before [] caps
        else if rest = ['/'] then k ('/' :: before) [] caps
        else none := by
  cases rest with
  | nil => simp [mkCat, Re.run, optRounds, stepChar]
  | cons c r =>
    by_cases hc : c = '/'
    · subst hc
      cases r with
      | nil =>
        simp [mkCat, Re.run, optRounds, stepChar, inRanges]
        cases k ('/' :: before) [] caps <;> rfl
      | cons d r1 => simp [mkCat, Re.run, optRounds, stepChar, inRanges]
    · have h1 : ¬ ('/' ≤ c ∧ c ≤ '/') := by
        intro ⟨a, b⟩; exact hc (le_antisymm b a)
      simp [mkCat, Re.run, optRounds, stepChar, inRanges, hc, h1]

theorem run_eol (k : Cont) (before rest : Str) (caps : Caps) :
    Re.eol.run k before rest caps = if rest = [] then k before [] caps else none := by
  by_cases h : rest = []
  · subst h; simp [Re.run]
  · simp [Re.run, h]

theorem run_bol_cons (xs : List Re) (k : Cont) (x : Char) (before rest : Str) (caps : Caps) :
    (mkCat (Re.bol :: xs)).run k (x :: before) rest caps = none := by
  rw [run_mkCat_cons]; simp [Re.run]

theorem run_bol_nil (xs : List Re) (k : Cont) (rest : Str) (caps : Caps) :
    (mkCat (Re.bol :: xs)).run k [] rest caps = (mkCat xs).run k [] rest caps := by
  rw [run_mkCat_cons]; simp [Re.run]

/-- An expression anchored at the start of the text matches there or nowhere. -/
theorem findFrom_bol (xs : List Re) (n : Nat) (s : Str) :
    findFrom (mkCat (Re.bol :: xs)) n [] s
      = (mkCat xs).run (fun b _ c => some (c.set 0 (some (0, b.length)))) [] s
          (List.replicate (n + 1) none) := by
  have hlater : ∀ (rest before : Str) (x : Char),
      findFrom (mkCat (Re.bol :: xs)) n (x :: before) rest = none := by
    intro rest
    induction rest with
    | nil => intro before x; simp [findFrom, run_bol_cons]
    | cons y ys ih => intro before x; simp [findFrom, run_bol_cons, ih]
  cases s with
  | nil =>
    simp only [findFrom, run_bol_nil, List.length_nil]
    cases (mkCat xs).run _ [] [] _ <;> rfl
  | cons y ys =>
    simp only [findFrom, run_bol_nil, List.length_nil, hlater]
    cases (mkCat xs).run _ [] (y :: ys) _ <;> rfl


/-! ## Expressions of literal text with a fixed tail -/

theorem parseRun_litToks (p : Parser) (raw : Str) (h : p.last = .no) :
    parseRun p (raw.map Tok.lit)
      = some { p with cur := { p.cur with seq := p.cur.seq ++ litItems raw } } := by
  cases raw with
  | nil =>
    obtain ⟨o, ⟨c, a, s⟩, n, l⟩ := p
    simp [parseRun, litItems]
  | cons c cs =>
    rw [parseRun_lits]
    obtain ⟨o, ⟨c1, a, s⟩, n, l⟩ := p
    simp at h
    simp [h]

/-- The parser state after the tokens of `^`, literal text and a tail whose tokens only
add items to the current alternative. -/
theorem parse_literal (L tailText : Str) (tailToks : List Tok) (tailItems : List Re)
    (hlex : lexRun .normal tailText = some (.normal, tailToks))
    (hparse : ∀ seq : List Re, ∃ l, parseRun ⟨[], ⟨none, [], seq⟩, 0, .no⟩ tailToks
      = some ⟨[], ⟨none, [], seq ++ tailItems⟩, 0, l⟩) :
    parse ("^".toList ++ quoteMeta L ++ tailText)
      = some (mkCat (Re.bol :: (litItems L ++ tailItems)), 0) := by
  have h1 : lexRun .normal ("^".toList ++ quoteMeta L ++ tailText)
      = some (.normal, Tok.bol :: (L.map Tok.lit ++ tailToks)) := by
    have hb : lexRun .normal "^".toList = some (.normal, [Tok.bol]) := rfl
    rw [List.append_assoc, lexRun_normal _ _ _ hb, lexRun_normal _ _ _ (lexRun_quoteMeta L), hlex]
    rfl
  obtain ⟨l, hp⟩ := hparse (Re.bol :: litItems L)
  have h2 : parseRun Parser.init (Tok.bol :: (L.map Tok.lit ++ tailToks))
      = some ⟨[], ⟨none, [], Re.bol :: litItems L ++ tailItems⟩, 0, l⟩ := by
    simp only [Parser.init, parseRun, parseStep, Parser.push, List.nil_append]
    rw [parseRun_append, parseRun_litToks _ _ rfl]
    simpa using hp
  simp only [parse, lex, h1, lexFinish, List.append_nil, h2]
  simp [Frame.close, mkAlt]

theorem parse_tail_slash (seq : List Re) :
    ∃ l, parseRun ⟨[], ⟨none, [], seq⟩, 0, .no⟩
        [.cls false [('/', '/')], .quest, .eol]
      = some ⟨[], ⟨none, [], seq ++ [Re.quest (.cls false [('/', '/')]) true, Re.eol]⟩, 0, l⟩ := by
  refine ⟨.no, ?_⟩
  simp [parseRun, parseStep, Parser.push, Parser.applyRep, repeatIsValid, List.dropLast_concat]

theorem parse_tail_eol (seq : List Re) :
    ∃ l, parseRun ⟨[], ⟨none, [], seq⟩, 0, .no⟩ [.eol]
      = some ⟨[], ⟨none, [], seq ++ [Re.eol]⟩, 0, l⟩ :=
  ⟨.no, by simp [parseRun, parseStep, Parser.push]⟩

theorem parse_tail_none (seq : List Re) :
    ∃ l, parseRun ⟨[], ⟨none, [], seq⟩, 0, .no⟩ []
      = some ⟨[], ⟨none, [], seq ++ []⟩, 0, l⟩ :=
  ⟨.no, by simp [parseRun]⟩

theorem goRegexp_compile_of_parse (e : Str) (r : Re) (n : Nat) (h : parse e = some (r, n)) :
    goRegexp.compile e = some n := by
  simp [goRegexp, h]

theorem goRegexp_find_of_parse (e s : Str) (r : Re) (n : Nat) (h : parse e = some (r, n)) :
    goRegexp.find e s = ((findFrom r n [] s).map capsToInts).getD [] := by
  simp only [goRegexp, h]
  cases findFrom r n [] s <;> rfl

/-- An expression without capture groups that is anchored at the start: it matches
when the items after the anchor run through to the end of the match. -/
theorem matchString_anchored (e s : Str) (xs : List Re)
    (h : parse e = some (mkCat (Re.bol :: xs), 0)) :
    goRegexp.matchString e s = true
      ↔ ∃ out, (mkCat xs).run (fun b _ c => some (c.set 0 (some (0, b.length)))) [] s [none]
          = some out ∧ out ≠ [] := by
  rw [RegexpLib.matchString, goRegexp_find_of_parse e s _ _ h, findFrom_bol]
  have hrep : List.replicate (0 + 1) (none : Option (Nat × Nat)) = [none] := rfl
  rw [hrep]
  cases hr : (mkCat xs).run (fun b _ c => some (c.set 0 (some (0, b.length)))) [] s [none] with
  | none => simp
  | some out =>
    cases out with
    | nil => simp [capsToInts]
    | cons a rest => cases a with
      | none => simp [capsToInts]
      | some ab => simp [capsToInts]

/-- `^`, quoted text, `[/]?$`: the expression of a strict-slash path without
variables.  It has no capture group and matches the text and the text followed by one
slash, nothing else. -/
theorem literal_optional_slash (L s : Str) :
    goRegexp.compile ("^".toList ++ quoteMeta L ++ "[/]?$".toList) = some 0
      ∧ (goRegexp.matchString ("^".toList ++ quoteMeta L ++ "[/]?$".toList) s = true
          ↔ s = L ∨ s = L ++ ['/']) := by
  have hp := parse_literal L "[/]?$".toList _ _ rfl parse_tail_slash
  refine ⟨goRegexp_compile_of_parse _ _ _ hp, ?_⟩
  rw [matchString_anchored _ s _ hp]
  constructor
  · rintro ⟨out, hr, _⟩
    obtain ⟨rest, rfl, h2⟩ := run_lits_some L _ _ [] s _ out hr
    rw [run_optional_slash] at h2
    split_ifs at h2 with h3 h4
    · subst h3; left; simp
    · subst h4; right; rfl
  · rintro (rfl | rfl)
    · have := run_lits_append s [Re.quest (.cls false [('/', '/')]) true, Re.eol]
        (fun b _ c => some (c.set 0 (some (0, b.length)))) [] [] [none]
      rw [List.append_nil] at this
      rw [this, run_optional_slash]
      simp
    · rw [run_lits_append, run_optional_slash]
      simp


/-! ## Strict slash -/

theorem braceLoop_plain (s rest : Str) (i : Nat) (level : Int) (idx : Nat) (idxs : List Nat)
    (h1 : '{' ∉ rest) (h2 : '}' ∉ rest) :
    braceLoop s rest i level idx idxs = .ok (level, idxs) := by
  induction rest generalizing i with
  | nil => rfl
  | cons c cs ih =>
    simp only [List.mem_cons, not_or] at h1 h2
    simp only [braceLoop, if_neg (Ne.symm h1.1), if_neg (Ne.symm h2.1)]
    exact ih (i + 1) h1.2 h2.2

theorem braceIndices_plain (s : Str) (h1 : '{' ∉ s) (h2 : '}' ∉ s) :
    braceIndices s = .ok [] := by
  simp [braceIndices, braceLoop_plain s s 0 0 0 [] h1 h2]

/-- A slash appended to a string does not change the result of the brace loop. -/
theorem braceLoop_snoc_slash (s1 s2 rest : Str) (i : Nat) (level : Int) (idx : Nat)
    (idxs : List Nat) (r : Int × List Nat) (h : braceLoop s2 rest i level idx idxs = .ok r) :
    braceLoop s1 (rest ++ ['/']) i level idx idxs = .ok r := by
  induction rest generalizing i level idx idxs with
  | nil => simpa [braceLoop] using h
  | cons c cs ih =>
    show braceLoop s1 (c :: (cs ++ ['/'])) i level idx idxs = .ok r
    simp only [braceLoop] at h ⊢
    split_ifs at h ⊢ <;> exact ih _ _ _ _ h

theorem braceIndices_snoc_slash (t : Str) (idxs : List Nat) (h : braceIndices t = .ok idxs) :
    braceIndices (t ++ ['/']) = .ok idxs := by
  unfold braceIndices at h ⊢
  cases hl : braceLoop t t 0 0 0 [] with
  | error e => simp [hl] at h
  | ok r =>
    rw [braceLoop_snoc_slash (t ++ ['/']) t t 0 0 0 [] r hl]
    rw [hl] at h
    obtain ⟨level, idxs1⟩ := r
    simp only at h ⊢
    split_ifs at h ⊢
    exact h

/-- `assembleRouteRegexp` for a path with strict slash: the template is compiled
without its final slash, and `[/]?$` closes the expression. -/
theorem assemble_strict_path (re : RegexpLib) (tpl : Str) (idxs : List Nat) (ue : Bool) :
    assembleRouteRegexp re tpl idxs false false false true ue =
      match parseSpans re (if hasSuffixSlash tpl then tpl.dropLast else tpl) "[^/]+".toList
          idxs 0 { endIdx := 0, pattern := "^".toList, reverse := [], varsN := [], varsR := [] }
        with
      | .error f => .error f
      | .ok st =>
        match slice (if hasSuffixSlash tpl then tpl.dropLast else tpl) st.endIdx
            (if hasSuffixSlash tpl then tpl.dropLast else tpl).length with
        | none => .error .panic
        | some raw =>
          match re.compile (st.pattern ++ quoteMeta raw ++ "[/]?$".toList) with
          | none => .error (.err (.regexpCompile (st.pattern ++ quoteMeta raw ++ "[/]?$".toList)))
          | some n =>
            if n ≠ idxs.length / 2 then .error .panic
            else .ok
              { template := tpl
                matchHost := false
                matchQuery := false
                strictSlash := true
                useEncodedPath := ue
                regexp := st.pattern ++ quoteMeta raw ++ "[/]?$".toList
                reverse := if hasSuffixSlash tpl then st.reverse ++ raw ++ "/".toList
                  else st.reverse ++ raw
                varsN := st.varsN
                varsR := st.varsR } := by
  have e1 : ∀ x : Str, x ++ "[/]?".toList ++ "$".toList = x ++ "[/]?$".toList := by
    intro x; simp
  unfold assembleRouteRegexp
  simp only [Bool.false_eq_true, if_false, Bool.not_false, Bool.and_self, Bool.or_self,
    Bool.true_and, if_true, Bool.false_and, Bool.not_true, e1]

theorem hasSuffixSlash_snoc (t : Str) : hasSuffixSlash (t ++ ['/']) = true := by
  simp [hasSuffixSlash]

theorem slice_full (s : Str) : slice s (0 : Nat) s.length = some s := by
  simp [slice]

/-- The parts of a strict-slash path descriptor that was assembled without error. -/
theorem assemble_strict_path_ok (re : RegexpLib) (tpl : Str) (idxs : List Nat) (ue : Bool)
    (d : routeRegexp) (h : assembleRouteRegexp re tpl idxs false false false true ue = .ok d) :
    ∃ st raw,
      parseSpans re (if hasSuffixSlash tpl then tpl.dropLast else tpl) "[^/]+".toList
          idxs 0 { endIdx := 0, pattern := "^".toList, reverse := [], varsN := [], varsR := [] }
        = .ok st
      ∧ slice (if hasSuffixSlash tpl then tpl.dropLast else tpl) st.endIdx
          (if hasSuffixSlash tpl then tpl.dropLast else tpl).length = some raw
      ∧ re.compile (st.pattern ++ quoteMeta raw ++ "[/]?$".toList) = some (idxs.length / 2)
      ∧ d = { template := tpl
              matchHost := false
              matchQuery := false
              strictSlash := true
              useEncodedPath := ue
              regexp := st.pattern ++ quoteMeta raw ++ "[/]?$".toList
              reverse := if hasSuffixSlash tpl then st.reverse ++ raw ++ "/".toList
                else st.reverse ++ raw
              varsN := st.varsN
              varsR := st.varsR } := by
  rw [assemble_strict_path] at h
  split at h
  · simp at h
  · rename_i st hst
    split at h
    · simp at h
    · rename_i raw hraw
      split at h
      · simp at h
      · rename_i n hn
        by_cases hcount : n ≠ idxs.length / 2
        · rw [if_pos hcount] at h; simp at h
        · rw [if_neg hcount] at h
          simp only [Except.ok.injEq] at h
          simp only [ne_eq, not_not] at hcount
          exact ⟨st, raw, hst, hraw, by rw [hn, hcount], h.symm⟩

/-- C8 as stated fails: `/api/{id:[0-9]+}` does not end with a slash, yet with strict
slash its expression ends with `[/]?$`, it accepts `/api/5/`, and a Pattern with this
path matches the URL path `/api/5/` with `id = 5`. -/
theorem strictSlash_accepts_additional_slash :
    hasSuffixSlash "/api/{id:[0-9]+}".toList = false
      ∧ (newRouteRegexp goRegexp "/api/{id:[0-9]+}".toList false false false true false).toOption.map
          routeRegexp.regexp = some "^/api/(?P<v0>[0-9]+)[/]?$".toList
      ∧ goRegexp.matchString "^/api/(?P<v0>[0-9]+)[/]?$".toList "/api/5/".toList = true
      ∧ (NewPattern.Path goRegexp "/api/{id:[0-9]+}".toList).bind (fun b =>
          b.pattern.Match goRegexp ⟨[], [], "/api/5/".toList, "/api/5/".toList, []⟩)
        = some ([("id".toList, "5".toList)], true) := by
  decide

/-- C8, amended. For every path template compiled with strict slash, the optional
trailing slash `[/]?` is appended to the compiled expression whether or not the
template ends with a slash: the expression always ends with `[/]?$`, and a final slash
of the template is cut off before compiling, so the template with a slash added
compiles to the same expression (only the reverse template gets the slash).  A path
template without variables accepts exactly two paths, the template without its final
slash (if it has one) and that text followed by one slash. -/
theorem strictSlash_slash_always_optional (re : RegexpLib) (tpl : Str) (ue : Bool)
    (d : routeRegexp) (h : newRouteRegexp re tpl false false false true ue = .ok d) :
    d.strictSlash = true
      ∧ (∃ body, d.regexp = body ++ "[/]?$".toList)
      ∧ (hasSuffixSlash tpl = false →
          newRouteRegexp re (tpl ++ "/".toList) false false false true ue
            = .ok { d with template := tpl ++ "/".toList, reverse := d.reverse ++ "/".toList })
      ∧ (∀ (t path : Str) (enc : Bool), '{' ∉ t → '}' ∉ t →
          ∃ d1, newRouteRegexp goRegexp t false false false true enc = .ok d1
            ∧ d1.regexp = "^".toList
                ++ quoteMeta (if hasSuffixSlash t then t.dropLast else t) ++ "[/]?$".toList
            ∧ (goRegexp.matchString d1.regexp path = true
                ↔ path = (if hasSuffixSlash t then t.dropLast else t)
                  ∨ path = (if hasSuffixSlash t then t.dropLast else t) ++ "/".toList)) := by
  unfold newRouteRegexp at h
  cases hb : braceIndices tpl with
  | error e => simp [hb] at h
  | ok idxs =>
    simp only [hb] at h
    obtain ⟨st, raw, hst, hraw, hcomp, hd⟩ := assemble_strict_path_ok re tpl idxs ue d h
    refine ⟨by rw [hd], ⟨_, by rw [hd]⟩, ?_, ?_⟩
    · intro hs
      have hb2 := braceIndices_snoc_slash tpl idxs hb
      unfold newRouteRegexp
      show (match braceIndices (tpl ++ ['/']) with
        | .error e => (Except.error (.err e) : Except Fault routeRegexp)
        | .ok idxs => assembleRouteRegexp re (tpl ++ ['/']) idxs false false false true ue) = _
      simp only [hb2]
      rw [assemble_strict_path]
      simp only [hasSuffixSlash_snoc, if_true, List.dropLast_concat]
      simp only [hs, Bool.false_eq_true, if_false] at hst hraw hd
      simp only [hst, hraw, hcomp, ne_eq, not_true_eq_false, if_false]
      rw [hd]
      rfl
    · intro t path enc h1 h2
      have hlit := literal_optional_slash (if hasSuffixSlash t then t.dropLast else t)
      have hne : '{' ∉ (if hasSuffixSlash t then t.dropLast else t)
          ∧ '}' ∉ (if hasSuffixSlash t then t.dropLast else t) := by
        split_ifs
        · exact ⟨fun hm => h1 (List.mem_of_mem_dropLast hm), fun hm => h2 (List.mem_of_mem_dropLast hm)⟩
        · exact ⟨h1, h2⟩
      have hnew : newRouteRegexp goRegexp t false false false true enc = .ok
          { template := t
            matchHost := false
            matchQuery := false
            strictSlash := true
            useEncodedPath := enc
            regexp := "^".toList ++ quoteMeta (if hasSuffixSlash t then t.dropLast else t)
              ++ "[/]?$".toList
            reverse := if hasSuffixSlash t then
                [] ++ (if hasSuffixSlash t then t.dropLast else t) ++ "/".toList
              else [] ++ (if hasSuffixSlash t then t.dropLast else t)
            varsN := []
            varsR := [] } := by
        unfold newRouteRegexp
        simp only [braceIndices_plain t h1 h2]
        rw [assemble_strict_path]
        simp only [parseSpans, slice_full, (hlit path).1]
        simp
      exact ⟨_, hnew, rfl, (hlit path).2⟩

/-- The witness of C8: `/products` compiles to an expression that ends with `[/]?$`,
and `/products/` compiles to the same expression. -/
theorem strictSlash_slash_always_optional_witness :
    (∃ body, "^/products[/]?$".toList = body ++ "[/]?$".toList)
      ∧ newRouteRegexp goRegexp "/products/".toList false false false true false
        = .ok { template := "/products/".toList, matchHost := false, matchQuery := false,
                strictSlash := true, useEncodedPath := false,
                regexp := "^/products[/]?$".toList, reverse := "/products/".toList,
                varsN := [], varsR := [] } :=
  have h := strictSlash_slash_always_optional goRegexp "/products".toList false
    { template := "/products".toList, matchHost := false, matchQuery := false,
      strictSlash := true, useEncodedPath := false,
      regexp := "^/products[/]?$".toList, reverse := "/products".toList,
      varsN := [], varsR := [] } rfl
  ⟨h.2.1, h.2.2.1 rfl⟩


/-! ## Queries with an empty value -/

/-- C10. `Queries("foo", "")` compiles the expression `^foo=[^?&]*$`; on a URL whose
query has the key `foo` with the value `a?b` (as in `http://example.com/?foo=a?b`) or
`a&b` (as in `?foo=a%26b`) Match reports unmatched, although the key is set; with the
value `bar` it matches. -/
theorem Queries_empty_value_rejects_some_values :
    ((NewPattern.Queries goRegexp ["foo".toList, []]).map
        (fun b => b.pattern.matchers.map routeRegexp.regexp)) = some ["^foo=[^?&]*$".toList]
      ∧ (NewPattern.Queries goRegexp ["foo".toList, []]).bind (fun b =>
          b.pattern.Match goRegexp ⟨"http".toList, "example.com".toList, "/".toList,
            "/?foo=a?b".toList, [("foo".toList, ["a?b".toList])]⟩) = some ([], false)
      ∧ (NewPattern.Queries goRegexp ["foo".toList, []]).bind (fun b =>
          b.pattern.Match goRegexp ⟨"http".toList, "example.com".toList, "/".toList,
            "/?foo=a%26b".toList, [("foo".toList, ["a&b".toList])]⟩) = some ([], false)
      ∧ (NewPattern.Queries goRegexp ["foo".toList, []]).bind (fun b =>
          b.pattern.Match goRegexp ⟨"http".toList, "example.com".toList, "/".toList,
            "/?foo=bar".toList, [("foo".toList, ["bar".toList])]⟩) = some ([], true) := by
  decide


/-! ## The texts newRouteRegexp assembles -/

/-- What the parsing loop of `newRouteRegexp` adds to its state: one span after the
other, each with a validator that compiles. -/
theorem parseSpans_segs (re : RegexpLib) (tpl dp : Str) :
    ∀ (idxs : List Nat) (k : Nat) (st st1 : ParseState),
      parseSpans re tpl dp idxs k st = .ok st1 →
      ∃ segs : List Seg,
        st1.pattern = st.pattern ++ patText k segs
          ∧ st1.reverse = st.reverse ++ revText segs
          ∧ st1.varsN = st.varsN ++ segs.map Seg.name
          ∧ st1.varsR = st.varsR ++ segs.map Seg.validator
          ∧ (∀ g ∈ segs, (re.compile g.validator).isSome)
          ∧ segs.length = idxs.length / 2
  | [], k, st, st1, h => by
    simp only [parseSpans, Except.ok.injEq] at h
    subst h
    exact ⟨[], by simp [patText], by simp [revText], by simp, by simp, by simp, rfl⟩
  | [_], k, st, st1, h => by simp [parseSpans] at h
  | a :: b :: rest, k, st, st1, h => by
    simp only [parseSpans] at h
    split at h
    · rename_i raw inner hraw hinner
      split_ifs at h with hempty
      · split at h <;> simp at h
      · split at h
        · simp at h
        · rename_i n hcomp
          obtain ⟨segs, h1, h2, h3, h4, h5, h6⟩ := parseSpans_segs re tpl dp rest (k + 1) _ st1 h
          refine ⟨⟨raw, (splitN2 ':' inner).1, (splitN2 ':' inner).2.getD dp⟩ :: segs,
            ?_, ?_, ?_, ?_, ?_, ?_⟩
          · rw [h1]; simp [patText, List.append_assoc]
          · rw [h2]; simp [revText, List.append_assoc]
          · rw [h3]; simp
          · rw [h4]; simp [Seg.validator]
          · intro g hg
            rcases List.mem_cons.mp hg with rfl | hg
            · show (re.compile (Seg.validator _)).isSome = true
              unfold Seg.validator
              rw [hcomp]; rfl
            · exact h5 g hg
          · simp only [List.length_cons, h6]; omega
    · simp at h


theorem isAlnum_digitChar (d : Nat) (h : d < 10) : isAlnum (Nat.digitChar d) = true := by
  interval_cases d <;> rfl

theorem toDigitsCore_alnum (fuel n : Nat) (acc : List Char)
    (hacc : ∀ c ∈ acc, isAlnum c = true) :
    ∀ c ∈ Nat.toDigitsCore 10 fuel n acc, isAlnum c = true := by
  induction fuel generalizing n acc with
  | zero => simpa [Nat.toDigitsCore] using hacc
  | succ f ih =>
    simp only [Nat.toDigitsCore]
    split_ifs
    · intro c hc
      rcases List.mem_cons.mp hc with rfl | hc
      · exact isAlnum_digitChar _ (Nat.mod_lt _ (by decide))
      · exact hacc c hc
    · apply ih
      intro c hc
      rcases List.mem_cons.mp hc with rfl | hc
      · exact isAlnum_digitChar _ (Nat.mod_lt _ (by decide))
      · exact hacc c hc

theorem varGroupName_alnum (k : Nat) : ∀ c ∈ varGroupName k, isAlnum c = true := by
  intro c hc
  simp only [varGroupName, itoa, Nat.toDigits, List.mem_cons] at hc
  rcases hc with rfl | hc
  · rfl
  · exact toDigitsCore_alnum _ _ [] (by simp) c hc

theorem lexRun_step (m m1 : Mode) (c : Char) (cs : Str) (out : List Tok)
    (h : lexStep m c = some (m1, out)) :
    lexRun m (c :: cs) = (lexRun m1 cs).map (fun r => (r.1, out ++ r.2)) := by
  simp only [lexRun, h]
  cases lexRun m1 cs <;> rfl

theorem lexRun_name (acc w : Str) (hw : ∀ c ∈ w, isAlnum c = true) (hne : acc ++ w ≠ []) :
    lexRun (.name acc) (w ++ ['>']) = some (.normal, [.lpar true]) := by
  induction w generalizing acc with
  | nil =>
    simp only [List.append_nil] at hne
    simp [lexRun, lexStep, hne]
  | cons c cs ih =>
    have hc : isAlnum c = true := hw c (by simp)
    have hgt : c ≠ '>' := by
      rintro rfl; exact absurd hc (by decide)
    have := ih (acc ++ [c]) (fun x hx => hw x (by simp [hx])) (by simp)
    have hstep : lexStep (.name acc) c = some (.name (acc ++ [c]), []) := by
      simp [lexStep, hgt, hc]
    rw [List.cons_append, lexRun_step _ _ _ _ _ hstep, this]
    rfl

/-- The opening of the group of variable `k`. -/
theorem lexRun_groupOpen (k : Nat) :
    lexRun .normal ("(?P<".toList ++ (varGroupName k ++ ">".toList))
      = some (.normal, [.lpar true]) := by
  have h := lexRun_name [] (varGroupName k) (varGroupName_alnum k) (by simp [varGroupName])
  have e : "(?P<".toList ++ (varGroupName k ++ ">".toList)
      = '(' :: '?' :: 'P' :: '<' :: (varGroupName k ++ ['>']) := rfl
  have s1 : lexStep .normal '(' = some (.lparen, []) := rfl
  have s2 : lexStep .lparen '?' = some (.lparenQ, []) := rfl
  have s3 : lexStep .lparenQ 'P' = some (.lparenP, []) := rfl
  have s4 : lexStep .lparenP '<' = some (.name [], []) := rfl
  rw [e, lexRun_step _ _ _ _ _ s1, lexRun_step _ _ _ _ _ s2, lexRun_step _ _ _ _ _ s3,
    lexRun_step _ _ _ _ _ s4, h]
  rfl


/-- A pattern that can be followed by the closing `$` of its validator can be followed
by the closing parenthesis of its group: the same tokens come out, with `)` for `$`;
after a trailing backslash both closings are literals. -/
theorem mode_boundary (m m1 : Mode) (out fin : List Tok)
    (h1 : lexStep m '$' = some (m1, out)) (h2 : lexFinish m1 = some fin) :
    ∃ (pre : List Tok) (esc : Bool),
      out ++ fin = pre ++ [if esc then Tok.lit '$' else Tok.eol]
        ∧ lexStep m ')' = some (.normal, pre ++ [if esc then Tok.lit ')' else Tok.rpar]) := by
  cases m with
  | normal =>
    simp [lexStep, lexNormal] at h1
    obtain ⟨rfl, rfl⟩ := h1
    simp [lexFinish] at h2
    subst h2
    exact ⟨[], false, rfl, rfl⟩
  | esc =>
    have e : lexStep .esc '$' = some (.normal, [.lit '$']) := rfl
    rw [e] at h1
    simp at h1
    obtain ⟨rfl, rfl⟩ := h1
    simp [lexFinish] at h2
    subst h2
    exact ⟨[], true, rfl, rfl⟩
  | lparen =>
    have e : lexStep .lparen '$' = some (.normal, [.lpar true, .eol]) := rfl
    rw [e] at h1
    simp at h1
    obtain ⟨rfl, rfl⟩ := h1
    simp [lexFinish] at h2
    subst h2
    exact ⟨[.lpar true], false, rfl, rfl⟩
  | lparenQ => simp [lexStep] at h1
  | lparenP => simp [lexStep] at h1
  | name acc => simp [lexStep, isAlnum] at h1
  | clsOpen =>
    simp [lexStep, lexClsItem] at h1
    obtain ⟨rfl, rfl⟩ := h1
    simp [lexFinish] at h2
  | clsItem first neg items =>
    simp [lexStep, lexClsItem] at h1
    obtain ⟨rfl, rfl⟩ := h1
    simp [lexFinish] at h2
  | clsLo neg items lo =>
    simp [lexStep, lexClsItem] at h1
    obtain ⟨rfl, rfl⟩ := h1
    simp [lexFinish] at h2
  | clsDash neg items lo =>
    have n1 : ('$' : Char) ≠ ']' := by decide
    have n2 : ('$' : Char) ≠ '\\' := by decide
    simp only [lexStep, if_neg n1, if_neg n2] at h1
    split_ifs at h1
    simp at h1
    obtain ⟨rfl, rfl⟩ := h1
    simp [lexFinish] at h2
  | clsEsc neg items =>
    have e : lexStep (.clsEsc neg items) '$' = some (.clsLo neg items '$', []) := rfl
    rw [e] at h1
    simp at h1
    obtain ⟨rfl, rfl⟩ := h1
    simp [lexFinish] at h2
  | clsEscHi neg items lo =>
    simp only [lexStep] at h1
    split at h1
    · split_ifs at h1
      simp at h1
      obtain ⟨rfl, rfl⟩ := h1
      simp [lexFinish] at h2
    · split_ifs at h1
      simp at h1
      obtain ⟨rfl, rfl⟩ := h1
      simp [lexFinish] at h2
  | repMin digits =>
    have e1 : lexStep (.repMin digits) '$' = some (.normal, flushBrace digits ++ [.eol]) := by
      simp [lexStep, lexAfterBrace, lexNormal]
    have e2 : lexStep (.repMin digits) ')' = some (.normal, flushBrace digits ++ [.rpar]) := by
      simp [lexStep, lexAfterBrace, lexNormal]
    rw [e1] at h1
    simp at h1
    obtain ⟨rfl, rfl⟩ := h1
    simp [lexFinish] at h2
    subst h2
    exact ⟨flushBrace digits, false, by simp, e2⟩
  | repComma min =>
    have e1 : lexStep (.repComma min) '$'
        = some (.normal, flushBrace (min ++ [',']) ++ [.eol]) := by
      simp [lexStep, lexAfterBrace, lexNormal]
    have e2 : lexStep (.repComma min) ')'
        = some (.normal, flushBrace (min ++ [',']) ++ [.rpar]) := by
      simp [lexStep, lexAfterBrace, lexNormal]
    rw [e1] at h1
    simp at h1
    obtain ⟨rfl, rfl⟩ := h1
    simp [lexFinish] at h2
    subst h2
    exact ⟨flushBrace (min ++ [',']), false, by simp, e2⟩
  | repMax min max =>
    have e1 : lexStep (.repMax min max) '$'
        = some (.normal, flushBrace (min ++ ',' :: max) ++ [.eol]) := by
      simp [lexStep, lexAfterBrace, lexNormal]
    have e2 : lexStep (.repMax min max) ')'
        = some (.normal, flushBrace (min ++ ',' :: max) ++ [.rpar]) := by
      simp [lexStep, lexAfterBrace, lexNormal]
    rw [e1] at h1
    simp at h1
    obtain ⟨rfl, rfl⟩ := h1
    simp [lexFinish] at h2
    subst h2
    exact ⟨flushBrace (min ++ ',' :: max), false, by simp, e2⟩


/-! ## The tokens of an assembled expression -/

theorem lex_some (e : Str) (toks : List Tok) (h : lex e = some toks) :
    ∃ m T fin, lexRun .normal e = some (m, T) ∧ lexFinish m = some fin ∧ toks = T ++ fin := by
  unfold lex at h
  cases h1 : lexRun .normal e with
  | none => rw [h1] at h; cases h
  | some r =>
    obtain ⟨m, T⟩ := r
    rw [h1] at h
    cases h2 : lexFinish m with
    | none => simp only [h2] at h; cases h
    | some fin =>
      simp only [h2, Option.some.injEq] at h
      exact ⟨m, T, fin, rfl, h2, h.symm⟩

theorem parse_some (e : Str) (r : Re) (n : Nat) (h : parse e = some (r, n)) :
    ∃ toks p, lex e = some toks ∧ parseRun Parser.init toks = some p ∧ p.outer = []
      ∧ r = p.cur.close ∧ n = p.numCap := by
  unfold parse at h
  cases h1 : lex e with
  | none => rw [h1] at h; cases h
  | some toks =>
    rw [h1] at h
    cases h2 : parseRun Parser.init toks with
    | none => simp only [h2] at h; cases h
    | some p =>
      simp only [h2] at h
      by_cases h3 : p.outer = []
      · rw [if_pos h3] at h
        simp only [Option.some.injEq, Prod.mk.injEq] at h
        exact ⟨toks, p, rfl, h2, h3, h.1.symm, h.2.symm⟩
      · rw [if_neg h3] at h; cases h

theorem compile_some_parse (e : Str) (n : Nat) (h : goRegexp.compile e = some n) :
    ∃ r, parse e = some (r, n) := by
  have : (parse e).map Prod.snd = some n := h
  cases hp : parse e with
  | none => rw [hp] at this; cases this
  | some rn =>
    obtain ⟨r, n1⟩ := rn
    rw [hp] at this
    simp only [Option.map_some', Option.some.injEq] at this
    exact ⟨r, by rw [this]⟩

/-- The tokens of a pattern whose validator compiles: they parse between `^` and `$`,
and in the assembled expression they are followed by the closing of the group. -/
theorem patt_tokens (patt : Str) (h : (goRegexp.compile ("^".toList ++ patt ++ "$".toList)).isSome) :
    ∃ (P : List Tok) (esc : Bool),
      (∃ q, parseRun Parser.init (Tok.bol :: (P ++ [endTok esc])) = some q ∧ q.outer = [])
        ∧ ∀ rest, lexRun .normal (patt ++ (")".toList ++ rest))
          = (lexRun .normal rest).map (fun r => (r.1, P ++ closeTok esc :: r.2)) := by
  obtain ⟨n, hn⟩ := Option.isSome_iff_exists.mp h
  obtain ⟨r, hr⟩ := compile_some_parse _ n hn
  obtain ⟨toks, q, hlex, hq, hout, _, _⟩ := parse_some _ r n hr
  obtain ⟨m1, T, fin, hrun, hfin, htoks⟩ := lex_some _ toks hlex
  have hb : lexStep .normal '^' = some (.normal, [Tok.bol]) := rfl
  have e : "^".toList ++ patt ++ "$".toList = '^' :: (patt ++ ['$']) := rfl
  rw [e, lexRun_step _ _ _ _ _ hb, lexRun_append] at hrun
  cases hp : lexRun .normal patt with
  | none => rw [hp] at hrun; cases hrun
  | some r0 =>
    obtain ⟨m, P0⟩ := r0
    rw [hp] at hrun
    simp only [Option.some_bind] at hrun
    cases hs : lexStep m '$' with
    | none => simp only [lexRun, hs] at hrun; cases hrun
    | some r1 =>
      obtain ⟨m2, out⟩ := r1
      simp only [lexRun, hs, Option.map_some', List.append_nil, Option.some.injEq,
        Prod.mk.injEq] at hrun
      obtain ⟨hm, hT⟩ := hrun
      subst hm
      obtain ⟨pre, esc, hpre, hclose⟩ := mode_boundary m m2 out fin hs hfin
      have htoks2 : toks = Tok.bol :: ((P0 ++ pre) ++ [endTok esc]) := by
        rw [htoks, ← hT]
        show Tok.bol :: (P0 ++ out) ++ fin = _
        rw [List.cons_append, List.append_assoc, hpre, List.append_assoc]
        rfl
      refine ⟨P0 ++ pre, esc, ⟨q, by rw [← htoks2]; exact hq, hout⟩, ?_⟩
      intro rest
      rw [lexRun_append, hp]
      simp only [Option.some_bind]
      have e2 : ")".toList ++ rest = ')' :: rest := rfl
      rw [e2, lexRun_step _ _ _ _ _ hclose]
      cases lexRun .normal rest with
      | none => rfl
      | some r2 =>
        simp only [Option.map_some', Option.some.injEq, Prod.mk.injEq, true_and]
        simp only [closeTok, List.append_assoc, List.singleton_append]


/-- The tokens of the spans of an assembled expression whose validators compile. -/
theorem lex_patText (segs : List Seg) (k : Nat)
    (h : ∀ g ∈ segs, (goRegexp.compile g.validator).isSome) :
    ∃ sts : List SegToks, sts.map SegToks.raw = segs.map Seg.raw
      ∧ (∀ st ∈ sts, ∃ q, parseRun Parser.init (Tok.bol :: (st.toks ++ [endTok st.esc])) = some q
          ∧ q.outer = [])
      ∧ ∀ rest, lexRun .normal (patText k segs ++ rest)
          = (lexRun .normal rest).map (fun r => (r.1, skelToks sts ++ r.2)) := by
  induction segs generalizing k with
  | nil =>
    refine ⟨[], rfl, by simp, ?_⟩
    intro rest
    simp only [patText, skelToks, List.nil_append]
    cases lexRun .normal rest <;> rfl
  | cons g gs ih =>
    obtain ⟨sts, hraw, hst, hrun⟩ := ih (k + 1) (fun g1 hg1 => h g1 (by simp [hg1]))
    obtain ⟨P, esc, hq, hp⟩ := patt_tokens g.patt (h g (by simp))
    refine ⟨⟨g.raw, P, esc⟩ :: sts, by simp [hraw], ?_, ?_⟩
    · intro st hmem
      rcases List.mem_cons.mp hmem with rfl | hmem
      · exact hq
      · exact hst st hmem
    · intro rest
      have e : patText k (g :: gs) ++ rest
          = quoteMeta g.raw ++ (("(?P<".toList ++ (varGroupName k ++ ">".toList))
              ++ (g.patt ++ (")".toList ++ (patText (k + 1) gs ++ rest)))) := by
        simp only [patText, List.append_assoc]
      rw [e, lexRun_normal _ _ _ (lexRun_quoteMeta g.raw),
        lexRun_normal _ _ _ (lexRun_groupOpen k), hp, hrun]
      cases lexRun .normal rest with
      | none => rfl
      | some r => simp [skelToks, List.append_assoc]


/-! ## Parentheses and capture groups of a token list -/

theorem tokDepth_append (a b : List Tok) : tokDepth (a ++ b) = tokDepth a + tokDepth b := by
  induction a with
  | nil => simp [tokDepth]
  | cons t ts ih => cases t <;> simp [tokDepth, ih] <;> ring

theorem capCount_append (a b : List Tok) : capCount (a ++ b) = capCount a + capCount b := by
  induction a with
  | nil => simp [capCount]
  | cons t ts ih =>
    cases t with
    | lpar cap => cases cap <;> simp [capCount, ih]; omega
    | _ => simp [capCount, ih]

theorem tokDepth_lits (raw : Str) : tokDepth (raw.map Tok.lit) = 0 := by
  induction raw with
  | nil => rfl
  | cons c cs ih => simpa [tokDepth] using ih

theorem capCount_lits (raw : Str) : capCount (raw.map Tok.lit) = 0 := by
  induction raw with
  | nil => rfl
  | cons c cs ih => simpa [capCount] using ih

theorem applyRep_some (p q : Parser) (mk : Re → Bool → Re) (h : p.applyRep mk = some q) :
    ∃ r, p.cur.seq.getLast? = some r ∧ p.last = .no
      ∧ q = { p with cur := { p.cur with seq := p.cur.seq.dropLast ++ [mk r true] },
                     last := .greedy } := by
  unfold Parser.applyRep at h
  split at h
  · simp at h
  · rename_i r hr
    by_cases hl : p.last ≠ .no
    · rw [if_pos hl] at h; simp at h
    · rw [if_neg hl] at h
      simp only [ne_eq, not_not] at hl
      by_cases hv : repeatIsValid (mk r true) 1000 = true
      · simp only [hv, if_true, Option.some.injEq] at h
        exact ⟨r, hr, hl, h.symm⟩
      · simp [hv] at h

theorem applyRep_counts (p q : Parser) (mk : Re → Bool → Re) (h : p.applyRep mk = some q) :
    q.outer = p.outer ∧ q.numCap = p.numCap := by
  obtain ⟨r, _, _, rfl⟩ := applyRep_some p q mk h
  exact ⟨rfl, rfl⟩

theorem parseStep_counts (p q : Parser) (t : Tok) (h : parseStep p t = some q) :
    (q.outer.length : Int) = p.outer.length + tokDepth [t]
      ∧ q.numCap = p.numCap + capCount [t] := by
  cases t with
  | lit c => simp [parseStep, Parser.push] at h; subst h; simp [tokDepth, capCount]
  | cls neg items => simp [parseStep, Parser.push] at h; subst h; simp [tokDepth, capCount]
  | dot => simp [parseStep, Parser.push] at h; subst h; simp [tokDepth, capCount]
  | bol => simp [parseStep, Parser.push] at h; subst h; simp [tokDepth, capCount]
  | eol => simp [parseStep, Parser.push] at h; subst h; simp [tokDepth, capCount]
  | wordB neg => simp [parseStep, Parser.push] at h; subst h; simp [tokDepth, capCount]
  | lpar cap =>
    simp only [parseStep, Option.some.injEq] at h
    subst h
    cases cap <;> simp [tokDepth, capCount]
  | rpar =>
    simp only [parseStep] at h
    split at h
    · simp at h
    · rename_i f fs hout
      simp only [Option.some.injEq] at h
      subst h
      simp [tokDepth, capCount, hout]
  | bar => simp [parseStep] at h; subst h; simp [tokDepth, capCount]
  | star =>
    obtain ⟨h1, h2⟩ := applyRep_counts p q _ h
    simp [tokDepth, capCount, h1, h2]
  | plus =>
    obtain ⟨h1, h2⟩ := applyRep_counts p q _ h
    simp [tokDepth, capCount, h1, h2]
  | quest =>
    simp only [parseStep] at h
    split_ifs at h
    · split at h
      · simp only [Option.some.injEq] at h
        subst h
        simp [tokDepth, capCount]
      · simp at h
    · obtain ⟨h1, h2⟩ := applyRep_counts p q _ h
      simp [tokDepth, capCount, h1, h2]
  | rep min max =>
    obtain ⟨h1, h2⟩ := applyRep_counts p q _ h
    simp [tokDepth, capCount, h1, h2]

theorem parseRun_counts (p q : Parser) (toks : List Tok) (h : parseRun p toks = some q) :
    (q.outer.length : Int) = p.outer.length + tokDepth toks
      ∧ q.numCap = p.numCap + capCount toks := by
  induction toks generalizing p with
  | nil => simp [parseRun] at h; subst h; simp [tokDepth, capCount]
  | cons t ts ih =>
    simp only [parseRun] at h
    cases hs : parseStep p t with
    | none => simp [hs] at h
    | some p1 =>
      simp only [hs] at h
      obtain ⟨a1, a2⟩ := parseStep_counts p p1 t hs
      obtain ⟨b1, b2⟩ := ih p1 h
      have e1 : tokDepth (t :: ts) = tokDepth [t] + tokDepth ts := tokDepth_append [t] ts
      have e2 : capCount (t :: ts) = capCount [t] + capCount ts := capCount_append [t] ts
      constructor
      · rw [b1, a1, e1]; ring
      · rw [b2, a2, e2]; omega

/-- A run that succeeds has succeeded on every prefix. -/
theorem parseRun_prefix (p q : Parser) (a b : List Tok) (h : parseRun p (a ++ b) = some q) :
    ∃ p1, parseRun p a = some p1 ∧ parseRun p1 b = some q := by
  rw [parseRun_append] at h
  cases h1 : parseRun p a with
  | none => simp [h1] at h
  | some p1 => exact ⟨p1, rfl, by simpa [h1] using h⟩

/-- The tokens of a pattern that parses between `^` and `$` are balanced and never
close a parenthesis they did not open. -/
theorem standalone_balanced (P : List Tok) (esc : Bool) (q : Parser)
    (h : parseRun Parser.init (Tok.bol :: (P ++ [endTok esc])) = some q) (hq : q.outer = []) :
    tokDepth P = 0 ∧ ∀ a b, P = a ++ b → 0 ≤ tokDepth a := by
  have hend : tokDepth [endTok esc] = 0 := by cases esc <;> rfl
  constructor
  · have := (parseRun_counts _ _ _ h).1
    rw [hq] at this
    have e : tokDepth (Tok.bol :: (P ++ [endTok esc])) = tokDepth P + tokDepth [endTok esc] := by
      rw [← tokDepth_append]; rfl
    rw [e, hend] at this
    simp [Parser.init] at this
    omega
  · intro a b hab
    subst hab
    have e : Tok.bol :: (a ++ b ++ [endTok esc]) = (Tok.bol :: a) ++ (b ++ [endTok esc]) := by
      simp
    rw [e] at h
    obtain ⟨p1, h1, _⟩ := parseRun_prefix _ _ _ _ h
    have := (parseRun_counts _ _ _ h1).1
    have e2 : tokDepth (Tok.bol :: a) = tokDepth a := rfl
    rw [e2] at this
    simp [Parser.init] at this
    omega


/-! ## Inside a capture group -/

theorem GroupFree_mkCat (l : List Re) (h : ∀ r ∈ l, GroupFree r = true) :
    GroupFree (mkCat l) = true := by
  induction l with
  | nil => rfl
  | cons r rs ih =>
    cases rs with
    | nil => exact h r (by simp)
    | cons s ss =>
      simp only [mkCat, GroupFree, Bool.and_eq_true]
      exact ⟨h r (by simp), ih (fun x hx => h x (by simp [hx]))⟩

theorem GroupFree_mkAlt (l : List Re) (h : ∀ r ∈ l, GroupFree r = true) :
    GroupFree (mkAlt l) = true := by
  induction l with
  | nil => rfl
  | cons r rs ih =>
    cases rs with
    | nil => exact h r (by simp)
    | cons s ss =>
      simp only [mkAlt, GroupFree, Bool.and_eq_true]
      exact ⟨h r (by simp), ih (fun x hx => h x (by simp [hx]))⟩

theorem GroupFree_lazy (r : Re) (h : GroupFree r = true) : GroupFree r.lazy = true := by
  cases r <;> simp_all [Re.lazy, GroupFree]

theorem GroupFree_close (f : Frame) (hcap : f.cap = none) (h : f.groupFree) :
    GroupFree f.close = true := by
  unfold Frame.close
  rw [hcap]
  apply GroupFree_mkAlt
  intro r hr
  rcases List.mem_append.mp hr with hr | hr
  · exact h.1 r hr
  · simp at hr; subst hr; exact GroupFree_mkCat _ h.2

theorem groupFree_push (f : Frame) (r : Re) (h : f.groupFree) (hr : GroupFree r = true) :
    Frame.groupFree { f with seq := f.seq ++ [r] } := by
  refine ⟨h.1, ?_⟩
  intro x hx
  rcases List.mem_append.mp hx with hx | hx
  · exact h.2 x hx
  · simp at hx; subst hx; exact hr

theorem groupFree_replaceLast (f : Frame) (r r1 : Re) (h : f.groupFree)
    (hlast : f.seq.getLast? = some r) (hr : GroupFree r = true → GroupFree r1 = true) :
    Frame.groupFree { f with seq := f.seq.dropLast ++ [r1] } := by
  refine ⟨h.1, ?_⟩
  intro x hx
  rcases List.mem_append.mp hx with hx | hx
  · exact h.2 x (List.mem_of_mem_dropLast hx)
  · simp at hx; subst hx
    exact hr (h.2 r (List.mem_of_mem_getLast? hlast))

/-- An item pushed on the current frame keeps the parser inside the group. -/
theorem Above_push (B : List Frame) (idx nc : Nat) (E : List Frame) (p : Parser) (r : Re)
    (hA : Above B idx nc E p) (hr : GroupFree r = true) : Above B idx nc E (p.push r) := by
  obtain ⟨h1, h2, h3, h4⟩ := hA
  refine ⟨h1, h2, h3, ?_⟩
  intro f hf
  rcases List.mem_cons.mp hf with rfl | hf
  · exact groupFree_push p.cur r (h4 p.cur (by simp)) hr
  · exact h4 f (by simp [hf])

theorem Above_replaceLast (B : List Frame) (idx nc : Nat) (E : List Frame) (p : Parser)
    (r r1 : Re) (l : LastRep) (hA : Above B idx nc E p) (hlast : p.cur.seq.getLast? = some r)
    (hr : GroupFree r = true → GroupFree r1 = true) :
    Above B idx nc E { p with cur := { p.cur with seq := p.cur.seq.dropLast ++ [r1] },
                              last := l } := by
  obtain ⟨h1, h2, h3, h4⟩ := hA
  refine ⟨h1, h2, h3, ?_⟩
  intro f hf
  rcases List.mem_cons.mp hf with rfl | hf
  · exact groupFree_replaceLast p.cur r r1 (h4 p.cur (by simp)) hlast hr
  · exact h4 f (by simp [hf])

theorem Above_applyRep (B : List Frame) (idx nc : Nat) (E : List Frame) (p q : Parser)
    (mk : Re → Bool → Re) (hmk : ∀ r g, GroupFree r = true → GroupFree (mk r g) = true)
    (hA : Above B idx nc E p) (h : p.applyRep mk = some q) : Above B idx nc E q := by
  obtain ⟨r, hlast, _, rfl⟩ := applyRep_some p q mk h
  exact Above_replaceLast B idx nc E p r _ _ hA hlast (hmk r true)

/-- One token that opens no capture group and closes no parenthesis from outside. -/
theorem Above_step (B : List Frame) (idx nc : Nat) (E : List Frame) (p q : Parser) (t : Tok)
    (hA : Above B idx nc E p) (h : parseStep p t = some q) (hcap : capCount [t] = 0)
    (hdepth : 0 ≤ (E.length : Int) + tokDepth [t]) :
    ∃ E1, Above B idx nc E1 q ∧ (E1.length : Int) = E.length + tokDepth [t] := by
  cases t with
  | lit c =>
    simp only [parseStep, Option.some.injEq] at h; subst h
    exact ⟨E, Above_push B idx nc E p _ hA rfl, by simp [tokDepth]⟩
  | cls neg items =>
    simp only [parseStep, Option.some.injEq] at h; subst h
    exact ⟨E, Above_push B idx nc E p _ hA rfl, by simp [tokDepth]⟩
  | dot =>
    simp only [parseStep, Option.some.injEq] at h; subst h
    exact ⟨E, Above_push B idx nc E p _ hA rfl, by simp [tokDepth]⟩
  | bol =>
    simp only [parseStep, Option.some.injEq] at h; subst h
    exact ⟨E, Above_push B idx nc E p _ hA rfl, by simp [tokDepth]⟩
  | eol =>
    simp only [parseStep, Option.some.injEq] at h; subst h
    exact ⟨E, Above_push B idx nc E p _ hA rfl, by simp [tokDepth]⟩
  | wordB neg =>
    simp only [parseStep, Option.some.injEq] at h; subst h
    exact ⟨E, Above_push B idx nc E p _ hA rfl, by simp [tokDepth]⟩
  | lpar cap =>
    cases cap with
    | true => simp [capCount] at hcap
    | false =>
      simp only [parseStep, Option.some.injEq] at h; subst h
      obtain ⟨h1, h2, h3, h4⟩ := hA
      refine ⟨p.cur :: E, ⟨by simp [h1], by simpa using h2, ?_, ?_⟩, by simp [tokDepth]⟩
      · simp only [Bool.false_eq_true, if_false, List.map_cons, List.length_cons,
          List.replicate_succ, List.cons_append]
        rw [← List.map_cons, h3]
      · intro f hf
        rcases List.mem_cons.mp hf with rfl | hf
        · exact ⟨by simp, by simp⟩
        · exact h4 f hf
  | rpar =>
    obtain ⟨h1, h2, h3, h4⟩ := hA
    cases E with
    | nil => simp [tokDepth] at hdepth
    | cons f E1 =>
      simp only [parseStep, h1, List.cons_append, Option.some.injEq] at h
      subst h
      simp only [List.map_cons, List.length_cons, List.replicate_succ, List.cons_append,
        List.cons.injEq] at h3
      refine ⟨E1, ⟨rfl, h2, ?_, ?_⟩, by simp [tokDepth]⟩
      · simpa using h3.2
      · intro g hg
        rcases List.mem_cons.mp hg with rfl | hg
        · exact groupFree_push f _ (h4 f (by simp))
            (GroupFree_close p.cur h3.1 (h4 p.cur (by simp)))
        · exact h4 g (by simp [hg])
  | bar =>
    simp only [parseStep, Option.some.injEq] at h; subst h
    obtain ⟨h1, h2, h3, h4⟩ := hA
    refine ⟨E, ⟨h1, h2, h3, ?_⟩, by simp [tokDepth]⟩
    intro f hf
    rcases List.mem_cons.mp hf with rfl | hf
    · have hc := h4 p.cur (by simp)
      refine ⟨?_, by simp⟩
      intro r hr
      rcases List.mem_append.mp hr with hr | hr
      · exact hc.1 r hr
      · simp at hr; subst hr; exact GroupFree_mkCat _ hc.2
    · exact h4 f (by simp [hf])
  | star =>
    exact ⟨E, Above_applyRep B idx nc E p q _ (fun r g hr => by simpa [GroupFree] using hr) hA h,
      by simp [tokDepth]⟩
  | plus =>
    exact ⟨E, Above_applyRep B idx nc E p q _ (fun r g hr => by simpa [GroupFree] using hr) hA h,
      by simp [tokDepth]⟩
  | quest =>
    simp only [parseStep] at h
    split_ifs at h
    · split at h
      · rename_i r hlast
        simp only [Option.some.injEq] at h; subst h
        exact ⟨E, Above_replaceLast B idx nc E p r _ _ hA hlast (GroupFree_lazy r),
          by simp [tokDepth]⟩
      · simp at h
    · exact ⟨E, Above_applyRep B idx nc E p q _ (fun r g hr => by simpa [GroupFree] using hr)
        hA h, by simp [tokDepth]⟩
  | rep min max =>
    exact ⟨E, Above_applyRep B idx nc E p q _ (fun r g hr => by simpa [GroupFree] using hr) hA h,
      by simp [tokDepth]⟩


theorem tokDepth_cons (t : Tok) (ts : List Tok) : tokDepth (t :: ts) = tokDepth [t] + tokDepth ts :=
  tokDepth_append [t] ts

theorem capCount_cons (t : Tok) (ts : List Tok) : capCount (t :: ts) = capCount [t] + capCount ts :=
  capCount_append [t] ts

/-- Tokens that open no capture group and stay inside the group keep the parser inside
it. -/
theorem Above_run (B : List Frame) (idx nc : Nat) :
    ∀ (toks : List Tok) (E : List Frame) (p q : Parser), Above B idx nc E p →
      parseRun p toks = some q → capCount toks = 0 →
      (∀ a b, toks = a ++ b → 0 ≤ (E.length : Int) + tokDepth a) →
      ∃ E1, Above B idx nc E1 q ∧ (E1.length : Int) = E.length + tokDepth toks := by
  intro toks
  induction toks with
  | nil =>
    intro E p q hA h _ _
    simp only [parseRun, Option.some.injEq] at h; subst h
    exact ⟨E, hA, by simp [tokDepth]⟩
  | cons t ts ih =>
    intro E p q hA h hcap hpre
    simp only [parseRun] at h
    cases hs : parseStep p t with
    | none => simp [hs] at h
    | some p1 =>
      rw [hs] at h
      rw [capCount_cons] at hcap
      obtain ⟨E1, hA1, hE1⟩ := Above_step B idx nc E p p1 t hA hs (by omega)
        (hpre [t] ts rfl)
      obtain ⟨E2, hA2, hE2⟩ := ih E1 p1 q hA1 h (by omega) (by
        intro a b hab
        have := hpre (t :: a) b (by simp [hab])
        rw [tokDepth_cons] at this
        omega)
      exact ⟨E2, hA2, by rw [hE2, hE1, tokDepth_cons t ts]; ring⟩

/-- One span of the expression: literal text and a capture group around a balanced
pattern without capture groups give the literal items and one group item. -/
theorem parse_seg (p final : Parser) (raw : Str) (P rest : List Tok) (hlast : p.last = .no)
    (hcap : capCount P = 0) (hbal : tokDepth P = 0) (hpre : ∀ a b, P = a ++ b → 0 ≤ tokDepth a)
    (h : parseRun p (raw.map Tok.lit ++ (Tok.lpar true :: (P ++ (Tok.rpar :: rest))))
      = some final) :
    ∃ R, GroupFree R = true ∧
      parseRun { p with cur := { p.cur with
                          seq := p.cur.seq ++ (litItems raw ++ [Re.group (p.numCap + 1) R]) }
                        numCap := p.numCap + 1
                        last := .no } rest = some final := by
  rw [parseRun_append, parseRun_litToks p raw hlast] at h
  simp only [Option.some_bind, parseRun, parseStep, if_true] at h
  obtain ⟨p2, h2, h3⟩ := parseRun_prefix _ final P (Tok.rpar :: rest) h
  obtain ⟨E1, hA, hE⟩ := Above_run
    ({ p.cur with seq := p.cur.seq ++ litItems raw } :: p.outer) (p.numCap + 1) (p.numCap + 1)
    P [] _ p2 (by
      refine ⟨rfl, rfl, rfl, ?_⟩
      intro f hf
      simp only [List.mem_singleton] at hf
      subst hf
      exact ⟨by simp, by simp⟩) h2 hcap (by simpa using hpre)
  have hE0 : E1 = [] := by
    apply List.eq_nil_of_length_eq_zero
    have : (E1.length : Int) = 0 := by rw [hE, hbal]; simp
    exact_mod_cast this
  subst hE0
  obtain ⟨ho, hn, hc, hg⟩ := hA
  simp only [List.nil_append] at ho
  simp only [List.map_cons, List.map_nil, List.length_nil, List.replicate_zero, List.nil_append,
    List.cons.injEq, and_true] at hc
  simp only [parseRun, parseStep, ho] at h3
  refine ⟨mkAlt (p2.cur.alts ++ [mkCat p2.cur.seq]), ?_, ?_⟩
  · apply GroupFree_mkAlt
    have hf := hg p2.cur (by simp)
    intro r hr
    rcases List.mem_append.mp hr with hr | hr
    · exact hf.1 r hr
    · simp at hr; subst hr; exact GroupFree_mkCat _ hf.2
  · rw [← h3]
    simp only [Frame.close, hc, hn, List.append_assoc]

theorem tokDepth_skelToks (sts : List SegToks) (h : ∀ st ∈ sts, tokDepth st.toks = 0) :
    tokDepth (skelToks sts) = ((sts.filter (fun st => st.esc)).length : Int) := by
  induction sts with
  | nil => rfl
  | cons g gs ih =>
    have ih1 := ih (fun st hst => h st (by simp [hst]))
    have hg := h g (by simp)
    simp only [skelToks]
    rw [tokDepth_append, tokDepth_lits, tokDepth_cons, tokDepth_append, tokDepth_cons _ (skelToks gs),
      ih1, hg]
    cases hesc : g.esc
    · simp [closeTok, tokDepth, hesc, List.filter_cons]
    · simp [closeTok, tokDepth, hesc, List.filter_cons]; ring

theorem capCount_skelToks (sts : List SegToks) :
    capCount (skelToks sts) = sts.length + (sts.map (fun st => capCount st.toks)).sum := by
  induction sts with
  | nil => rfl
  | cons g gs ih =>
    simp only [skelToks]
    rw [capCount_append, capCount_lits, capCount_cons, capCount_append,
      capCount_cons _ (skelToks gs), ih]
    cases hesc : g.esc <;> (simp [closeTok, capCount]; omega)

/-- The spans of the expression: their items are added to the current alternative. -/
theorem parse_skel : ∀ (sts : List SegToks) (p final : Parser) (rest : List Tok),
    p.last = .no →
    (∀ st ∈ sts, st.esc = false ∧ capCount st.toks = 0 ∧ tokDepth st.toks = 0
      ∧ ∀ a b, st.toks = a ++ b → 0 ≤ tokDepth a) →
    parseRun p (skelToks sts ++ rest) = some final →
    ∃ Rs : List Re, Rs.length = sts.length ∧ (∀ R ∈ Rs, GroupFree R = true) ∧
      parseRun { p with cur := { p.cur with
                          seq := p.cur.seq ++ skelItems (p.numCap + 1) (sts.map SegToks.raw) Rs }
                        numCap := p.numCap + sts.length
                        last := .no } rest = some final := by
  intro sts
  induction sts with
  | nil =>
    intro p final rest hlast _ h
    refine ⟨[], rfl, by simp, ?_⟩
    obtain ⟨o, ⟨c, a, s⟩, n, l⟩ := p
    simp only at hlast
    subst hlast
    simpa [skelItems, skelToks] using h
  | cons g gs ih =>
    intro p final rest hlast hall h
    obtain ⟨hesc, hcap, hbal, hpre⟩ := hall g (by simp)
    simp only [skelToks, closeTok, hesc, Bool.false_eq_true, if_false, List.append_assoc,
      List.cons_append] at h
    obtain ⟨R, hR, h1⟩ := parse_seg p final g.raw g.toks _ hlast hcap hbal hpre h
    obtain ⟨Rs, hlen, hRs, h2⟩ := ih _ final rest rfl (fun st hst => hall st (by simp [hst])) h1
    refine ⟨R :: Rs, by simp [hlen], ?_, ?_⟩
    · intro x hx
      rcases List.mem_cons.mp hx with rfl | hx
      · exact hR
      · exact hRs x hx
    · rw [← h2]
      simp only [List.map_cons, skelItems, List.append_assoc, List.cons_append, List.nil_append,
        List.length_cons]
      congr 2
      omega


/-! ## What a match consumes -/

theorem stepChar_sound (ok : Char → Bool) (K : Cont) (b r : Str) (c out : Caps)
    (h : stepChar ok K b r c = some out) :
    ∃ v r1, r = v ++ r1 ∧ K (v.reverse ++ b) r1 c = some out := by
  cases r with
  | nil => simp [stepChar] at h
  | cons x rest =>
    simp only [stepChar] at h
    split_ifs at h
    exact ⟨[x], rest, rfl, by simpa using h⟩

/-- The further rounds of a loop whose body consumes a piece of the input consume a
piece of the input. -/
theorem loopRest_sound (step : Cont → Cont) (g : Bool)
    (hstep : ∀ K b r c out, step K b r c = some out →
      ∃ v r1, r = v ++ r1 ∧ K (v.reverse ++ b) r1 c = some out) :
    ∀ (fuel : Nat) (K : Cont) (b r : Str) (c out : Caps),
      loopRest step g fuel K b r c = some out →
      ∃ v r1, r = v ++ r1 ∧ K (v.reverse ++ b) r1 c = some out := by
  intro fuel
  induction fuel with
  | zero => intro K b r c out h; simp [loopRest] at h
  | succ fuel ih =>
    intro K b r c out h
    simp only [loopRest] at h
    have hmore : ∀ out1, step (fun b1 r1 c1 =>
          if r1.length = r.length then none
          else loopRest step g fuel K b1 r1 c1) b r c = some out1 →
        ∃ v r1, r = v ++ r1 ∧ K (v.reverse ++ b) r1 c = some out1 := by
      intro out1 h1
      obtain ⟨v, r1, rfl, h2⟩ := hstep _ b r c out1 h1
      split_ifs at h2
      obtain ⟨v2, r2, rfl, h3⟩ := ih K _ r1 c out1 h2
      exact ⟨v ++ v2, r2, by simp, by simpa using h3⟩
    split_ifs at h with hg
    · split at h
      · rename_i c1 hc1
        simp only [Option.some.injEq] at h; subst h
        exact hmore _ hc1
      · exact ⟨[], r, rfl, h⟩
    · split at h
      · rename_i c1 hc1
        simp only [Option.some.injEq] at h; subst h
        exact ⟨[], r, rfl, hc1⟩
      · exact hmore _ h

theorem loopPlus_sound (step : Cont → Cont) (g : Bool)
    (hstep : ∀ K b r c out, step K b r c = some out →
      ∃ v r1, r = v ++ r1 ∧ K (v.reverse ++ b) r1 c = some out)
    (fuel : Nat) (K : Cont) (b r : Str) (c out : Caps)
    (h : loopPlus step g fuel K b r c = some out) :
    ∃ v r1, r = v ++ r1 ∧ K (v.reverse ++ b) r1 c = some out := by
  unfold loopPlus at h
  obtain ⟨v, r1, rfl, h2⟩ := hstep _ b r c out h
  split_ifs at h2
  · exact ⟨v, r1, rfl, h2⟩
  · obtain ⟨v2, r2, rfl, h3⟩ := loopRest_sound step g hstep fuel K _ r1 c out h2
    exact ⟨v ++ v2, r2, by simp, by simpa using h3⟩

theorem loopStar_sound (step : Cont → Cont) (g : Bool)
    (hstep : ∀ K b r c out, step K b r c = some out →
      ∃ v r1, r = v ++ r1 ∧ K (v.reverse ++ b) r1 c = some out)
    (fuel : Nat) (K : Cont) (b r : Str) (c out : Caps)
    (h : loopStar step g fuel K b r c = some out) :
    ∃ v r1, r = v ++ r1 ∧ K (v.reverse ++ b) r1 c = some out := by
  unfold loopStar at h
  split_ifs at h with hg
  · split at h
    · rename_i c1 hc1
      simp only [Option.some.injEq] at h; subst h
      exact loopPlus_sound step g hstep fuel K b r c _ hc1
    · exact ⟨[], r, rfl, h⟩
  · split at h
    · rename_i c1 hc1
      simp only [Option.some.injEq] at h; subst h
      exact ⟨[], r, rfl, hc1⟩
    · exact loopPlus_sound step g hstep fuel K b r c _ h

theorem optRounds_sound (step : Cont → Cont) (g : Bool)
    (hstep : ∀ K b r c out, step K b r c = some out →
      ∃ v r1, r = v ++ r1 ∧ K (v.reverse ++ b) r1 c = some out) :
    ∀ (m : Nat) (K : Cont) (b r : Str) (c out : Caps),
      optRounds step g m K b r c = some out →
      ∃ v r1, r = v ++ r1 ∧ K (v.reverse ++ b) r1 c = some out := by
  intro m
  induction m with
  | zero => intro K b r c out h; exact ⟨[], r, rfl, h⟩
  | succ m ih =>
    intro K b r c out h
    simp only [optRounds] at h
    have hmore : ∀ out1, step (optRounds step g m K) b r c = some out1 →
        ∃ v r1, r = v ++ r1 ∧ K (v.reverse ++ b) r1 c = some out1 := by
      intro out1 h1
      obtain ⟨v, r1, rfl, h2⟩ := hstep _ b r c out1 h1
      obtain ⟨v2, r2, rfl, h3⟩ := ih K _ r1 c out1 h2
      exact ⟨v ++ v2, r2, by simp, by simpa using h3⟩
    split_ifs at h with hg
    · split at h
      · rename_i c1 hc1
        simp only [Option.some.injEq] at h; subst h
        exact hmore _ hc1
      · exact ⟨[], r, rfl, h⟩
    · split at h
      · rename_i c1 hc1
        simp only [Option.some.injEq] at h; subst h
        exact ⟨[], r, rfl, hc1⟩
      · exact hmore _ h

theorem reqRounds_sound (step : Cont → Cont)
    (hstep : ∀ K b r c out, step K b r c = some out →
      ∃ v r1, r = v ++ r1 ∧ K (v.reverse ++ b) r1 c = some out) :
    ∀ (n : Nat) (K : Cont) (b r : Str) (c out : Caps),
      reqRounds step n K b r c = some out →
      ∃ v r1, r = v ++ r1 ∧ K (v.reverse ++ b) r1 c = some out := by
  intro n
  induction n with
  | zero => intro K b r c out h; exact ⟨[], r, rfl, h⟩
  | succ n ih =>
    intro K b r c out h
    simp only [reqRounds] at h
    obtain ⟨v, r1, rfl, h2⟩ := hstep _ b r c out h
    obtain ⟨v2, r2, rfl, h3⟩ := ih K _ r1 c out h2
    exact ⟨v ++ v2, r2, by simp, by simpa using h3⟩

/-- An expression without capture groups consumes a piece of the input and leaves the
captures as they are. -/
theorem run_sound (R : Re) (hR : GroupFree R = true) :
    ∀ (K : Cont) (b r : Str) (c out : Caps), R.run K b r c = some out →
      ∃ v r1, r = v ++ r1 ∧ K (v.reverse ++ b) r1 c = some out := by
  induction R with
  | empty => intro K b r c out h; exact ⟨[], r, rfl, h⟩
  | lit x => intro K b r c out h; exact stepChar_sound _ K b r c out h
  | cls neg items => intro K b r c out h; exact stepChar_sound _ K b r c out h
  | dot => intro K b r c out h; exact stepChar_sound _ K b r c out h
  | bol =>
    intro K b r c out h
    simp only [Re.run] at h
    split_ifs at h
    exact ⟨[], r, rfl, h⟩
  | eol =>
    intro K b r c out h
    simp only [Re.run] at h
    split_ifs at h
    exact ⟨[], r, rfl, h⟩
  | wordB neg =>
    intro K b r c out h
    simp only [Re.run] at h
    split_ifs at h
    exact ⟨[], r, rfl, h⟩
  | cat x y ihx ihy =>
    intro K b r c out h
    simp only [GroupFree, Bool.and_eq_true] at hR
    simp only [Re.run] at h
    obtain ⟨v, r1, rfl, h1⟩ := ihx hR.1 _ b r c out h
    obtain ⟨v2, r2, rfl, h2⟩ := ihy hR.2 K _ r1 c out h1
    exact ⟨v ++ v2, r2, by simp, by simpa using h2⟩
  | alt x y ihx ihy =>
    intro K b r c out h
    simp only [GroupFree, Bool.and_eq_true] at hR
    simp only [Re.run] at h
    split at h
    · rename_i c1 hc1
      simp only [Option.some.injEq] at h; subst h
      exact ihx hR.1 K b r c _ hc1
    · exact ihy hR.2 K b r c out h
  | star x g ih =>
    intro K b r c out h
    simp only [GroupFree] at hR
    exact loopStar_sound x.run g (ih hR) _ K b r c out h
  | plus x g ih =>
    intro K b r c out h
    simp only [GroupFree] at hR
    exact loopPlus_sound x.run g (ih hR) _ K b r c out h
  | quest x g ih =>
    intro K b r c out h
    simp only [GroupFree] at hR
    exact optRounds_sound x.run g (ih hR) _ K b r c out h
  | «repeat» x min max g ih =>
    intro K b r c out h
    simp only [GroupFree] at hR
    simp only [Re.run] at h
    cases max with
    | some m =>
      simp only at h
      obtain ⟨v, r1, rfl, h1⟩ := reqRounds_sound x.run (ih hR) _ _ b r c out h
      obtain ⟨v2, r2, rfl, h2⟩ := optRounds_sound x.run g (ih hR) _ K _ r1 c out h1
      exact ⟨v ++ v2, r2, by simp, by simpa using h2⟩
    | none =>
      cases min with
      | zero => exact loopStar_sound x.run g (ih hR) _ K b r c out h
      | succ n =>
        simp only at h
        obtain ⟨v, r1, rfl, h1⟩ := reqRounds_sound x.run (ih hR) _ _ b r c out h
        obtain ⟨v2, r2, rfl, h2⟩ := loopPlus_sound x.run g (ih hR) _ K _ r1 c out h1
        exact ⟨v ++ v2, r2, by simp, by simpa using h2⟩
  | group idx x ih => simp [GroupFree] at hR

/-- A capture group around an expression without capture groups records the piece of
the input that the expression consumed. -/
theorem run_group_sound (idx : Nat) (R : Re) (hR : GroupFree R = true) (K : Cont)
    (b r : Str) (c out : Caps) (h : (Re.group idx R).run K b r c = some out) :
    ∃ v r1, r = v ++ r1
      ∧ K (v.reverse ++ b) r1 (c.set idx (some (b.length, b.length + v.length))) = some out := by
  simp only [Re.run] at h
  obtain ⟨v, r1, rfl, h1⟩ := run_sound R hR _ b r c out h
  refine ⟨v, r1, rfl, ?_⟩
  rw [← h1]
  simp [Nat.add_comm]

/-- The spans of an assembled expression consume the literal texts with a value after
each, and record the positions of the values. -/
theorem run_skel : ∀ (segs : List Seg) (Rs : List Re) (k : Nat) (xs : List Re) (K : Cont)
    (b s : Str) (c out : Caps), Rs.length = segs.length → (∀ R ∈ Rs, GroupFree R = true) →
    (mkCat (skelItems k (segs.map Seg.raw) Rs ++ xs)).run K b s c = some out →
    ∃ vs rest, vs.length = segs.length ∧ s = fill segs vs ++ rest
      ∧ (mkCat xs).run K ((fill segs vs).reverse ++ b) rest
          (setSpans k (spansFrom b.length segs vs) c) = some out := by
  intro segs
  induction segs with
  | nil =>
    intro Rs k xs K b s c out hlen _ h
    exact ⟨[], s, rfl, rfl, by simpa [skelItems, fill, spansFrom, setSpans] using h⟩
  | cons g gs ih =>
    intro Rs k xs K b s c out hlen hRs h
    cases Rs with
    | nil => simp at hlen
    | cons R Rs =>
      simp only [List.map_cons, skelItems, List.append_assoc, List.cons_append] at h
      obtain ⟨s1, rfl, h1⟩ := run_lits_some g.raw _ K b s c out h
      rw [run_mkCat_cons] at h1
      obtain ⟨v, s2, rfl, h2⟩ := run_group_sound k R (hRs R (by simp)) _ _ s1 c out h1
      obtain ⟨vs, rest, hvs, rfl, h3⟩ := ih Rs (k + 1) xs K _ s2 _ out (by simpa using hlen)
        (fun x hx => hRs x (by simp [hx])) h2
      refine ⟨v :: vs, rest, by simp [hvs], by simp [fill], ?_⟩
      rw [← h3]
      have e1 : (g.raw.reverse ++ b).length = b.length + g.raw.length := by
        simp [Nat.add_comm]
      have e2 : (v.reverse ++ (g.raw.reverse ++ b)).length = b.length + g.raw.length + v.length := by
        simp; omega
      simp only [fill, spansFrom, setSpans, e1, e2, List.reverse_append, List.append_assoc]


/-- The parts of a descriptor that was assembled without error: the expression is `^`,
the spans, the quoted last literal text and the tail; the reverse template is the
literal texts with `%s` for the variables. -/
theorem assemble_segs (re : RegexpLib) (tpl : Str) (idxs : List Nat) (mh mp mq ss ue : Bool)
    (d : routeRegexp) (h : assembleRouteRegexp re tpl idxs mh mp mq ss ue = .ok d) :
    ∃ (segs : List Seg) (rawN : Str),
      d.regexp = "^".toList ++ (patText 0 segs ++ (quoteMeta rawN ++ exprTail tpl mh mp mq ss))
      ∧ d.reverse = revText segs
          ++ (rawN ++ (if d.strictSlash && hasSuffixSlash tpl then "/".toList else []))
      ∧ d.varsN = segs.map Seg.name ∧ d.varsR = segs.map Seg.validator
      ∧ (∀ g ∈ segs, (re.compile g.validator).isSome)
      ∧ re.compile d.regexp = some segs.length
      ∧ d.strictSlash = (if (if !mq && mh then false else mp) || mh || mq then false else ss) := by
  unfold assembleRouteRegexp at h
  dsimp only at h
  split at h
  · simp at h
  · rename_i st hst
    split at h
    · simp at h
    · rename_i raw hraw
      split at h
      · simp at h
      · rename_i qv hqv
        split at h
        · simp at h
        · rename_i n hn
          split at h
          · simp at h
          · rename_i hcount
            simp only [Except.ok.injEq] at h
            subst h
            obtain ⟨segs, hp, hr, hN, hR, hc, hl⟩ := parseSpans_segs re _ _ idxs 0 _ st hst
            simp only [ne_eq, not_not] at hcount
            refine ⟨segs, raw, ?_, ?_, by simpa using hN, by simpa using hR, hc, ?_, rfl⟩
            · simp only [hp, exprTail]
              cases mq <;> cases mh <;> cases mp <;> cases ss <;> simp_all <;> split_ifs <;> simp
            · simp only [hr]
              split_ifs <;> simp
            · rw [hn, hcount, hl]


/-! ## The expression of a descriptor -/

theorem lexRun_tailText (a b c : Bool) :
    lexRun .normal (tailText a b c) = some (.normal, tailToks a b c) := by
  cases a <;> cases b <;> cases c <;> rfl

theorem parseRun_tailToks (a b c : Bool) (seq : List Re) (n : Nat) :
    ∃ l, parseRun ⟨[], ⟨none, [], seq⟩, n, .no⟩ (tailToks a b c)
      = some ⟨[], ⟨none, [], seq ++ tailItems a b c⟩, n, l⟩ := by
  cases a <;> cases b <;> cases c <;>
    simp [tailToks, tailItems, parseRun, parseStep, Parser.push, Parser.applyRep, repeatIsValid,
      List.dropLast_concat]

theorem tailToks_counts (a b c : Bool) :
    tokDepth (tailToks a b c) = 0 ∧ capCount (tailToks a b c) = 0 := by
  cases a <;> cases b <;> cases c <;> exact ⟨rfl, rfl⟩

theorem tailItems_groupFree (a b c : Bool) : ∀ R ∈ tailItems a b c, GroupFree R = true := by
  cases a <;> cases b <;> cases c <;> simp [tailItems, GroupFree]

theorem litItems_groupFree (raw : Str) : ∀ R ∈ litItems raw, GroupFree R = true := by
  intro R hR
  simp only [litItems, List.mem_map] at hR
  obtain ⟨c, _, rfl⟩ := hR
  rfl

/-- The syntax tree of an assembled expression that has as many capture groups as
spans: the start anchor, the literal texts with the group of a variable after each,
the last literal text and the tail.  No group has a group inside. -/
theorem parse_descriptor (segs : List Seg) (rawN : Str) (a b c : Bool)
    (hval : ∀ g ∈ segs, (goRegexp.compile g.validator).isSome)
    (h : goRegexp.compile ("^".toList ++ (patText 0 segs ++ (quoteMeta rawN ++ tailText a b c)))
      = some segs.length) :
    ∃ Rs : List Re, Rs.length = segs.length ∧ (∀ R ∈ Rs, GroupFree R = true)
      ∧ parse ("^".toList ++ (patText 0 segs ++ (quoteMeta rawN ++ tailText a b c)))
          = some (mkCat (Re.bol :: (skelItems 1 (segs.map Seg.raw) Rs
              ++ (litItems rawN ++ tailItems a b c))), segs.length) := by
  obtain ⟨r, hr⟩ := compile_some_parse _ _ h
  obtain ⟨toks, p, hlex, hrun, hout, hclose, hnum⟩ := parse_some _ r _ hr
  obtain ⟨sts, hraw, hst, hlexsk⟩ := lex_patText segs 0 hval
  have hlen : sts.length = segs.length := by
    have := congrArg List.length hraw
    simpa using this
  have hb : lexStep .normal '^' = some (.normal, [Tok.bol]) := rfl
  have hlex1 : lexRun .normal ("^".toList ++ (patText 0 segs ++ (quoteMeta rawN ++ tailText a b c)))
      = some (.normal, Tok.bol :: (skelToks sts ++ (rawN.map Tok.lit ++ tailToks a b c))) := by
    show lexRun .normal ('^' :: (patText 0 segs ++ (quoteMeta rawN ++ tailText a b c))) = _
    rw [lexRun_step _ _ _ _ _ hb, hlexsk, lexRun_normal _ _ _ (lexRun_quoteMeta rawN),
      lexRun_tailText]
    rfl
  have htoks : toks = Tok.bol :: (skelToks sts ++ (rawN.map Tok.lit ++ tailToks a b c)) := by
    unfold lex at hlex
    rw [hlex1] at hlex
    simpa [lexFinish] using hlex.symm
  subst htoks
  have hbalanced : ∀ st ∈ sts, tokDepth st.toks = 0 ∧ ∀ x y, st.toks = x ++ y → 0 ≤ tokDepth x := by
    intro st hmem
    obtain ⟨q, hq, hqo⟩ := hst st hmem
    exact standalone_balanced st.toks st.esc q hq hqo
  obtain ⟨hdepth, hcaps⟩ := parseRun_counts _ _ _ hrun
  rw [tokDepth_cons, tokDepth_append, tokDepth_append, tokDepth_lits, (tailToks_counts a b c).1,
    tokDepth_skelToks sts (fun st hmem => (hbalanced st hmem).1), hout] at hdepth
  rw [capCount_cons, capCount_append, capCount_append, capCount_lits, (tailToks_counts a b c).2,
    capCount_skelToks, ← hnum, hlen] at hcaps
  have hesc : ∀ st ∈ sts, st.esc = false := by
    have h0 : (sts.filter (fun st => st.esc)).length = 0 := by
      simp only [Parser.init, List.length_nil, tokDepth] at hdepth
      omega
    have h1 := List.eq_nil_of_length_eq_zero h0
    intro st hmem
    by_contra hne
    have : st ∈ sts.filter (fun st => st.esc) := by
      simp only [List.mem_filter]
      exact ⟨hmem, by simpa using hne⟩
    rw [h1] at this
    cases this
  have hnocap : ∀ st ∈ sts, capCount st.toks = 0 := by
    have h0 : (sts.map (fun st => capCount st.toks)).sum = 0 := by
      simp [Parser.init, capCount] at hcaps
      omega
    intro st hmem
    exact List.sum_eq_zero_iff.mp h0 _ (List.mem_map.mpr ⟨st, hmem, rfl⟩)
  simp only [parseRun, parseStep] at hrun
  obtain ⟨Rs, hRlen, hRs, hrun1⟩ := parse_skel sts (Parser.init.push .bol) p _ rfl
    (fun st hmem => ⟨hesc st hmem, hnocap st hmem, hbalanced st hmem⟩) hrun
  rw [parseRun_append, parseRun_litToks _ _ rfl] at hrun1
  obtain ⟨l, htail⟩ := parseRun_tailToks a b c
    ([Re.bol] ++ skelItems 1 (sts.map SegToks.raw) Rs ++ litItems rawN) sts.length
  simp only [Parser.init, Parser.push, List.nil_append, Nat.zero_add, Option.some_bind,
    List.singleton_append, List.cons_append] at hrun1 htail
  rw [htail] at hrun1
  simp only [Option.some.injEq] at hrun1
  subst hrun1
  refine ⟨Rs, by rw [hRlen, hlen], hRs, ?_⟩
  rw [hr, hclose, hraw]
  simp [Frame.close, mkAlt]


/-! ## The captures of a match and the extracted variables -/

theorem spansFrom_length : ∀ (segs : List Seg) (vs : List Str) (pos : Nat),
    vs.length = segs.length → (spansFrom pos segs vs).length = segs.length := by
  intro segs
  induction segs with
  | nil => intro vs pos _; cases vs <;> rfl
  | cons g gs ih =>
    intro vs pos h
    cases vs with
    | nil => simp at h
    | cons v vs => simp [spansFrom, ih vs _ (by simpa using h)]

theorem setSpans_replicate : ∀ (sps : List (Nat × Nat)) (pre : Caps) (m : Nat),
    setSpans pre.length sps (pre ++ List.replicate (sps.length + m) none)
      = pre ++ (sps.map some ++ List.replicate m none) := by
  intro sps
  induction sps with
  | nil => intro pre m; simp [setSpans]
  | cons sp sps ih =>
    intro pre m
    have e : (pre ++ List.replicate ((sp :: sps).length + m) none).set pre.length (some sp)
        = (pre ++ [some sp]) ++ List.replicate (sps.length + m) none := by
      have : (sp :: sps).length + m = (sps.length + m) + 1 := by simp; omega
      rw [this, List.replicate_succ, List.set_append_right _ _ (le_refl _)]
      simp
    have := ih (pre ++ [some sp]) m
    simp only [List.length_append, List.length_singleton] at this
    simp only [setSpans, e, this]
    simp

theorem slice_mid (x v y : Str) :
    slice (x ++ (v ++ y)) (x.length : Nat) ((x.length + v.length : Nat) : Int) = some v := by
  unfold slice
  rw [if_pos]
  · have e : ((x.length : Int) + (v.length : Int)).toNat - x.length = v.length := by omega
    simp [e]
  · refine ⟨by positivity, by push_cast; omega, ?_⟩
    simp only [List.length_append]
    push_cast
    omega

theorem intAt_of_drop (ms : List Int) (k : Nat) (a b : Int) (X : List Int)
    (h : ms.drop k = a :: b :: X) :
    intAt ms k = some a ∧ intAt ms (k + 1) = some b ∧ ms.drop (k + 2) = X := by
  have h0 : (ms.drop k)[0]? = ms[k + 0]? := List.getElem?_drop _ _ _
  have h1 : (ms.drop k)[1]? = ms[k + 1]? := List.getElem?_drop _ _ _
  have h2 : (ms.drop k).drop 2 = ms.drop (k + 2) := by rw [List.drop_drop]
  rw [h] at h0 h1 h2
  refine ⟨?_, ?_, ?_⟩
  · simpa [intAt, List.get?_eq_getElem?] using h0.symm
  · simpa [intAt, List.get?_eq_getElem?] using h1.symm
  · simpa using h2.symm

/-- From the captures of the spans `extractVars` reads the values. -/
theorem extractVars_spansFrom : ∀ (segs : List Seg) (vs : List Str) (pre rest : Str)
    (ms : List Int) (i : Nat) (vars : Vars), vs.length = segs.length →
    ms.drop (2 * i + 2) = capsToInts ((spansFrom pre.length segs vs).map some) →
    extractVars (pre ++ (fill segs vs ++ rest)) ms (segs.map Seg.name) i vars
      = some (vars.setAll (segs.map Seg.name) vs) := by
  intro segs
  induction segs with
  | nil =>
    intro vs pre rest ms i vars h _
    cases vs with
    | nil => rfl
    | cons v vs => simp at h
  | cons g gs ih =>
    intro vs pre rest ms i vars h hms
    cases vs with
    | nil => simp at h
    | cons v vs =>
      simp only [spansFrom, List.map_cons, capsToInts] at hms
      obtain ⟨h1, h2, h3⟩ := intAt_of_drop ms _ _ _ _ hms
      have hs : slice (pre ++ (fill (g :: gs) (v :: vs) ++ rest))
          ((pre.length + g.raw.length : Nat) : Int)
          ((pre.length + g.raw.length + v.length : Nat) : Int) = some v := by
        have := slice_mid (pre ++ g.raw) v (fill gs vs ++ rest)
        simpa [fill] using this
      have h4 := ih vs (pre ++ (g.raw ++ v)) rest ms (i + 1) (vars.set g.name v)
        (by simpa using h) (by
          rw [show 2 * (i + 1) + 2 = 2 * i + 2 + 2 by ring, h3]
          simp [Nat.add_assoc])
      simp only [List.map_cons, extractVars, h1, h2, hs, Vars.setAll]
      rw [← h4]
      simp [fill]

/-! ## The values of the extracted variables -/

theorem Vars.get_set_same (m : Vars) (k v : Str) : (m.set k v).get k = some v := by
  induction m with
  | nil => simp [Vars.set, Vars.get]
  | cons kv rest ih =>
    obtain ⟨a, b⟩ := kv
    simp only [Vars.set]
    split_ifs with hk
    · simp [Vars.get, hk]
    · simpa [Vars.get, hk] using ih

theorem Vars.get_set_other (m : Vars) (k v k1 : Str) (h : k1 ≠ k) :
    (m.set k v).get k1 = m.get k1 := by
  induction m with
  | nil => simp [Vars.set, Vars.get, Ne.symm h]
  | cons kv rest ih =>
    obtain ⟨a, b⟩ := kv
    simp only [Vars.set]
    split_ifs with hk
    · subst hk
      simp [Vars.get, Ne.symm h]
    · by_cases ha : a = k1
      · simp [Vars.get, ha]
      · simpa [Vars.get, ha] using ih

theorem Vars.get_setAll_other : ∀ (names vs : List Str) (m : Vars) (k : Str), k ∉ names →
    (m.setAll names vs).get k = m.get k := by
  intro names
  induction names with
  | nil => intro vs m k _; cases vs <;> rfl
  | cons name names ih =>
    intro vs m k hk
    cases vs with
    | nil => rfl
    | cons v vs =>
      simp only [List.mem_cons, not_or] at hk
      simp only [Vars.setAll]
      rw [ih vs _ k hk.2, Vars.get_set_other _ _ _ _ hk.1]

/-- The first loop of `url` on the variables that `extractVars` stored under distinct
names finds the stored values. -/
theorem lookupValues_setAll : ∀ (names vs : List Str) (m : Vars), names.Nodup →
    vs.length = names.length → lookupValues (m.setAll names vs) names = .ok vs := by
  intro names
  induction names with
  | nil =>
    intro vs m _ h
    cases vs with
    | nil => rfl
    | cons v vs => simp at h
  | cons name names ih =>
    intro vs m hnd h
    cases vs with
    | nil => simp at h
    | cons v vs =>
      simp only [List.nodup_cons] at hnd
      simp only [lookupValues, Vars.setAll]
      rw [Vars.get_setAll_other names vs _ name hnd.1, Vars.get_set_same,
        ih vs _ hnd.2 (by simpa using h)]


/-! ## The reverse template filled in -/

theorem sprintf_cons_plain (c : Char) (fmt : Str) (args : List Str) (hc : c ≠ '%') :
    sprintf (c :: fmt) args = (sprintf fmt args).map (c :: ·) := by
  rw [sprintf]
  all_goals (intros; simp_all)

theorem sprintf_plain (raw fmt : Str) (args : List Str) (h : '%' ∉ raw) :
    sprintf (raw ++ fmt) args = (sprintf fmt args).map (raw ++ ·) := by
  induction raw with
  | nil => simp
  | cons c cs ih =>
    simp only [List.mem_cons, not_or] at h
    rw [List.cons_append, sprintf_cons_plain c _ _ (Ne.symm h.1), ih h.2]
    cases sprintf fmt args <;> simp

theorem sprintf_plain_end (raw : Str) (h : '%' ∉ raw) : sprintf raw [] = some raw := by
  have := sprintf_plain raw [] [] h
  simpa [sprintf] using this

theorem count_revText (segs : List Seg) :
    (revText segs).count '%' = segs.length + (segs.map (fun g => g.raw.count '%')).sum := by
  induction segs with
  | nil => rfl
  | cons g gs ih =>
    simp only [revText, List.count_append, ih, List.length_cons, List.map_cons, List.sum_cons]
    have : List.count '%' "%s".toList = 1 := by decide
    rw [this]
    omega

/-- The reverse template without a `%` in its literal text, filled with one value for
each variable: the literal texts with the values after them. -/
theorem sprintf_revText : ∀ (segs : List Seg) (vs : List Str) (last : Str),
    vs.length = segs.length → (∀ g ∈ segs, '%' ∉ g.raw) → '%' ∉ last →
    sprintf (revText segs ++ last) vs = some (fill segs vs ++ last) := by
  intro segs
  induction segs with
  | nil =>
    intro vs last h _ hl
    cases vs with
    | nil => simpa [revText, fill] using sprintf_plain_end last hl
    | cons v vs => simp at h
  | cons g gs ih =>
    intro vs last h hraw hl
    cases vs with
    | nil => simp at h
    | cons v vs =>
      have e : revText (g :: gs) ++ last = g.raw ++ ('%' :: 's' :: (revText gs ++ last)) := by
        simp [revText]
      rw [e, sprintf_plain _ _ _ (hraw g (by simp)), sprintf,
        ih vs last (by simpa using h) (fun x hx => hraw x (by simp [hx])) hl]
      simp [fill]

/-- The second loop of `url` does not run past the validators when there is one for
each name: it ends without an error or with the error of a rejected value. -/
theorem checkValues_cases (re : RegexpLib) (values : Vars) (varsR : List Str) :
    ∀ (names : List Str) (k : Nat), k + names.length ≤ varsR.length →
      checkValues re values varsR names k = .ok ()
        ∨ ∃ value validator, checkValues re values varsR names k
            = .error (.err (.variableDoesntMatch value validator)) := by
  intro names
  induction names with
  | nil => intro k _; exact Or.inl rfl
  | cons name names ih =>
    intro k hk
    simp only [List.length_cons] at hk
    have hlt : k < varsR.length := by omega
    simp only [checkValues, List.get?_eq_getElem?, List.getElem?_eq_getElem hlt]
    split_ifs
    · exact Or.inr ⟨_, _, rfl⟩
    · exact ih (k + 1) (by omega)


/-- A match of the expression of a descriptor: the text is the literal texts with a
value after each, the last literal text, and what the tail accepts; the captures are
the positions of the values. -/
theorem find_descriptor (e s : Str) (segs : List Seg) (Rs : List Re) (rawN : Str) (a b c : Bool)
    (hlen : Rs.length = segs.length) (hRs : ∀ R ∈ Rs, GroupFree R = true)
    (hparse : parse e = some (mkCat (Re.bol :: (skelItems 1 (segs.map Seg.raw) Rs
      ++ (litItems rawN ++ tailItems a b c))), segs.length))
    (hmatch : goRegexp.matchString e s = true) :
    ∃ (vs : List Str) (rem : Str) (stop : Nat), vs.length = segs.length
      ∧ s = fill segs vs ++ (rawN ++ rem)
      ∧ goRegexp.find e s = capsToInts (some (0, stop) :: (spansFrom 0 segs vs).map some)
      ∧ (a = true → b = false → c = true → rem = [] ∨ rem = ['/'])
      ∧ (a = false → b = false → c = true → rem = []) := by
  rw [RegexpLib.matchString, goRegexp_find_of_parse e s _ _ hparse, findFrom_bol] at hmatch
  rw [goRegexp_find_of_parse e s _ _ hparse, findFrom_bol]
  cases hrun : (mkCat (skelItems 1 (segs.map Seg.raw) Rs ++ (litItems rawN ++ tailItems a b c))).run
      (fun b _ c => some (c.set 0 (some (0, b.length)))) [] s
      (List.replicate (segs.length + 1) none) with
  | none => rw [hrun] at hmatch; simp at hmatch
  | some out =>
    obtain ⟨vs, rest, hvs, rfl, h1⟩ := run_skel segs Rs 1 _ _ [] s _ out hlen hRs hrun
    obtain ⟨rest2, rfl, h2⟩ := run_lits_some rawN _ _ _ rest _ out h1
    obtain ⟨v, r1, hv, h3⟩ := run_sound (mkCat (tailItems a b c))
      (GroupFree_mkCat _ (tailItems_groupFree a b c)) _ _ rest2 _ out h2
    have hsp := spansFrom_length segs vs 0 hvs
    have hcaps : setSpans 1 (spansFrom 0 segs vs) (List.replicate (segs.length + 1) none)
        = none :: (spansFrom 0 segs vs).map some := by
      have := setSpans_replicate (spansFrom 0 segs vs) [none] 0
      simp only [List.length_singleton, hsp, Nat.add_zero, List.replicate_zero,
        List.append_nil, List.singleton_append] at this
      rw [← this, List.replicate_succ]
    simp only [List.length_nil, hcaps] at h3 h2
    simp only [List.set_cons_zero, Option.some.injEq] at h3
    refine ⟨vs, rest2,
      (v.reverse ++ (rawN.reverse ++ ((fill segs vs).reverse ++ []))).length, hvs, rfl, ?_, ?_, ?_⟩
    · rw [← h3]; rfl
    · rintro rfl rfl rfl
      have e1 : tailItems true false true = [Re.quest (.cls false [('/', '/')]) true, Re.eol] := rfl
      rw [e1, run_optional_slash] at h2
      split_ifs at h2 with h4 h5
      · exact Or.inl h4
      · exact Or.inr h5
    · rintro rfl rfl rfl
      have e1 : mkCat (tailItems false false true) = Re.eol := rfl
      rw [e1, run_eol] at h2
      split_ifs at h2 with h4
      exact h4


/-- The model of the regexp package meets the contract that the round trip rests
on. -/
theorem goRegexp_tiles : goRegexp.Tiles := by
  intro segs rawN a b c s hval _ hcomp hmatch
  obtain ⟨Rs, hRlen, hRs, hparse⟩ := parse_descriptor segs rawN a b c hval hcomp
  exact find_descriptor _ s segs Rs rawN a b c hRlen hRs hparse hmatch

theorem exprTail_eq (tpl : Str) (mh mp mq ss : Bool) :
    exprTail tpl mh mp mq ss
      = tailText (if (if !mq && mh then false else mp) || mh || mq then false else ss)
          (mq && decide ((splitN2 '=' tpl).2 = some []))
          (!(if !mq && mh then false else mp)) := rfl

/-- C6 as stated fails.  Each of these templates compiles, its expression matches the
text, and the fragment built from the extracted variables is not the text: with the
name `id` used twice, `/{id}/{id}` on `/a/b` gives `/b/b`; the path prefix `/api` on
`/api/x` gives `/api`, and the query `k=` on `k=v` gives `k=`; for `/a{v:\Bb$}/` with
strict slash on `/ab`, `url` returns the error that `b` does not match `^\Bb$$`; and
for `/a%%b/{id}` on `/a%%b/5`, where the literal text of the template is read by
`Sprintf` as a format, the result is `/a%b/5`. -/
theorem url_of_extracted_variables_differs :
    (newRouteRegexp goRegexp "/{id}/{id}".toList false false false false false).toOption.bind
        (fun d => d.roundTrip goRegexp "/a/b".toList) = some (.ok "/b/b".toList)
      ∧ (newRouteRegexp goRegexp "/api".toList false true false false false).toOption.bind
        (fun d => d.roundTrip goRegexp "/api/x".toList) = some (.ok "/api".toList)
      ∧ (newRouteRegexp goRegexp "k=".toList false false true false false).toOption.bind
        (fun d => d.roundTrip goRegexp "k=v".toList) = some (.ok "k=".toList)
      ∧ (newRouteRegexp goRegexp "/a\x7bv:\\Bb$\x7d/".toList false false false true false).toOption.bind
        (fun d => d.roundTrip goRegexp "/ab".toList)
          = some (.error (.err (.variableDoesntMatch "b".toList "^\\Bb$$".toList)))
      ∧ (newRouteRegexp goRegexp "/a%%b/{id}".toList false false false false false).toOption.bind
        (fun d => d.roundTrip goRegexp "/a%%b/5".toList) = some (.ok "/a%b/5".toList) :=
  ⟨rfl, rfl, rfl, rfl, rfl⟩

/-- C6, amended. With a regexp package that keeps the contract `RegexpLib.Tiles`, let
`d` be a descriptor that `newRouteRegexp` compiled, each of whose variable patterns
(a validator without its `^` and `$`) compiles in a named group of its own to one
capture group, whose variable names are distinct and whose reverse template has no `%`
but those of its `%s`, and let `s` be a text that the expression of `d` matches.  Then `extractVars` succeeds on the match; `url`
finds a value for every name; `s` is `body ++ rem` where `body` is the literal text of
the template with the extracted values in the place of the variables, and filling the
reverse template gives `body`, followed by a slash when a final slash of the template
was cut off for strict slash.  What is left of `s` after `body` is nothing or one slash
under strict slash, and nothing for a descriptor that is not a prefix, has no strict
slash and is not a query without a value.  `url` returns the filled template or the
error of a variable that does not match its pattern, never another error, and it
returns `s` whenever the filled template is `s`. -/
theorem url_of_extracted_variables (re : RegexpLib) (hlib : re.Tiles) (tpl : Str)
    (mh mp mq ss ue : Bool) (d : routeRegexp) (s : Str)
    (hnew : newRouteRegexp re tpl mh mp mq ss ue = .ok d)
    (hgroup : ∀ v ∈ d.varsR,
      re.compile ("(?P<v0>".toList ++ ((v.drop 1).dropLast ++ ")".toList)) = some 1)
    (hnames : d.varsN.Nodup)
    (hpct : d.reverse.count '%' = d.varsN.length)
    (hmatch : re.matchString d.regexp s = true) :
    ∃ (vars : Vars) (vs : List Str) (body rem : Str),
      extractVars s (re.find d.regexp s) d.varsN 0 [] = some vars
      ∧ lookupValues vars d.varsN = .ok vs
      ∧ s = body ++ rem
      ∧ sprintf d.reverse vs
          = some (body ++ (if d.strictSlash && hasSuffixSlash tpl then "/".toList else []))
      ∧ (d.strictSlash = true → rem = [] ∨ rem = "/".toList)
      ∧ (d.strictSlash = false → mp = false → (mq = true → (splitN2 '=' tpl).2 ≠ some []) →
          rem = [])
      ∧ d.roundTrip re s = d.url re vars
      ∧ (d.url re vars
            = some (.ok (body ++ (if d.strictSlash && hasSuffixSlash tpl then "/".toList else [])))
          ∨ ∃ value validator, d.url re vars
            = some (.error (.err (.variableDoesntMatch value validator))))
      ∧ (body ++ (if d.strictSlash && hasSuffixSlash tpl then "/".toList else []) = s →
          d.url re vars = some (.ok s)) := by
  unfold newRouteRegexp at hnew
  cases hb : braceIndices tpl with
  | error e => simp [hb] at hnew
  | ok idxs =>
    simp only [hb] at hnew
    obtain ⟨segs, rawN, hreg, hrev, hN, hR, hval, hcomp, hss⟩ :=
      assemble_segs re tpl idxs mh mp mq ss ue d hnew
    rw [exprTail_eq] at hreg
    rw [← hss] at hreg
    rw [hreg] at hcomp
    rw [hreg] at hmatch
    have hgrp : ∀ g ∈ segs, re.compile ("(?P<v0>".toList ++ (g.patt ++ ")".toList)) = some 1 := by
      intro g hg
      have h := hgroup g.validator (by rw [hR]; exact List.mem_map.mpr ⟨g, hg, rfl⟩)
      have e : (g.validator.drop 1).dropLast = g.patt := by
        simp [Seg.validator]
      rw [e] at h
      exact h
    obtain ⟨vs, rem, stop, hvs, hs, hfind, hrem1, hrem2⟩ :=
      hlib segs rawN _ _ _ s hval hgrp hcomp hmatch
    rw [← hreg] at hfind hmatch
    have hex := extractVars_spansFrom segs vs [] (rawN ++ rem) (re.find d.regexp s) 0 []
      hvs (by rw [hfind]; rfl)
    rw [List.nil_append, ← hs, ← hN] at hex
    have hlook := lookupValues_setAll d.varsN vs [] hnames (by rw [hvs, hN]; simp)
    have hcount : (segs.map (fun g => g.raw.count '%')).sum = 0
        ∧ (rawN ++ (if d.strictSlash && hasSuffixSlash tpl then "/".toList else [])).count '%'
          = 0 := by
      rw [hrev, List.count_append, count_revText, hN, List.length_map] at hpct
      omega
    have hraws : ∀ g ∈ segs, '%' ∉ g.raw := by
      intro g hg
      have := List.sum_eq_zero_iff.mp hcount.1 _ (List.mem_map.mpr ⟨g, hg, rfl⟩)
      exact List.count_eq_zero.mp this
    have hfmt := sprintf_revText segs vs _ hvs hraws (List.count_eq_zero.mp hcount.2)
    rw [← hrev, ← List.append_assoc] at hfmt
    have hurl : ∀ rv, sprintf d.reverse vs = some rv →
        (d.url re (Vars.setAll [] d.varsN vs) = some (.ok rv)
          ∨ ∃ value validator, d.url re (Vars.setAll [] d.varsN vs)
            = some (.error (.err (.variableDoesntMatch value validator))))
        ∧ (rv = s → d.url re (Vars.setAll [] d.varsN vs) = some (.ok s)) := by
      intro rv hrv
      unfold routeRegexp.url
      simp only [hlook, hrv]
      constructor
      · by_cases hm : re.matchString d.regexp rv = true
        · simp [hm]
        · have hm1 : re.matchString d.regexp rv = false := by simpa using hm
          simp only [hm1, Bool.not_false, if_true]
          rcases checkValues_cases re (Vars.setAll [] d.varsN vs) d.varsR d.varsN 0
            (by rw [hN, hR]; simp) with hok | ⟨value, validator, herr⟩
          · rw [hok]; exact Or.inl rfl
          · rw [herr]; exact Or.inr ⟨value, validator, rfl⟩
      · rintro rfl
        simp [hmatch]
    refine ⟨Vars.setAll [] d.varsN vs, vs, fill segs vs ++ rawN, rem, hex, hlook,
      by rw [hs]; simp, hfmt, ?_, ?_, by simp [routeRegexp.roundTrip, hmatch, hex],
      (hurl _ hfmt).1, (hurl _ hfmt).2⟩
    · intro h1
      refine hrem1 h1 ?_ ?_
      · rw [hss] at h1
        cases mq <;> simp_all
      · rw [hss] at h1
        cases mq <;> cases mh <;> cases mp <;> simp_all
    · intro h1 h2 h3
      refine hrem2 h1 ?_ ?_
      · cases mq
        · rfl
        · simpa using h3 rfl
      · subst h2
        cases mq <;> cases mh <;> rfl

/-- The amended C6 on the template `/articles/{category}/{id:[0-9]+}` with strict slash
and the path `/articles/tech/42`. -/
theorem url_of_extracted_variables_witness :
    newRouteRegexp goRegexp "/articles/{category}/{id:[0-9]+}".toList false false false true false
        = .ok { template := "/articles/{category}/{id:[0-9]+}".toList
                matchHost := false
                matchQuery := false
                strictSlash := true
                useEncodedPath := false
                regexp := "^/articles/(?P<v0>[^/]+)/(?P<v1>[0-9]+)[/]?$".toList
                reverse := "/articles/%s/%s".toList
                varsN := ["category".toList, "id".toList]
                varsR := ["^[^/]+$".toList, "^[0-9]+$".toList] }
      ∧ (∀ v ∈ ["^[^/]+$".toList, "^[0-9]+$".toList],
          goRegexp.compile ("(?P<v0>".toList ++ ((v.drop 1).dropLast ++ ")".toList)) = some 1)
      ∧ ["category".toList, "id".toList].Nodup
      ∧ "/articles/%s/%s".toList.count '%' = ["category".toList, "id".toList].length
      ∧ goRegexp.matchString "^/articles/(?P<v0>[^/]+)/(?P<v1>[0-9]+)[/]?$".toList
          "/articles/tech/42".toList = true
      ∧ ∃ (vars : Vars) (vs : List Str) (body rem : Str),
          extractVars "/articles/tech/42".toList
              (goRegexp.find "^/articles/(?P<v0>[^/]+)/(?P<v1>[0-9]+)[/]?$".toList
                "/articles/tech/42".toList) ["category".toList, "id".toList] 0 [] = some vars
            ∧ lookupValues vars ["category".toList, "id".toList] = .ok vs
            ∧ "/articles/tech/42".toList = body ++ rem :=
  ⟨rfl, by decide, by decide, by decide, by decide,
    (url_of_extracted_variables goRegexp goRegexp_tiles
      "/articles/{category}/{id:[0-9]+}".toList false false false true
      false
      { template := "/articles/{category}/{id:[0-9]+}".toList
        matchHost := false
        matchQuery := false
        strictSlash := true
        useEncodedPath := false
        regexp := "^/articles/(?P<v0>[^/]+)/(?P<v1>[0-9]+)[/]?$".toList
        reverse := "/articles/%s/%s".toList
        varsN := ["category".toList, "id".toList]
        varsR := ["^[^/]+$".toList, "^[0-9]+$".toList] }
      "/articles/tech/42".toList rfl (by decide) (by decide) (by decide) (by decide)).imp
      (fun _ h => h.imp (fun _ h => h.imp (fun _ h => h.imp
        (fun _ h => ⟨h.1, h.2.1, h.2.2.1⟩))))⟩


/-! ## getHost -/

theorem splitN2_fst (sep : Char) (s : Str) :
    (splitN2 sep s).1 = s.takeWhile (fun c => c ≠ sep) := by
  induction s with
  | nil => rfl
  | cons c cs ih =>
    by_cases h : c = sep
    · simp [splitN2, h]
    · simp [splitN2, h, ih]

theorem splitN2_fst_not_mem (sep : Char) (s : Str) : sep ∉ (splitN2 sep s).1 := by
  induction s with
  | nil => simp [splitN2]
  | cons c cs ih =>
    by_cases h : c = sep
    · simp [splitN2, h]
    · simp only [splitN2, if_neg h, List.cons_eq_cons, List.mem_cons, not_or]
      exact ⟨fun e => h e.symm, ih⟩

/-- C11 as stated fails for an absolute URL: for `http://foo.example.com:8080/`, where
`u.Host` is `foo.example.com:8080`, `getHost` returns the host with its port, which
contains `:`, and `Host("{sub}.example.com")` does not match. -/
theorem getHost_keeps_port_of_absolute_URL :
    getHost ⟨"http".toList, "foo.example.com:8080".toList, "/".toList, "/".toList, []⟩
        = "foo.example.com:8080".toList
      ∧ ':' ∈ getHost ⟨"http".toList, "foo.example.com:8080".toList, "/".toList, "/".toList, []⟩
      ∧ (NewPattern.Host goRegexp "{sub}.example.com".toList).bind (fun b =>
          b.pattern.Match goRegexp
            ⟨"http".toList, "foo.example.com:8080".toList, "/".toList, "/".toList, []⟩)
        = some ([], false) := by
  decide

/-- C11, amended. `getHost` strips the port only from a URL that is not absolute: for a
URL with an empty scheme it returns `u.Host` cut at its first `:`, which contains no
`:`; for an absolute URL it returns `u.Host` as it is, port included.  A host
descriptor tests this string.  So `Host("{sub}.example.com")` matches the URL without
a scheme whose host is `foo.example.com:8080`, with `sub = foo`. -/
theorem getHost_strips_port_unless_absolute (re : RegexpLib) (d : routeRegexp) (u : URL) :
    (u.Scheme = [] →
        getHost u = u.Host.takeWhile (fun c => c ≠ ':') ∧ ':' ∉ getHost u)
      ∧ (u.Scheme ≠ [] → getHost u = u.Host)
      ∧ (d.matchHost = true → d.Match re u = re.matchString d.regexp (getHost u))
      ∧ (NewPattern.Host goRegexp "{sub}.example.com".toList).bind (fun b =>
          b.pattern.Match goRegexp
            ⟨[], "foo.example.com:8080".toList, "/".toList, "/".toList, []⟩)
        = some ([("sub".toList, "foo".toList)], true) := by
  refine ⟨?_, ?_, ?_, by decide⟩
  · intro h
    simp only [getHost, h, ne_eq, not_true_eq_false, if_false]
    exact ⟨splitN2_fst ':' u.Host, splitN2_fst_not_mem ':' u.Host⟩
  · intro h
    simp [getHost, h]
  · intro h
    simp [routeRegexp.Match, h]


/-! ## The errors of `url` -/

theorem Vars.get_eq_none (m : Vars) (k : Str) : m.get k = none ↔ k ∉ m.map Prod.fst := by
  induction m with
  | nil => simp [Vars.get]
  | cons kv rest ih =>
    obtain ⟨a, b⟩ := kv
    by_cases h : a = k
    · simp [Vars.get, h]
    · have h1 : ¬ k = a := fun e => h e.symm
      simpa [Vars.get, h, h1] using ih

/-- The first loop of `url` ends with the error for the first name that the map
lacks, and with the values of the names when the map has them all. -/
theorem lookupValues_eq (values : Vars) (names : List Str) :
    lookupValues values names =
      match names.find? (fun n => decide (n ∉ values.map Prod.fst)) with
      | some v => .error (.missingRouteVariable v)
      | none => .ok (names.map (fun n => (values.get n).getD [])) := by
  induction names with
  | nil => rfl
  | cons n ns ih =>
    simp only [lookupValues, List.find?_cons, List.map_cons]
    cases hg : values.get n with
    | none =>
      have : n ∉ values.map Prod.fst := (Vars.get_eq_none values n).mp hg
      simp [this]
    | some value =>
      have : ¬ (n ∉ values.map Prod.fst) := by
        rw [← Vars.get_eq_none, hg]; simp
      simp only [this, decide_False, ih]
      cases ns.find? (fun n => decide (n ∉ values.map Prod.fst)) <;> simp

theorem checkValues_not_missing (re : RegexpLib) (values : Vars) (varsR : List Str) (v : Str) :
    ∀ (names : List Str) (k : Nat),
      checkValues re values varsR names k ≠ .error (.err (.missingRouteVariable v)) := by
  intro names
  induction names with
  | nil => intro k h; simp [checkValues] at h
  | cons n ns ih =>
    intro k h
    simp only [checkValues] at h
    split at h
    · simp at h
    · split_ifs at h
      · simp at h
      · exact ih _ h

/-- C15. `url` returns the missing-route-variable error for `v` exactly when `v` is the
first declared variable name, in declaration order, that is not a key of the values
map.  So it returns such an error if and only if some declared name is absent, and
none when every declared name is a key of the map. -/
theorem url_missing_route_variable (re : RegexpLib) (d : routeRegexp) (values : Vars) :
    (∀ v, d.url re values = some (.error (.err (.missingRouteVariable v)))
        ↔ d.varsN.find? (fun n => decide (n ∉ values.map Prod.fst)) = some v)
      ∧ ((∃ v, d.url re values = some (.error (.err (.missingRouteVariable v))))
        ↔ ∃ n ∈ d.varsN, n ∉ values.map Prod.fst)
      ∧ ((∀ n ∈ d.varsN, n ∈ values.map Prod.fst) →
          ∀ v, d.url re values ≠ some (.error (.err (.missingRouteVariable v)))) := by
  have key : ∀ v, d.url re values = some (.error (.err (.missingRouteVariable v)))
      ↔ d.varsN.find? (fun n => decide (n ∉ values.map Prod.fst)) = some v := by
    intro v
    unfold routeRegexp.url
    rw [lookupValues_eq]
    cases hf : d.varsN.find? (fun n => decide (n ∉ values.map Prod.fst)) with
    | some w => simp
    | none =>
      simp only [reduceCtorEq, iff_false]
      cases sprintf d.reverse (d.varsN.map (fun n => (values.get n).getD [])) with
      | none => simp
      | some rv =>
        simp only
        split_ifs
        · intro h
          split at h
          · rename_i f hc
            simp only [Option.some.injEq, Except.error.injEq] at h
            subst h
            exact checkValues_not_missing re values d.varsR v d.varsN 0 hc
          · simp at h
        · simp
  refine ⟨key, ?_, ?_⟩
  · constructor
    · rintro ⟨v, hv⟩
      have := (key v).mp hv
      have hmem := List.mem_of_find?_eq_some this
      have hp := List.find?_some this
      exact ⟨v, hmem, by simpa using hp⟩
    · rintro ⟨n, hn, habs⟩
      cases hf : d.varsN.find? (fun n => decide (n ∉ values.map Prod.fst)) with
      | some w => exact ⟨w, (key w).mpr hf⟩
      | none =>
        have := List.find?_eq_none.mp hf n hn
        exact absurd (decide_eq_true habs) this
  · intro hall v hv
    have := (key v).mp hv
    have hmem := List.mem_of_find?_eq_some this
    have hp := List.find?_some this
    simp only [decide_eq_true_eq] at hp
    exact hp (hall v hmem)

/-! ## Strict slash and the other kinds -/

/-- C16. With `matchPrefix`, `matchHost` or `matchQuery` set, `newRouteRegexp` returns
the same result for `strictSlash = true` as for `strictSlash = false`, for every
template and every `useEncodedPath`, and the `strictSlash` field of a descriptor it
returns is false. -/
theorem strictSlash_ignored_off_path (re : RegexpLib) (tpl : Str) (mh mp mq ue : Bool)
    (h : (mp || mh || mq) = true) :
    newRouteRegexp re tpl mh mp mq true ue = newRouteRegexp re tpl mh mp mq false ue
      ∧ ∀ ss d, newRouteRegexp re tpl mh mp mq ss ue = .ok d → d.strictSlash = false := by
  constructor
  · unfold newRouteRegexp assembleRouteRegexp
    cases mh <;> cases mp <;> cases mq <;> simp at h <;> rfl
  · intro ss d hd
    unfold newRouteRegexp at hd
    cases hb : braceIndices tpl with
    | error e => simp [hb] at hd
    | ok idxs =>
      simp only [hb] at hd
      obtain ⟨_, _, _, _, _, _, _, _, hss⟩ := assemble_segs re tpl idxs mh mp mq ss ue d hd
      rw [hss]
      cases mh <;> cases mp <;> cases mq <;> simp at h <;> rfl

/-- C16 on the template of `PathPrefix("/api/")`. -/
theorem strictSlash_ignored_off_path_witness :
    (true || false || false) = true
      ∧ newRouteRegexp goRegexp "/api/".toList false true false true false
        = newRouteRegexp goRegexp "/api/".toList false true false false false :=
  ⟨rfl, (strictSlash_ignored_off_path goRegexp "/api/".toList false true false false rfl).1⟩


/-! ## A failed add -/

/-- C19. A build call that fails on a Pattern without an error changes nothing but the
error field: when `addRegexpMatcher` returns an error, the receiver is what it was
before the call, so after a failing `Host`, `Path` or `PathPrefix`, and after
`Queries` with one key/value pair that fails, the host, path and queries of the group,
the matcher list and the options are those from before the call. -/
theorem failed_add_changes_only_the_error (re : RegexpLib) (p : Pattern) (hp : p.err = none) :
    (∀ tpl mh mp mq q e, p.addRegexpMatcher re tpl mh mp mq = some (q, some e) → q = p)
      ∧ (∀ tpl b, (p.Host re tpl = some b ∨ p.Path re tpl = some b ∨ p.PathPrefix re tpl = some b) →
          b.pattern.err ≠ none → b.pattern = { p with err := b.pattern.err })
      ∧ (∀ k v b, p.Queries re [k, v] = some b → b.pattern.err ≠ none →
          b.pattern = { p with err := b.pattern.err }) := by
  have hadd : ∀ tpl mh mp mq q e, p.addRegexpMatcher re tpl mh mp mq = some (q, some e) → q = p := by
    intro tpl mh mp mq q e h
    rcases addRegexpMatcher_cases re p q tpl mh mp mq (some e) h with ⟨rfl, _⟩ | ⟨_, he, _⟩
    · rfl
    · cases he
  have hret : ∀ tpl mh mp mq b, p.addAndReturn re tpl mh mp mq = some b →
      b.pattern.err ≠ none → b.pattern = { p with err := b.pattern.err } := by
    intro tpl mh mp mq b h herr
    unfold Pattern.addAndReturn at h
    split at h
    · simp at h
    · rename_i q e heq
      simp only [Option.some.injEq] at h
      subst h
      cases e with
      | none => simp at herr
      | some e1 => rw [hadd tpl mh mp mq q e1 heq]
  refine ⟨hadd, ?_, ?_⟩
  · rintro tpl b (h | h | h) herr
    · exact hret tpl _ _ _ b h herr
    · exact hret tpl _ _ _ b h herr
    · exact hret tpl _ _ _ b h herr
  · intro k v b h herr
    simp only [Pattern.Queries, List.length_cons, List.length_nil, Nat.reduceAdd, Nat.mod_self,
      ne_eq, not_true_eq_false, if_false, Pattern.queriesLoop] at h
    split at h
    · simp at h
    · rename_i q e heq
      simp only [Option.some.injEq] at h
      subst h
      rw [hadd _ _ _ _ q e heq]
    · rename_i q heq
      simp only [Option.some.injEq] at h
      subst h
      simp at herr

/-- C19 on `Path("api")`, which fails on a new Pattern for want of a leading slash. -/
theorem failed_add_changes_only_the_error_witness :
    NewPattern.err = none
      ∧ NewPattern.Path goRegexp "api".toList
        = some ⟨{ NewPattern with err := some (.pathMustStartWithSlash "api".toList) }, .receiver⟩
      ∧ ∀ b, NewPattern.Path goRegexp "api".toList = some b → b.pattern.err ≠ none →
          b.pattern = { NewPattern with err := b.pattern.err } :=
  ⟨rfl, by decide, fun b h herr =>
    (failed_add_changes_only_the_error goRegexp NewPattern rfl).2.1 "api".toList b
      (Or.inr (Or.inl h)) herr⟩


/-! ## Capture groups in a pattern -/

/-- What `assembleRouteRegexp` does with the expression it has written. -/
theorem assemble_of_routeExpr (re : RegexpLib) (tpl : Str) (idxs : List Nat)
    (mh mp mq ss ue : Bool) (e : Str) (h : routeExpr re tpl idxs mh mp mq ss = .ok e) :
    (re.compile e = none →
        assembleRouteRegexp re tpl idxs mh mp mq ss ue = .error (.err (.regexpCompile e)))
      ∧ (∀ n, re.compile e = some n → n ≠ idxs.length / 2 →
        assembleRouteRegexp re tpl idxs mh mp mq ss ue = .error .panic)
      ∧ (re.compile e = some (idxs.length / 2) →
        ∃ d, assembleRouteRegexp re tpl idxs mh mp mq ss ue = .ok d ∧ d.regexp = e) := by
  unfold routeExpr at h
  unfold assembleRouteRegexp
  simp only at h ⊢
  cases hst : parseSpans re
      (if ((if ((if (!mq && mh) = true then false else mp) || mh || mq) = true then false else ss)
        && hasSuffixSlash tpl) = true then tpl.dropLast else tpl)
      (if mq = true then "[^?&]*".toList else if mh = true then "[^.]+".toList else "[^/]+".toList)
      idxs 0 { endIdx := 0, pattern := "^".toList, reverse := [], varsN := [], varsR := [] } with
  | error f => simp only [hst] at h; cases h
  | ok st =>
    simp only [hst] at h ⊢
    cases hraw : slice
        (if ((if ((if (!mq && mh) = true then false else mp) || mh || mq) = true then false else ss)
          && hasSuffixSlash tpl) = true then tpl.dropLast else tpl) st.endIdx
        (if ((if ((if (!mq && mh) = true then false else mp) || mh || mq) = true then false else ss)
          && hasSuffixSlash tpl) = true then tpl.dropLast else tpl).length with
    | none => simp only [hraw] at h; cases h
    | some raw =>
      simp only [hraw] at h ⊢
      cases hqv : (if mq = true then (splitN2 '=' tpl).2 else some []) with
      | none => simp only [hqv] at h; cases h
      | some qv =>
        simp only [hqv, Except.ok.injEq] at h ⊢
        rw [h]
        refine ⟨?_, ?_, ?_⟩
        · intro hc; rw [hc]
        · intro n hc hn; rw [hc]; simp [hn]
        · intro hc; rw [hc]; simp

/-- C12 as stated fails: for `/{id:([0-9]+)}` the expression `^/(?P<v0>([0-9]+))[/]?$`
has two capture groups for one variable, `newRouteRegexp` panics, and `Path` on a new
Pattern aborts: it does not return, and no error is stored. -/
theorem capture_group_in_pattern_aborts :
    goRegexp.compile "^/(?P<v0>([0-9]+))[/]?$".toList = some 2
      ∧ newRouteRegexp goRegexp "/{id:([0-9]+)}".toList false false false true false
        = .error .panic
      ∧ NewPattern.Path goRegexp "/{id:([0-9]+)}".toList = none :=
  ⟨by decide, rfl, by decide⟩

/-- C12, amended. When the expression that `newRouteRegexp` assembles for a template
compiles to a number of capture groups other than the number of brace spans, as for
`/{id:([0-9]+)}`, `newRouteRegexp` panics.  A build call on a Pattern without an error
that gets there aborts: `addRegexpMatcher` does not return, so `Host`, `Path` or
`PathPrefix` neither returns nor stores an error. -/
theorem capture_count_mismatch_panics (re : RegexpLib) (p : Pattern) (tpl : Str)
    (mh mp mq : Bool) (idxs : List Nat) (e : Str) (n : Nat) (hp : p.err = none)
    (hs : (!mh && !mq && (decide (tpl.length > 0) && decide (tpl.head? ≠ some '/'))) = false)
    (hb : braceIndices (p.fullTemplate tpl mh mq) = .ok idxs)
    (he : routeExpr re (p.fullTemplate tpl mh mq) idxs mh mp mq p.strictSlash = .ok e)
    (hc : re.compile e = some n) (hn : n ≠ idxs.length / 2) :
    newRouteRegexp re (p.fullTemplate tpl mh mq) mh mp mq p.strictSlash p.useEncodedPath
        = .error .panic
      ∧ p.addRegexpMatcher re tpl mh mp mq = none
      ∧ p.addAndReturn re tpl mh mp mq = none := by
  have hnew : newRouteRegexp re (p.fullTemplate tpl mh mq) mh mp mq p.strictSlash
      p.useEncodedPath = .error .panic := by
    unfold newRouteRegexp
    rw [hb]
    exact (assemble_of_routeExpr re _ idxs mh mp mq _ _ e he).2.1 n hc hn
  have hadd : p.addRegexpMatcher re tpl mh mp mq = none := by
    rw [addRegexpMatcher_eq re p tpl mh mp mq hp hs, hnew]
  exact ⟨hnew, hadd, by simp [Pattern.addAndReturn, hadd]⟩

/-- The amended C12 on `Path("/{id:([0-9]+)}")` and a new Pattern. -/
theorem capture_count_mismatch_panics_witness :
    NewPattern.err = none
      ∧ braceIndices (NewPattern.fullTemplate "/{id:([0-9]+)}".toList false false) = .ok [1, 14]
      ∧ routeExpr goRegexp (NewPattern.fullTemplate "/{id:([0-9]+)}".toList false false) [1, 14]
          false false false NewPattern.strictSlash = .ok "^/(?P<v0>([0-9]+))[/]?$".toList
      ∧ goRegexp.compile "^/(?P<v0>([0-9]+))[/]?$".toList = some 2
      ∧ NewPattern.addAndReturn goRegexp "/{id:([0-9]+)}".toList false false false = none :=
  ⟨rfl, rfl, rfl, by decide,
    (capture_count_mismatch_panics goRegexp NewPattern "/{id:([0-9]+)}".toList false false false
      [1, 14] "^/(?P<v0>([0-9]+))[/]?$".toList 2 rfl rfl rfl rfl (by decide) (by decide)).2.2⟩


/-! ## Path after Path -/

theorem trimRightSlash_initial (s : Str) : trimRightSlash s <+: s := by
  unfold trimRightSlash
  have h := List.dropWhile_suffix (fun c => decide (c = '/')) (l := s.reverse)
  have := List.reverse_prefix.mpr h
  simpa using this

/-- A template that passes the test of pattern.go:145 is empty or starts with a slash. -/
theorem slash_guard_iff (tpl : Str) :
    (decide (tpl.length > 0) && decide (tpl.head? ≠ some '/')) = false
      ↔ tpl = [] ∨ tpl.head? = some '/' := by
  cases tpl with
  | nil => simp
  | cons c cs => simp

theorem slash_guard_trim_append (a b : Str) (ha : a = [] ∨ a.head? = some '/')
    (hb : b = [] ∨ b.head? = some '/') :
    trimRightSlash a ++ b = [] ∨ (trimRightSlash a ++ b).head? = some '/' := by
  obtain ⟨t, ht⟩ := trimRightSlash_initial a
  cases htr : trimRightSlash a with
  | nil => simpa using hb
  | cons c cs =>
    right
    rw [htr] at ht
    rcases ha with ha | ha
    · rw [ha] at ht; simp at ht
    · rw [← ht] at ha
      simpa using ha

/-- A build call of a path kind that returns without an error passed the slash test and
stored the descriptor of the full template. -/
theorem addAndReturn_path_ok (re : RegexpLib) (p q : Pattern) (tpl : Str) (mp : Bool) (r : Ret)
    (hp : p.err = none) (h : p.addAndReturn re tpl false mp false = some ⟨q, r⟩)
    (hq : q.err = none) :
    (tpl = [] ∨ tpl.head? = some '/') ∧ ∃ d,
      newRouteRegexp re (p.fullTemplate tpl false false) false mp false p.strictSlash
          p.useEncodedPath = .ok d
        ∧ uniqueAgainstQueries d.varsN p.regexp.queries = none
        ∧ uniqueAgainstSlot d.varsN p.regexp.host = none
        ∧ q = { p.store d false false with err := none } := by
  unfold Pattern.addAndReturn at h
  split at h
  · simp at h
  · rename_i q1 e heq
    simp only [Option.some.injEq, Built.mk.injEq] at h
    obtain ⟨rfl, _⟩ := h
    simp only at hq
    subst hq
    by_cases hs : (decide (tpl.length > 0) && decide (tpl.head? ≠ some '/')) = false
    · refine ⟨(slash_guard_iff tpl).mp hs, ?_⟩
      rw [addRegexpMatcher_eq re p tpl false mp false hp (by simpa using hs)] at heq
      cases hnew : newRouteRegexp re (p.fullTemplate tpl false false) false mp false p.strictSlash
          p.useEncodedPath with
      | error f => rw [hnew] at heq; cases f <;> simp at heq
      | ok d =>
        rw [hnew] at heq
        dsimp only at heq
        cases hu : uniqueAgainstQueries d.varsN p.regexp.queries with
        | some e => rw [hu] at heq; simp at heq
        | none =>
          rw [hu] at heq
          dsimp only at heq
          simp only [Bool.false_eq_true, if_false] at heq
          cases hv : uniqueAgainstSlot d.varsN p.regexp.host with
          | some e => rw [hv] at heq; simp at heq
          | none =>
            rw [hv] at heq
            simp only [Option.some.injEq, Prod.mk.injEq, and_true] at heq
            exact ⟨d, rfl, hu, hv, by rw [← heq]⟩
    · exfalso
      simp only [Bool.not_eq_false] at hs
      unfold Pattern.addRegexpMatcher at heq
      rw [if_neg (by simp [hp]), if_pos (by simpa using hs)] at heq
      simp at heq

/-- C13 as stated fails: after `Path("/api")` and `Path("/events")` the Pattern does not
match the path `/api/events`, which the Pattern of the single call
`Path("/api/events")` matches. -/
theorem Path_after_Path_differs_from_single_Path :
    trimRightSlash "/api".toList ++ "/events".toList = "/api/events".toList
      ∧ (NewPattern.calls goRegexp [.Path "/api".toList, .Path "/events".toList]).bind
          (fun p => p.Match goRegexp ⟨[], [], "/api/events".toList, "/api/events".toList, []⟩)
        = some ([], false)
      ∧ (NewPattern.calls goRegexp [.Path "/api/events".toList]).bind
          (fun p => p.Match goRegexp ⟨[], [], "/api/events".toList, "/api/events".toList, []⟩)
        = some ([], true) := by
  decide

/-- C13, amended. On a new Pattern, `Path(A)` followed by `Path(B)`, both without an
error, leaves as path descriptor the one compiled from `A` with its trailing slashes
trimmed followed by `B`, the descriptor the single call `Path(TrimRight(A, "/") + B)`
stores, but the matcher list holds the descriptor of `A` before it.  `Match` on the
Pattern of the two calls is unmatched with an empty map for every URL that the
descriptor of `A` rejects, and is what `Match` on the Pattern of the single call
returns for the others. -/
theorem Path_after_Path (re : RegexpLib) (ss ue : Bool) (A B : Str) (p1 p2 : Pattern)
    (r1 r2 : Ret) (h1 : (NewPatternWithOptions ss ue).Path re A = some ⟨p1, r1⟩)
    (he1 : p1.err = none) (h2 : p1.Path re B = some ⟨p2, r2⟩) (he2 : p2.err = none) :
    ∃ dA dAB, newRouteRegexp re A false false false ss ue = .ok dA
      ∧ newRouteRegexp re (trimRightSlash A ++ B) false false false ss ue = .ok dAB
      ∧ dAB.template = trimRightSlash A ++ B
      ∧ p2.regexp = { host := none, path := some dAB, queries := [] }
      ∧ p2.matchers = [dA, dAB]
      ∧ (NewPatternWithOptions ss ue).Path re (trimRightSlash A ++ B)
          = some ⟨{ p2 with matchers := [dAB] }, .receiver⟩
      ∧ ∀ u, p2.Match re u
          = if dA.Match re u then ({ p2 with matchers := [dAB] }).Match re u
            else some ([], false) := by
  obtain ⟨hgA, dA, hA, _, _, rfl⟩ :=
    addAndReturn_path_ok re _ p1 A false r1 rfl h1 he1
  have htA : dA.template = A := (newRouteRegexp_fields re _ _ _ _ _ _ dA hA).1
  obtain ⟨hgB, dAB, hAB, _, _, rfl⟩ :=
    addAndReturn_path_ok re _ p2 B false r2 rfl h2 he2
  have hfA : (NewPatternWithOptions ss ue).fullTemplate A false false = A := rfl
  have hfB : Pattern.fullTemplate
      { (NewPatternWithOptions ss ue).store dA false false with err := none } B false false
      = trimRightSlash A ++ B := by
    simp [Pattern.fullTemplate, Pattern.store, htA]
  rw [hfA] at hA
  rw [hfB] at hAB
  have hss : Pattern.strictSlash
      { (NewPatternWithOptions ss ue).store dA false false with err := none } = ss := rfl
  have hue : Pattern.useEncodedPath
      { (NewPatternWithOptions ss ue).store dA false false with err := none } = ue := rfl
  rw [hss, hue] at hAB
  have hsingle : (NewPatternWithOptions ss ue).Path re (trimRightSlash A ++ B)
      = some ⟨{ (NewPatternWithOptions ss ue).store dAB false false with err := none },
          .receiver⟩ := by
    have hg := (slash_guard_iff _).mpr (slash_guard_trim_append A B hgA hgB)
    unfold Pattern.Path Pattern.addAndReturn
    rw [addRegexpMatcher_eq re _ _ false false false rfl (by simpa using hg)]
    have hf : (NewPatternWithOptions ss ue).fullTemplate (trimRightSlash A ++ B) false false
        = trimRightSlash A ++ B := rfl
    rw [hf]
    have hss0 : (NewPatternWithOptions ss ue).strictSlash = ss := rfl
    have hue0 : (NewPatternWithOptions ss ue).useEncodedPath = ue := rfl
    rw [hss0, hue0, hAB]
    simp [NewPatternWithOptions, uniqueAgainstQueries, uniqueAgainstSlot]
  refine ⟨dA, dAB, hA, hAB, (newRouteRegexp_fields re _ _ _ _ _ _ dAB hAB).1, ?_, ?_, ?_, ?_⟩
  · simp [Pattern.store, NewPatternWithOptions]
  · simp [Pattern.store, NewPatternWithOptions]
  · rw [hsingle]
    simp [Pattern.store, NewPatternWithOptions]
  · intro u
    simp only [Pattern.Match, Pattern.store, NewPatternWithOptions, List.nil_append,
      List.cons_append, List.all_cons, List.all_nil, Bool.and_true, ne_eq, not_true_eq_false,
      if_false, Bool.false_eq_true]
    cases dA.Match re u <;> simp

/-- The amended C13 on `Path("/api/")` followed by `Path("/{id}")`. -/
theorem Path_after_Path_witness :
    ∃ p1 p2 dA dAB, NewPattern.Path goRegexp "/api/".toList = some ⟨p1, .receiver⟩
      ∧ p1.err = none ∧ p1.Path goRegexp "/{id}".toList = some ⟨p2, .receiver⟩ ∧ p2.err = none
      ∧ p2.matchers = [dA, dAB] ∧ dAB.template = "/api/{id}".toList := by
  obtain ⟨p1, h1, he1, p2, h2, he2⟩ :
      ∃ p1, NewPattern.Path goRegexp "/api/".toList = some ⟨p1, .receiver⟩ ∧ p1.err = none
        ∧ ∃ p2, p1.Path goRegexp "/{id}".toList = some ⟨p2, .receiver⟩ ∧ p2.err = none :=
    ⟨_, rfl, rfl, _, rfl, rfl⟩
  obtain ⟨dA, dAB, _, _, ht, _, hm, _⟩ :=
    Path_after_Path goRegexp true false "/api/".toList "/{id}".toList p1 p2 .receiver .receiver
      h1 he1 h2 he2
  exact ⟨p1, p2, dA, dAB, h1, he1, h2, he2, hm, ht⟩


/-! ## Path prefixes without variables -/

/-- `^` and quoted text: the expression of a path prefix without variables.  It has
no capture group and matches the texts that start with the quoted text. -/
theorem literal_at_start (L s : Str) :
    goRegexp.compile ("^".toList ++ quoteMeta L) = some 0
      ∧ (goRegexp.matchString ("^".toList ++ quoteMeta L) s = true ↔ L <+: s) := by
  have hp := parse_literal L [] [] [] rfl parse_tail_none
  rw [List.append_nil] at hp
  refine ⟨goRegexp_compile_of_parse _ _ _ hp, ?_⟩
  rw [matchString_anchored _ s _ hp]
  constructor
  · rintro ⟨out, hr, _⟩
    obtain ⟨rest, rfl, _⟩ := run_lits_some L _ _ [] s _ out hr
    exact ⟨rest, rfl⟩
  · rintro ⟨t, rfl⟩
    rw [run_lits_append]
    exact ⟨_, rfl, by simp [mkCat, Re.run]⟩

/-- The descriptor of a path prefix without braces. -/
theorem newRouteRegexp_prefix_plain (T : Str) (ss ue : Bool) (h1 : '{' ∉ T) (h2 : '}' ∉ T) :
    newRouteRegexp goRegexp T false true false ss ue = .ok
      { template := T
        matchHost := false
        matchQuery := false
        strictSlash := false
        useEncodedPath := ue
        regexp := "^".toList ++ quoteMeta T
        reverse := T
        varsN := []
        varsR := [] } := by
  have hc := (literal_at_start T []).1
  unfold newRouteRegexp
  simp only [braceIndices_plain T h1 h2]
  unfold assembleRouteRegexp
  simp only [Bool.not_false, Bool.and_false, Bool.false_eq_true, if_false, Bool.true_or,
    Bool.or_false, if_true, Bool.false_and, parseSpans, slice_full, Bool.not_true, hc]
  simp

/-- C14. For every template without braces that starts with a slash, `PathPrefix` on a
new Pattern returns without an error, and `Match` on the Pattern is matched, with an
empty map, exactly for the URLs whose path starts with the template, character by
character: the path is `u.Path`, or the result of `getPath` when the Pattern was made
with `useEncodedPath`. -/
theorem PathPrefix_matches_prefixes (ss ue : Bool) (T : Str) (h1 : '{' ∉ T) (h2 : '}' ∉ T)
    (h3 : T.head? = some '/') :
    ∃ b, (NewPatternWithOptions ss ue).PathPrefix goRegexp T = some b
      ∧ b.pattern.err = none ∧ b.ret = .receiver
      ∧ ∀ u, b.pattern.Match goRegexp u
          = some ([], decide (T <+: (if ue then getPath u else u.Path))) := by
  have hnew := newRouteRegexp_prefix_plain T ss ue h1 h2
  have hg : (!false && !false && (decide (T.length > 0) && decide (T.head? ≠ some '/'))) = false := by
    simp [h3]
  have hadd := addRegexpMatcher_eq goRegexp (NewPatternWithOptions ss ue) T false true false rfl hg
  have hf : (NewPatternWithOptions ss ue).fullTemplate T false false = T := rfl
  have hss0 : (NewPatternWithOptions ss ue).strictSlash = ss := rfl
  have hue0 : (NewPatternWithOptions ss ue).useEncodedPath = ue := rfl
  rw [hf, hss0, hue0, hnew] at hadd
  simp only [NewPatternWithOptions, uniqueAgainstQueries, uniqueVars, uniqueAgainstSlot,
    Bool.false_eq_true, if_false] at hadd
  refine ⟨⟨{ (NewPatternWithOptions ss ue).store
      { template := T
        matchHost := false
        matchQuery := false
        strictSlash := false
        useEncodedPath := ue
        regexp := "^".toList ++ quoteMeta T
        reverse := T
        varsN := []
        varsR := [] } false false with err := none }, .receiver⟩, ?_, rfl, rfl, ?_⟩
  · simp only [Pattern.PathPrefix, Pattern.addAndReturn, NewPatternWithOptions, hadd]
  intro u
  have hm := (literal_at_start T (if ue then getPath u else u.Path)).2
  simp only [Pattern.Match, Pattern.store, NewPatternWithOptions, routeRegexp.Match, routeRegexpGroup.getMatch,
    extractFrom, extractVars, extractQueries, List.nil_append, List.all_cons, List.all_nil,
    Bool.and_true, ne_eq, not_true_eq_false, if_false, Bool.false_eq_true, Bool.not_false,
    if_true]
  by_cases hpre : T <+: (if ue then getPath u else u.Path)
  · have := hm.mpr hpre
    cases ue <;> simp_all
  · have : goRegexp.matchString ("^".toList ++ quoteMeta T) (if ue then getPath u else u.Path)
        = false := by
      simpa using (not_congr hm).mpr hpre
    cases ue <;> simp_all

/-- C14 on `PathPrefix("/api")` and `PathPrefix("/client")`, matched against the path
`/api/events/12345`. -/
theorem PathPrefix_matches_prefixes_witness :
    ('{' ∉ "/api".toList ∧ '}' ∉ "/api".toList ∧ "/api".toList.head? = some '/')
      ∧ (∃ b, NewPattern.PathPrefix goRegexp "/api".toList = some b ∧ b.pattern.err = none
          ∧ b.ret = .receiver
          ∧ ∀ u, b.pattern.Match goRegexp u
              = some ([], decide ("/api".toList <+: (if false then getPath u else u.Path))))
      ∧ (NewPattern.PathPrefix goRegexp "/api".toList).bind (fun b => b.pattern.Match goRegexp
          ⟨[], [], "/api/events/12345".toList, "/api/events/12345".toList, []⟩)
        = some ([], true)
      ∧ (NewPattern.PathPrefix goRegexp "/client".toList).bind (fun b => b.pattern.Match goRegexp
          ⟨[], [], "/api/events/12345".toList, "/api/events/12345".toList, []⟩)
        = some ([], false) :=
  ⟨by decide,
    PathPrefix_matches_prefixes true false "/api".toList (by decide) (by decide) (by decide),
    by decide, by decide⟩


/-! ## The errors of newRouteRegexp -/

theorem braceIndices_error (s : Str) (e : Err) (h : braceIndices s = .error e) :
    e = .unbalancedBraces s := by
  have hloop := braceLoop_spec s s 0 0 0 [] (by simp) (Nat.zero_le _) (BraceInv.init s)
  have hflat : flatSpans [] = [] := rfl
  rw [hflat] at hloop
  unfold braceIndices at h
  rcases hloop with ⟨_, herr⟩ | ⟨level1, idx1, spans1, hok, _⟩
  · rw [herr] at h
    simp only [Except.error.injEq] at h
    exact h.symm
  · rw [hok] at h
    simp only at h
    split_ifs at h
    simp only [Except.error.injEq] at h
    exact h.symm

theorem braceIndices_spans (s : Str) (idxs : List Nat) (h : braceIndices s = .ok idxs) :
    ∃ spans, idxs = flatSpans spans ∧ spans.Pairwise (fun x y => x.2 ≤ y.1)
      ∧ ∀ ab ∈ spans, TopLevelSpan s ab.1 ab.2 := by
  have hloop := braceLoop_spec s s 0 0 0 [] (by simp) (Nat.zero_le _) (BraceInv.init s)
  have hflat : flatSpans [] = [] := rfl
  rw [hflat] at hloop
  unfold braceIndices at h
  rcases hloop with ⟨_, herr⟩ | ⟨level1, idx1, spans1, hok, hinv⟩
  · rw [herr] at h; cases h
  · rw [hok] at h
    simp only at h
    split_ifs at h
    simp only [Except.ok.injEq] at h
    exact ⟨spans1, h.symm, hinv.sorted, hinv.good⟩

/-- The loop over the spans ends with a state, with a panic, or with one of two errors:
a missing name or pattern, or a pattern that does not compile. -/
theorem parseSpans_error (re : RegexpLib) (tpl dp : Str) :
    ∀ (idxs : List Nat) (k : Nat) (st : ParseState) (e : Err),
      parseSpans re tpl dp idxs k st = .error (.err e) →
      (∃ x, e = .missingNameOrPattern x) ∨ (∃ x, e = .regexpCompile x)
  | [], k, st, e, h => by simp [parseSpans] at h
  | [_], k, st, e, h => by simp [parseSpans] at h
  | a :: b :: rest, k, st, e, h => by
    simp only [parseSpans] at h
    split at h
    · split_ifs at h
      · split at h
        · simp only [Except.error.injEq, Fault.err.injEq] at h
          exact Or.inl ⟨_, h.symm⟩
        · simp at h
      · split at h
        · simp only [Except.error.injEq, Fault.err.injEq] at h
          exact Or.inr ⟨_, h.symm⟩
        · exact parseSpans_error re tpl dp rest (k + 1) _ e h
    · simp at h

/-- The errors `newRouteRegexp` returns: unbalanced braces, a missing name or pattern,
or an expression that does not compile. -/
theorem newRouteRegexp_error (re : RegexpLib) (tpl : Str) (mh mp mq ss ue : Bool) (e : Err)
    (h : newRouteRegexp re tpl mh mp mq ss ue = .error (.err e)) :
    e = .unbalancedBraces tpl ∨ (∃ x, e = .missingNameOrPattern x)
      ∨ (∃ x, e = .regexpCompile x) := by
  unfold newRouteRegexp at h
  cases hb : braceIndices tpl with
  | error e1 =>
    rw [hb] at h
    simp only [Except.error.injEq, Fault.err.injEq] at h
    subst h
    exact Or.inl (braceIndices_error tpl e1 hb)
  | ok idxs =>
    rw [hb] at h
    right
    unfold assembleRouteRegexp at h
    simp only at h
    split at h
    · rename_i f hst
      simp only [Except.error.injEq] at h
      subst h
      exact parseSpans_error re _ _ idxs 0 _ e hst
    · split at h
      · simp at h
      · split at h
        · simp at h
        · split at h
          · simp only [Except.error.injEq, Fault.err.injEq] at h
            exact Or.inr ⟨_, h.symm⟩
          · split_ifs at h
            simp at h

/-! ## A name declared twice -/

theorem extractVars_get_other (input : Str) (ms : List Int) (k : Str) :
    ∀ (names : List Str) (i : Nat) (out out1 : Vars),
      extractVars input ms names i out = some out1 → k ∉ names → out1.get k = out.get k := by
  intro names
  induction names with
  | nil =>
    intro i out out1 h _
    simp only [extractVars, Option.some.injEq] at h
    rw [h]
  | cons name names ih =>
    intro i out out1 h hk
    simp only [List.mem_cons, not_or] at hk
    simp only [extractVars] at h
    split at h
    · split at h
      · rw [ih _ _ _ h hk.2, Vars.get_set_other _ _ _ _ hk.1]
      · simp at h
    · simp at h

/-- After `extractVars` the value of a name is the slice of its last occurrence in the
list of names. -/
theorem extractVars_last (input : Str) (ms : List Int) (k : Str) :
    ∀ (names : List Str) (i : Nat) (out out1 : Vars) (j : Nat),
      extractVars input ms names i out = some out1 → names.get? j = some k →
      (∀ j1, j < j1 → names.get? j1 ≠ some k) →
      ∃ lo hi v, intAt ms (2 * (i + j) + 2) = some lo ∧ intAt ms (2 * (i + j) + 3) = some hi
        ∧ slice input lo hi = some v ∧ out1.get k = some v := by
  intro names
  induction names with
  | nil => intro i out out1 j _ hj; simp at hj
  | cons name names ih =>
    intro i out out1 j h hj hlast
    simp only [extractVars] at h
    split at h
    · rename_i lo hi hlo hhi
      split at h
      · rename_i value hval
        cases j with
        | zero =>
          simp only [List.get?_cons_zero, Option.some.injEq] at hj
          subst hj
          have hnot : name ∉ names := by
            intro hmem
            obtain ⟨n, hn⟩ := List.get?_of_mem hmem
            exact hlast (n + 1) (Nat.succ_pos n) (by simpa using hn)
          refine ⟨lo, hi, value, by simpa using hlo, by simpa using hhi, hval, ?_⟩
          rw [extractVars_get_other input ms name names _ _ _ h hnot, Vars.get_set_same]
        | succ j0 =>
          simp only [List.get?_cons_succ] at hj
          obtain ⟨lo1, hi1, v, h1, h2, h3, h4⟩ := ih (i + 1) _ out1 j0 h hj (by
            intro j1 hj1
            have := hlast (j1 + 1) (by omega)
            simpa using this)
          refine ⟨lo1, hi1, v, ?_, ?_, h3, h4⟩
          · rw [← h1]; congr 1; omega
          · rw [← h2]; congr 1; omega
      · simp at h
    · simp at h

/-- C20. A variable name declared twice in one template is no ground for
`newRouteRegexp` to fail: it returns no duplicated-variable error, its only errors are
unbalanced braces, a missing name or pattern, and an expression that does not compile;
`/{id}/{id}` compiles, with the names `id`, `id`.  After `extractVars` the value of a
name is the text captured for the last place the name has in the list of names: for
`/{id}/{id}` matched on `/a/b`, `id` is `b`. -/
theorem duplicate_name_in_template_last_wins (re : RegexpLib) :
    (∀ tpl mh mp mq ss ue v,
        newRouteRegexp re tpl mh mp mq ss ue ≠ .error (.err (.duplicatedRouteVariable v)))
      ∧ (∀ input ms names vars k j, extractVars input ms names 0 [] = some vars →
          names.get? j = some k → (∀ j1, j < j1 → names.get? j1 ≠ some k) →
          ∃ lo hi v, intAt ms (2 * j + 2) = some lo ∧ intAt ms (2 * j + 3) = some hi
            ∧ slice input lo hi = some v ∧ vars.get k = some v)
      ∧ (newRouteRegexp goRegexp "/{id}/{id}".toList false false false true false).toOption.map
          (fun d => (d.regexp, d.varsN))
        = some ("^/(?P<v0>[^/]+)/(?P<v1>[^/]+)[/]?$".toList, ["id".toList, "id".toList])
      ∧ (NewPattern.Path goRegexp "/{id}/{id}".toList).bind (fun b =>
          b.pattern.Match goRegexp ⟨[], [], "/a/b".toList, "/a/b".toList, []⟩)
        = some ([("id".toList, "b".toList)], true) := by
  refine ⟨?_, ?_, by decide, by decide⟩
  · intro tpl mh mp mq ss ue v h
    rcases newRouteRegexp_error re tpl mh mp mq ss ue _ h with h1 | ⟨x, h1⟩ | ⟨x, h1⟩ <;> cases h1
  · intro input ms names vars k j h hj hlast
    have := extractVars_last input ms k names 0 [] vars j h hj hlast
    simpa using this


/-! ## The spans of a template -/

theorem splitN2_snd (sep : Char) (s : Str) :
    (splitN2 sep s).2
      = if sep ∈ s then some ((s.dropWhile (fun c => c ≠ sep)).drop 1) else none := by
  induction s with
  | nil => simp [splitN2]
  | cons c cs ih =>
    by_cases h : c = sep
    · simp [splitN2, h]
    · have h1 : ¬ sep = c := fun e => h e.symm
      simp only [splitN2, if_neg h, ih, List.mem_cons, h1, false_or]
      simp [List.dropWhile_cons, h]

theorem spanName_eq (inner : Str) : (splitN2 ':' inner).1 = spanName inner :=
  splitN2_fst ':' inner

theorem spanPattern_eq (dp inner : Str) :
    (splitN2 ':' inner).2.getD dp = spanPattern dp inner := by
  rw [splitN2_snd]
  unfold spanPattern
  split_ifs <;> rfl

/-- A span is split at its first `:`. -/
theorem span_split (dp inner : Str) :
    ':' ∉ spanName inner
      ∧ (':' ∉ inner → spanName inner = inner ∧ spanPattern dp inner = dp)
      ∧ (':' ∈ inner → inner = spanName inner ++ ':' :: spanPattern dp inner) := by
  refine ⟨?_, ?_, ?_⟩
  · rw [← spanName_eq]; exact splitN2_fst_not_mem ':' inner
  · intro h
    refine ⟨?_, by simp [spanPattern, h]⟩
    unfold spanName
    rw [List.takeWhile_eq_self_iff]
    intro c hc
    simp only [ne_eq, decide_eq_true_eq]
    rintro rfl
    exact h hc
  · intro h
    unfold spanName spanPattern
    rw [if_pos h]
    induction inner with
    | nil => simp at h
    | cons c cs ih =>
      by_cases hc : c = ':'
      · subst hc; simp
      · have hmem : ':' ∈ cs := by
          rcases List.mem_cons.mp h with h1 | h1
          · exact absurd h1.symm hc
          · exact h1
        have := ih hmem
        simp only [List.takeWhile_cons, List.dropWhile_cons, ne_eq, hc, not_false_eq_true,
          decide_True, if_true, List.cons_append, List.cons.injEq, true_and]
        exact this

theorem slice_eq (s : Str) (lo hi : Int) (x : Str) (h : slice s lo hi = some x) :
    x = (s.drop lo.toNat).take (hi.toNat - lo.toNat) := by
  unfold slice at h
  split_ifs at h
  simp only [Option.some.injEq] at h
  exact h.symm

theorem slice_some (s : Str) (lo hi : Nat) (h1 : lo ≤ hi) (h2 : hi ≤ s.length) :
    slice s (lo : Int) (hi : Int) = some ((s.drop lo).take (hi - lo)) := by
  unfold slice
  rw [if_pos ⟨by positivity, by exact_mod_cast h1, by exact_mod_cast h2⟩]
  simp

theorem slice_inner (s : Str) (a b : Nat) (h1 : a + 2 ≤ b) (h2 : b ≤ s.length) :
    slice s ((a + 1 : Nat) : Int) ((b : Int) - 1) = some (spanInner s a b) := by
  have e : ((b : Int) - 1) = ((b - 1 : Nat) : Int) := by omega
  rw [e, slice_some s (a + 1) (b - 1) (by omega) (by omega)]
  rfl


/-- The loop over the spans that ends with a state has read the spans as `spanSegs`
does, and each of them has a name, a pattern, and a validator that compiles. -/
theorem parseSpans_spans (re : RegexpLib) (tpl dp : Str) :
    ∀ (spans : List (Nat × Nat)) (k : Nat) (st st1 : ParseState),
      parseSpans re tpl dp (flatSpans spans) k st = .ok st1 →
      st1.pattern = st.pattern ++ patText k (spanSegs tpl dp st.endIdx spans)
        ∧ st1.reverse = st.reverse ++ revText (spanSegs tpl dp st.endIdx spans)
        ∧ st1.varsN = st.varsN ++ (spanSegs tpl dp st.endIdx spans).map Seg.name
        ∧ st1.varsR = st.varsR ++ (spanSegs tpl dp st.endIdx spans).map Seg.validator
        ∧ ∀ g ∈ spanSegs tpl dp st.endIdx spans,
            g.name ≠ [] ∧ g.patt ≠ [] ∧ (re.compile g.validator).isSome := by
  intro spans
  induction spans with
  | nil =>
    intro k st st1 h
    simp only [flatSpans, parseSpans, Except.ok.injEq] at h
    subst h
    simp [spanSegs, patText, revText]
  | cons ab rest ih =>
    intro k st st1 h
    obtain ⟨a, b⟩ := ab
    simp only [flatSpans, parseSpans] at h
    split at h
    · rename_i raw inner hraw hinner
      have eraw : raw = (tpl.drop st.endIdx).take (a - st.endIdx) := by
        have := slice_eq _ _ _ _ hraw
        simpa using this
      have einner : inner = spanInner tpl a b := by
        have := slice_eq _ _ _ _ hinner
        have e1 : ((a : Int) + 1).toNat = a + 1 := by omega
        have e2 : ((b : Int) - 1).toNat = b - 1 := by omega
        rw [this, e1, e2]
        rfl
      split_ifs at h with hempty
      · split at h <;> simp at h
      · split at h
        · simp at h
        · rename_i n hcomp
          obtain ⟨h1, h2, h3, h4, h5⟩ := ih (k + 1) _ st1 h
          simp only [not_or] at hempty
          rw [spanName_eq, spanPattern_eq, einner] at hempty
          rw [spanPattern_eq, einner] at hcomp
          simp only at h1 h2 h3 h4 h5
          simp only [spanName_eq, spanPattern_eq, einner, eraw] at h1 h2 h3 h4
          refine ⟨?_, ?_, ?_, ?_, ?_⟩
          · rw [h1]; simp [spanSegs, patText, List.append_assoc]
          · rw [h2]; simp [spanSegs, revText, List.append_assoc]
          · rw [h3]; simp [spanSegs]
          · rw [h4]; simp [spanSegs, Seg.validator]
          · intro g hg
            simp only [spanSegs, List.mem_cons] at hg
            rcases hg with rfl | hg
            · refine ⟨hempty.1, hempty.2, ?_⟩
              show (re.compile (Seg.validator _)).isSome = true
              unfold Seg.validator
              rw [hcomp]; rfl
            · exact h5 g hg
    · simp at h

/-- The loop over spans that lie within the template does not panic. -/
theorem parseSpans_no_panic (re : RegexpLib) (tpl dp : Str) :
    ∀ (spans : List (Nat × Nat)) (k : Nat) (st : ParseState),
      SpansWithin tpl.length st.endIdx spans →
      parseSpans re tpl dp (flatSpans spans) k st ≠ .error .panic := by
  intro spans
  induction spans with
  | nil => intro k st _ h; simp [flatSpans, parseSpans] at h
  | cons ab rest ih =>
    intro k st hw h
    obtain ⟨a, b⟩ := ab
    obtain ⟨h1, h2, h3, h4⟩ := hw
    simp only [flatSpans, parseSpans] at h
    rw [slice_some tpl st.endIdx a h1 (by omega)] at h
    have hin := slice_inner tpl a b h2 h3
    simp only [Nat.cast_add, Nat.cast_one] at hin
    rw [hin] at h
    simp only at h
    split_ifs at h
    · rw [slice_some tpl a b (by omega) h3] at h
      simp at h
    · split at h
      · simp at h
      · exact ih (k + 1) _ h4 h

theorem spanInner_dropLast (tpl : Str) (a b : Nat) (h : b ≤ tpl.length) :
    spanInner tpl.dropLast a b = spanInner tpl a b := by
  unfold spanInner
  rw [List.dropLast_eq_take, List.drop_take, List.take_take]
  congr 1
  omega

theorem spanSegs_dropLast (tpl dp : Str) :
    ∀ (spans : List (Nat × Nat)) (e : Nat), SpansWithin tpl.length e spans →
      spanSegs tpl.dropLast dp e spans = spanSegs tpl dp e spans := by
  intro spans
  induction spans with
  | nil => intro e _; rfl
  | cons ab rest ih =>
    intro e hw
    obtain ⟨a, b⟩ := ab
    obtain ⟨h1, h2, h3, h4⟩ := hw
    simp only [spanSegs, ih b h4, spanInner_dropLast tpl a b h3]
    congr 2
    rw [List.dropLast_eq_take, List.drop_take, List.take_take]
    congr 1
    omega


theorem TopLevelSpan.room (s : Str) (a b : Nat) (h : TopLevelSpan s a b) : a + 2 ≤ b := by
  by_contra hlt
  have hb : b - 1 = a := by have := h.lt; omega
  have h1 := h.closes
  rw [hb, h.opens] at h1
  simp at h1

theorem TopLevelSpan.before_final_slash (s : Str) (a b : Nat) (h : TopLevelSpan s a b)
    (hs : hasSuffixSlash s = true) : b ≤ s.length - 1 := by
  by_contra hlt
  have hb : b - 1 = s.length - 1 := by have := h.le; omega
  have h1 := h.closes
  unfold hasSuffixSlash at hs
  simp only [decide_eq_true_eq] at hs
  rw [hb, List.get?_eq_getElem?, ← List.getLast?_eq_getElem?, hs] at h1
  simp at h1

theorem spansWithin_of_sorted (n : Nat) :
    ∀ (spans : List (Nat × Nat)) (e : Nat), spans.Pairwise (fun x y => x.2 ≤ y.1) →
      (∀ ab ∈ spans, ab.1 + 2 ≤ ab.2 ∧ ab.2 ≤ n) → (∀ ab ∈ spans, e ≤ ab.1) →
      SpansWithin n e spans := by
  intro spans
  induction spans with
  | nil => intro e _ _ _; trivial
  | cons ab rest ih =>
    intro e hp hr he
    obtain ⟨a, b⟩ := ab
    rw [List.pairwise_cons] at hp
    exact ⟨he (a, b) (by simp), (hr (a, b) (by simp)).1, (hr (a, b) (by simp)).2,
      ih b hp.2 (fun x hx => hr x (by simp [hx])) (fun x hx => hp.1 x hx)⟩

theorem SpansWithin.mono (n m : Nat) (hnm : n ≤ m) :
    ∀ (spans : List (Nat × Nat)) (e : Nat), SpansWithin n e spans → SpansWithin m e spans := by
  intro spans
  induction spans with
  | nil => intro e _; trivial
  | cons ab rest ih =>
    intro e h
    obtain ⟨a, b⟩ := ab
    exact ⟨h.1, h.2.1, le_trans h.2.2.1 hnm, ih b h.2.2.2⟩

/-- The spans that `braceIndices` returns lie within the text that `newRouteRegexp`
goes on to read: the template, without its last character when that is a slash and
`cut` is set. -/
theorem spansWithin_of_braceIndices (tpl : Str) (spans : List (Nat × Nat)) (cut : Bool)
    (h : braceIndices tpl = .ok (flatSpans spans)) :
    SpansWithin (if (cut && hasSuffixSlash tpl) = true then tpl.dropLast else tpl).length 0 spans := by
  obtain ⟨spans1, hflat, hsorted, hgood⟩ := braceIndices_spans tpl _ h
  have hsp : spans = spans1 := by
    clear h hsorted hgood
    induction spans generalizing spans1 with
    | nil =>
      cases spans1 with
      | nil => rfl
      | cons x xs => obtain ⟨a, b⟩ := x; simp [flatSpans] at hflat
    | cons y ys ih =>
      obtain ⟨c, d⟩ := y
      cases spans1 with
      | nil => simp [flatSpans] at hflat
      | cons x xs =>
        obtain ⟨a, b⟩ := x
        simp only [flatSpans, List.cons.injEq] at hflat
        obtain ⟨rfl, rfl, hrest⟩ := hflat
        rw [ih xs hrest]
  subst hsp
  apply spansWithin_of_sorted _ spans 0 hsorted ?_ (fun _ _ => Nat.zero_le _)
  intro ab hab
  have hg := hgood ab hab
  refine ⟨TopLevelSpan.room tpl _ _ hg, ?_⟩
  split_ifs with hc
  · simp only [Bool.and_eq_true] at hc
    rw [List.length_dropLast]
    exact TopLevelSpan.before_final_slash tpl _ _ hg hc.2
  · exact hg.le

theorem spanSegs_names (tpl dp : Str) : ∀ (spans : List (Nat × Nat)) (e : Nat),
    (spanSegs tpl dp e spans).map Seg.name
        = spans.map (fun ab => spanName (spanInner tpl ab.1 ab.2))
      ∧ (spanSegs tpl dp e spans).map Seg.validator
        = spans.map (fun ab =>
            "^".toList ++ spanPattern dp (spanInner tpl ab.1 ab.2) ++ "$".toList)
      ∧ (spanSegs tpl dp e spans).length = spans.length := by
  intro spans
  induction spans with
  | nil => intro e; exact ⟨rfl, rfl, rfl⟩
  | cons ab rest ih =>
    intro e
    obtain ⟨a, b⟩ := ab
    obtain ⟨h1, h2, h3⟩ := ih b
    simp only [spanSegs, List.map_cons, h1, h2, h3, List.length_cons, Seg.validator]
    exact ⟨trivial, trivial, trivial⟩

theorem flatSpans_half (spans : List (Nat × Nat)) : (flatSpans spans).length / 2 = spans.length := by
  rw [flatSpans_length]; omega


theorem spanSegs_trimmed (tpl dp : Str) (spans : List (Nat × Nat)) (cut : Bool)
    (h : braceIndices tpl = .ok (flatSpans spans)) :
    spanSegs (if (cut && hasSuffixSlash tpl) = true then tpl.dropLast else tpl) dp 0 spans
      = spanSegs tpl dp 0 spans := by
  split_ifs
  · have hw := spansWithin_of_braceIndices tpl spans false h
    simp only [Bool.false_and, Bool.false_eq_true, if_false] at hw
    exact spanSegs_dropLast tpl dp spans 0 hw
  · rfl

/-- The descriptor of a template, by the spans that `braceIndices` found in it. -/
theorem newRouteRegexp_spans (re : RegexpLib) (tpl : Str) (mh mp mq ss ue : Bool)
    (spans : List (Nat × Nat)) (d : routeRegexp)
    (hb : braceIndices tpl = .ok (flatSpans spans))
    (hd : newRouteRegexp re tpl mh mp mq ss ue = .ok d) :
    (∃ rest, d.regexp
        = "^".toList ++ patText 0 (spanSegs tpl (defaultPattern mh mq) 0 spans) ++ rest)
      ∧ d.varsN = (spanSegs tpl (defaultPattern mh mq) 0 spans).map Seg.name
      ∧ d.varsR = (spanSegs tpl (defaultPattern mh mq) 0 spans).map Seg.validator
      ∧ (∀ g ∈ spanSegs tpl (defaultPattern mh mq) 0 spans,
          g.name ≠ [] ∧ g.patt ≠ [] ∧ (re.compile g.validator).isSome)
      ∧ re.compile d.regexp = some spans.length := by
  unfold newRouteRegexp at hd
  rw [hb] at hd
  unfold assembleRouteRegexp at hd
  dsimp only at hd
  split at hd
  · simp at hd
  · rename_i st hst
    obtain ⟨h1, h2, h3, h4, h5⟩ := parseSpans_spans re _ _ spans 0 _ st hst
    simp only [spanSegs_trimmed tpl _ spans _ hb] at h1 h3 h4 h5
    split at hd
    · simp at hd
    · rename_i raw hraw
      split at hd
      · simp at hd
      · rename_i qv hqv
        split at hd
        · simp at hd
        · rename_i n hn
          split at hd
          · simp at hd
          · rename_i hcount
            simp only [Except.ok.injEq] at hd
            subst hd
            simp only [ne_eq, not_not, flatSpans_half] at hcount
            refine ⟨?_, by simpa using h3, by simpa using h4, h5, by rw [hn, hcount]⟩
            refine ⟨quoteMeta raw ++ exprTail tpl mh mp mq ss, ?_⟩
            simp only [h1, exprTail, defaultPattern]
            clear h3 h4 h5 hst hraw hn hb h1
            cases mq <;> cases mh <;> cases mp <;> cases ss <;> simp_all <;> split_ifs <;> simp

/-- A span without a name or with an empty pattern makes `newRouteRegexp` return an
error. -/
theorem newRouteRegexp_bad_span (re : RegexpLib) (tpl : Str) (mh mp mq ss ue : Bool)
    (spans : List (Nat × Nat)) (hb : braceIndices tpl = .ok (flatSpans spans))
    (hbad : ∃ g ∈ spanSegs tpl (defaultPattern mh mq) 0 spans, g.name = [] ∨ g.patt = []) :
    ∃ e, newRouteRegexp re tpl mh mp mq ss ue = .error (.err e) := by
  unfold newRouteRegexp
  rw [hb]
  unfold assembleRouteRegexp
  dsimp only
  split
  · rename_i f hst
    cases f with
    | err e => exact ⟨e, rfl⟩
    | panic =>
      exfalso
      exact parseSpans_no_panic re _ _ spans 0 _ (spansWithin_of_braceIndices tpl spans _ hb) hst
  · rename_i st hst
    exfalso
    obtain ⟨_, _, _, _, h5⟩ := parseSpans_spans re _ _ spans 0 _ st hst
    simp only [spanSegs_trimmed tpl _ spans _ hb] at h5
    obtain ⟨g, hg, hbad1⟩ := hbad
    have := h5 g hg
    rcases hbad1 with h | h
    · exact this.1 h
    · exact this.2.1 h


theorem spanPattern_eq_nil (mh mq : Bool) (inner : Str) :
    spanPattern (defaultPattern mh mq) inner = []
      ↔ ':' ∈ inner ∧ inner = spanName inner ++ [':'] := by
  have hsplit := span_split (defaultPattern mh mq) inner
  constructor
  · intro h
    by_cases hc : ':' ∈ inner
    · refine ⟨hc, ?_⟩
      have := hsplit.2.2 hc
      rw [h] at this
      exact this
    · exfalso
      have := (hsplit.2.1 hc).2
      rw [h] at this
      unfold defaultPattern at this
      split_ifs at this <;> simp at this
  · rintro ⟨hc, he⟩
    have h2 := List.append_cancel_left (he.symm.trans (hsplit.2.2 hc))
    simpa using h2.symm

/-- C17. For a template whose braces are balanced, with the spans that `braceIndices`
finds in it: a descriptor that `newRouteRegexp` returns has for each span, in order,
the text before the first `:` of the span as name and the text after that `:` as
pattern (in its validator `^pattern$` and in the capture group of the expression), and
the default pattern of the kind when the span has no `:`, which is `[^/]+` for a
path or path prefix, `[^.]+` for a host and `[^?&]*` for a query; a pattern is empty
only when the span ends with its first `:`.  When some span has an empty name or an
empty pattern, `newRouteRegexp` returns an error, as it does for `/{}`, `/{:p}` and
`/{n:}`. -/
theorem spans_split_at_first_colon (re : RegexpLib) (tpl : Str) (mh mp mq ss ue : Bool)
    (spans : List (Nat × Nat)) (hb : braceIndices tpl = .ok (flatSpans spans)) :
    (∀ d, newRouteRegexp re tpl mh mp mq ss ue = .ok d →
        d.varsN = spans.map (fun ab => spanName (spanInner tpl ab.1 ab.2))
          ∧ d.varsR = spans.map (fun ab =>
              "^".toList ++ spanPattern (defaultPattern mh mq) (spanInner tpl ab.1 ab.2)
                ++ "$".toList)
          ∧ ∃ rest, d.regexp
              = "^".toList ++ patText 0 (spanSegs tpl (defaultPattern mh mq) 0 spans) ++ rest)
      ∧ ((∃ ab ∈ spans, spanName (spanInner tpl ab.1 ab.2) = []
            ∨ spanPattern (defaultPattern mh mq) (spanInner tpl ab.1 ab.2) = []) →
          ∃ e, newRouteRegexp re tpl mh mp mq ss ue = .error (.err e))
      ∧ (∀ inner, ':' ∉ spanName inner
          ∧ (':' ∉ inner → spanName inner = inner
              ∧ spanPattern (defaultPattern mh mq) inner = defaultPattern mh mq)
          ∧ (':' ∈ inner →
              inner = spanName inner ++ ':' :: spanPattern (defaultPattern mh mq) inner)
          ∧ (spanPattern (defaultPattern mh mq) inner = []
              ↔ ':' ∈ inner ∧ inner = spanName inner ++ [':']))
      ∧ (defaultPattern false false = "[^/]+".toList
          ∧ defaultPattern true false = "[^.]+".toList
          ∧ defaultPattern false true = "[^?&]*".toList)
      ∧ (newRouteRegexp goRegexp "/{}".toList false false false true false
            = .error (.err (.missingNameOrPattern "{}".toList))
          ∧ newRouteRegexp goRegexp "/{:p}".toList false false false true false
            = .error (.err (.missingNameOrPattern "{:p}".toList))
          ∧ newRouteRegexp goRegexp "/{n:}".toList false false false true false
            = .error (.err (.missingNameOrPattern "{n:}".toList))) := by
  have hnames := spanSegs_names tpl (defaultPattern mh mq) spans 0
  refine ⟨?_, ?_, ?_, ⟨rfl, rfl, rfl⟩, ⟨rfl, rfl, rfl⟩⟩
  · intro d hd
    obtain ⟨h1, h2, h3, _, _⟩ := newRouteRegexp_spans re tpl mh mp mq ss ue spans d hb hd
    exact ⟨by rw [h2, hnames.1], by rw [h3, hnames.2.1], h1⟩
  · rintro ⟨ab, hab, hbad⟩
    apply newRouteRegexp_bad_span re tpl mh mp mq ss ue spans hb
    have hmem : ∀ (sp : List (Nat × Nat)) (e : Nat), ab ∈ sp →
        ∃ g ∈ spanSegs tpl (defaultPattern mh mq) e sp,
          g.name = spanName (spanInner tpl ab.1 ab.2)
            ∧ g.patt = spanPattern (defaultPattern mh mq) (spanInner tpl ab.1 ab.2) := by
      intro sp
      induction sp with
      | nil => intro e h; simp at h
      | cons x xs ih =>
        intro e h
        obtain ⟨a, b⟩ := x
        simp only [spanSegs]
        rcases List.mem_cons.mp h with rfl | h
        · exact ⟨_, List.mem_cons_self _ _, rfl, rfl⟩
        · obtain ⟨g, hg, hgn⟩ := ih b h
          exact ⟨g, List.mem_cons_of_mem _ hg, hgn⟩
    obtain ⟨g, hg, hn, hp⟩ := hmem spans 0 hab
    exact ⟨g, hg, by rw [hn, hp]; exact hbad⟩
  · intro inner
    have := span_split (defaultPattern mh mq) inner
    exact ⟨this.1, this.2.1, this.2.2, spanPattern_eq_nil mh mq inner⟩

/-- C17 on the path template `/{t:[0-9]+:[0-9]+}`, whose one span has two colons, and
on `/{id}`. -/
theorem spans_split_at_first_colon_witness :
    braceIndices "/{t:[0-9]+:[0-9]+}".toList = .ok (flatSpans [(1, 18)])
      ∧ (∀ d, newRouteRegexp goRegexp "/{t:[0-9]+:[0-9]+}".toList false false false true false
            = .ok d →
          d.varsN = ["t".toList] ∧ d.varsR = ["^[0-9]+:[0-9]+$".toList])
      ∧ (newRouteRegexp goRegexp "/{t:[0-9]+:[0-9]+}".toList false false false true
            false).toOption.map routeRegexp.regexp
          = some "^/(?P<v0>[0-9]+:[0-9]+)[/]?$".toList :=
  ⟨rfl, fun d hd =>
    ⟨((spans_split_at_first_colon goRegexp "/{t:[0-9]+:[0-9]+}".toList false false false true
        false [(1, 18)] rfl).1 d hd).1,
      ((spans_split_at_first_colon goRegexp "/{t:[0-9]+:[0-9]+}".toList false false false true
        false [(1, 18)] rfl).1 d hd).2.1⟩, by decide⟩


/-! ## The length of the index slice -/

theorem loopRest_length (step : Cont → Cont) (g : Bool)
    (hstep : ∀ K : Cont, (∀ b r c out, K b r c = some out → out.length = c.length) →
      ∀ b r c out, step K b r c = some out → out.length = c.length) :
    ∀ (fuel : Nat) (K : Cont),
      (∀ b r c out, K b r c = some out → out.length = c.length) →
      ∀ b r c out, loopRest step g fuel K b r c = some out → out.length = c.length := by
  intro fuel
  induction fuel with
  | zero => intro K _ b r c out h; simp [loopRest] at h
  | succ fuel ih =>
    intro K hK b r c out h
    simp only [loopRest] at h
    have hmore : ∀ out1, step (fun b1 r1 c1 =>
          if r1.length = r.length then none
          else loopRest step g fuel K b1 r1 c1) b r c = some out1 →
        out1.length = c.length := by
      intro out1 h1
      refine hstep _ ?_ b r c out1 h1
      intro b1 r1 c1 o ho
      split_ifs at ho
      exact ih K hK b1 r1 c1 o ho
    split_ifs at h with hg
    · split at h
      · rename_i c1 hc1
        simp only [Option.some.injEq] at h; subst h
        exact hmore _ hc1
      · exact hK b r c out h
    · split at h
      · rename_i c1 hc1
        simp only [Option.some.injEq] at h; subst h
        exact hK b r c _ hc1
      · exact hmore _ h

theorem loopPlus_length (step : Cont → Cont) (g : Bool)
    (hstep : ∀ K : Cont, (∀ b r c out, K b r c = some out → out.length = c.length) →
      ∀ b r c out, step K b r c = some out → out.length = c.length)
    (fuel : Nat) (K : Cont) (hK : ∀ b r c out, K b r c = some out → out.length = c.length) :
    ∀ b r c out, loopPlus step g fuel K b r c = some out → out.length = c.length := by
  intro b r c out h
  unfold loopPlus at h
  refine hstep _ ?_ b r c out h
  intro b1 r1 c1 o ho
  split_ifs at ho
  · exact hK _ _ _ _ ho
  · exact loopRest_length step g hstep fuel K hK b1 r1 c1 o ho

theorem loopStar_length (step : Cont → Cont) (g : Bool)
    (hstep : ∀ K : Cont, (∀ b r c out, K b r c = some out → out.length = c.length) →
      ∀ b r c out, step K b r c = some out → out.length = c.length)
    (fuel : Nat) (K : Cont) (hK : ∀ b r c out, K b r c = some out → out.length = c.length) :
    ∀ b r c out, loopStar step g fuel K b r c = some out → out.length = c.length := by
  intro b r c out h
  unfold loopStar at h
  split_ifs at h with hg
  · split at h
    · rename_i c1 hc1
      simp only [Option.some.injEq] at h; subst h
      exact loopPlus_length step g hstep fuel K hK b r c _ hc1
    · exact hK b r c out h
  · split at h
    · rename_i c1 hc1
      simp only [Option.some.injEq] at h; subst h
      exact hK b r c _ hc1
    · exact loopPlus_length step g hstep fuel K hK b r c _ h

theorem optRounds_length (step : Cont → Cont) (g : Bool)
    (hstep : ∀ K : Cont, (∀ b r c out, K b r c = some out → out.length = c.length) →
      ∀ b r c out, step K b r c = some out → out.length = c.length) :
    ∀ (m : Nat) (K : Cont), (∀ b r c out, K b r c = some out → out.length = c.length) →
      ∀ b r c out, optRounds step g m K b r c = some out → out.length = c.length := by
  intro m
  induction m with
  | zero => intro K hK b r c out h; exact hK b r c out h
  | succ m ih =>
    intro K hK b r c out h
    simp only [optRounds] at h
    split_ifs at h with hg
    · split at h
      · rename_i c1 hc1
        simp only [Option.some.injEq] at h; subst h
        exact hstep _ (ih K hK) b r c _ hc1
      · exact hK b r c out h
    · split at h
      · rename_i c1 hc1
        simp only [Option.some.injEq] at h; subst h
        exact hK b r c _ hc1
      · exact hstep _ (ih K hK) b r c _ h

theorem reqRounds_length (step : Cont → Cont)
    (hstep : ∀ K : Cont, (∀ b r c out, K b r c = some out → out.length = c.length) →
      ∀ b r c out, step K b r c = some out → out.length = c.length) :
    ∀ (n : Nat) (K : Cont), (∀ b r c out, K b r c = some out → out.length = c.length) →
      ∀ b r c out, reqRounds step n K b r c = some out → out.length = c.length := by
  intro n
  induction n with
  | zero => intro K hK b r c out h; exact hK b r c out h
  | succ n ih =>
    intro K hK b r c out h
    simp only [reqRounds] at h
    exact hstep _ (ih K hK) b r c out h

theorem stepChar_length (ok : Char → Bool) (K : Cont)
    (hK : ∀ b r c out, K b r c = some out → out.length = c.length) :
    ∀ b r c out, stepChar ok K b r c = some out → out.length = c.length := by
  intro b r c out h
  cases r with
  | nil => simp [stepChar] at h
  | cons x rest =>
    simp only [stepChar] at h
    split_ifs at h
    exact hK _ _ _ _ h

/-- The matcher stores capture positions but never changes the number of entries. -/
theorem run_length (R : Re) : ∀ K : Cont,
    (∀ b r c out, K b r c = some out → out.length = c.length) →
    ∀ b r c out, R.run K b r c = some out → out.length = c.length := by
  induction R with
  | empty => intro K hK b r c out h; exact hK b r c out h
  | lit x => intro K hK; exact stepChar_length _ K hK
  | cls neg items => intro K hK; exact stepChar_length _ K hK
  | dot => intro K hK; exact stepChar_length _ K hK
  | bol =>
    intro K hK b r c out h
    simp only [Re.run] at h
    split_ifs at h
    exact hK _ _ _ _ h
  | eol =>
    intro K hK b r c out h
    simp only [Re.run] at h
    split_ifs at h
    exact hK _ _ _ _ h
  | wordB neg =>
    intro K hK b r c out h
    simp only [Re.run] at h
    split_ifs at h
    exact hK _ _ _ _ h
  | cat x y ihx ihy =>
    intro K hK b r c out h
    simp only [Re.run] at h
    exact ihx _ (ihy K hK) b r c out h
  | alt x y ihx ihy =>
    intro K hK b r c out h
    simp only [Re.run] at h
    split at h
    · rename_i c1 hc1
      simp only [Option.some.injEq] at h; subst h
      exact ihx K hK b r c _ hc1
    · exact ihy K hK b r c out h
  | star x g ih =>
    intro K hK b r c out h
    exact loopStar_length x.run g ih _ K hK b r c out h
  | plus x g ih =>
    intro K hK b r c out h
    exact loopPlus_length x.run g ih _ K hK b r c out h
  | quest x g ih =>
    intro K hK b r c out h
    exact optRounds_length x.run g ih _ K hK b r c out h
  | «repeat» x min max g ih =>
    intro K hK b r c out h
    simp only [Re.run] at h
    cases max with
    | some m =>
      exact reqRounds_length x.run ih _ _ (optRounds_length x.run g ih _ K hK) b r c out h
    | none =>
      cases min with
      | zero => exact loopStar_length x.run g ih _ K hK b r c out h
      | succ n =>
        exact reqRounds_length x.run ih _ _ (loopPlus_length x.run g ih _ K hK) b r c out h
  | group idx x ih =>
    intro K hK b r c out h
    simp only [Re.run] at h
    have := ih _ (fun b1 r1 c1 o ho => by
      have := hK b1 r1 _ o ho
      simpa using this) b r c out h
    exact this

theorem findFrom_length (R : Re) (n : Nat) : ∀ (rest before : Str) (caps : Caps),
    findFrom R n before rest = some caps → caps.length = n + 1 := by
  intro rest
  induction rest with
  | nil =>
    intro before caps h
    simp only [findFrom] at h
    split at h
    · rename_i c hc
      simp only [Option.some.injEq] at h; subst h
      have := run_length R _ (fun b r c o ho => by
        simp only [Option.some.injEq] at ho
        rw [← ho]; simp) _ _ _ _ hc
      simpa using this
    · simp at h
  | cons x xs ih =>
    intro before caps h
    simp only [findFrom] at h
    split at h
    · rename_i c hc
      simp only [Option.some.injEq] at h; subst h
      have := run_length R _ (fun b r c o ho => by
        simp only [Option.some.injEq] at ho
        rw [← ho]; simp) _ _ _ _ hc
      simpa using this
    · exact ih _ _ h

theorem capsToInts_length (caps : Caps) : (capsToInts caps).length = 2 * caps.length := by
  induction caps with
  | nil => rfl
  | cons c cs ih =>
    cases c with
    | none => simp [capsToInts, ih]; omega
    | some ab => obtain ⟨a, b⟩ := ab; simp [capsToInts, ih]; omega

/-- The model keeps the contract of `FindStringSubmatchIndex`: a match of an expression
with `n` capture groups is a slice of `2 * (n + 1)` indices. -/
theorem goRegexp_find_length (e s : Str) (n : Nat) (hc : goRegexp.compile e = some n)
    (hf : goRegexp.find e s ≠ []) : (goRegexp.find e s).length = 2 * (n + 1) := by
  obtain ⟨r, hr⟩ := compile_some_parse e n hc
  rw [goRegexp_find_of_parse e s r n hr] at hf ⊢
  cases hfind : findFrom r n [] s with
  | none => simp [hfind] at hf
  | some caps =>
    simp only [Option.map_some', Option.getD_some]
    rw [capsToInts_length, findFrom_length r n s [] caps hfind]


/-- C18. A descriptor that `newRouteRegexp` returns has as many variable names as
validators, as capture groups in its expression and as top-level brace spans in the
template, and its names are the names that the spans declare, in the order of the
spans.  So, for a regexp library whose `FindStringSubmatchIndex` returns `2 * (n + 1)`
indices for a match of an expression with `n` capture groups, the two indices that
`extractVars` reads for each name are within the slice of a match. -/
theorem descriptor_counts_agree (re : RegexpLib) (tpl : Str) (mh mp mq ss ue : Bool)
    (d : routeRegexp) (hd : newRouteRegexp re tpl mh mp mq ss ue = .ok d)
    (hlib : ∀ s n, re.compile d.regexp = some n → re.find d.regexp s ≠ [] →
      (re.find d.regexp s).length = 2 * (n + 1)) :
    ∃ spans, braceIndices tpl = .ok (flatSpans spans)
      ∧ (∀ ab ∈ spans, TopLevelSpan tpl ab.1 ab.2)
      ∧ d.varsN.length = spans.length ∧ d.varsR.length = spans.length
      ∧ re.compile d.regexp = some spans.length
      ∧ d.varsN = spans.map (fun ab => spanName (spanInner tpl ab.1 ab.2))
      ∧ ∀ s, re.find d.regexp s ≠ [] → ∀ i, i < d.varsN.length →
          (intAt (re.find d.regexp s) (2 * i + 2)).isSome
            ∧ (intAt (re.find d.regexp s) (2 * i + 3)).isSome := by
  cases hb : braceIndices tpl with
  | error e =>
    unfold newRouteRegexp at hd
    rw [hb] at hd
    cases hd
  | ok idxs =>
    obtain ⟨spans, rfl, _, hgood⟩ := braceIndices_spans tpl idxs hb
    obtain ⟨_, h2, h3, _, h5⟩ := newRouteRegexp_spans re tpl mh mp mq ss ue spans d hb hd
    have hnames := spanSegs_names tpl (defaultPattern mh mq) spans 0
    have hlenN : d.varsN.length = spans.length := by
      rw [h2, List.length_map, hnames.2.2]
    refine ⟨spans, rfl, hgood, hlenN, by rw [h3, List.length_map, hnames.2.2], h5,
      by rw [h2, hnames.1], ?_⟩
    intro s hs i hi
    have hlen := hlib s spans.length h5 hs
    rw [hlenN] at hi
    unfold intAt
    constructor
    · rw [List.get?_eq_getElem?, List.getElem?_eq_getElem (by omega)]; rfl
    · rw [List.get?_eq_getElem?, List.getElem?_eq_getElem (by omega)]; rfl

/-- C18 on `/articles/{category}/{id:[0-9]+}` and the regexp model. -/
theorem descriptor_counts_agree_witness :
    newRouteRegexp goRegexp "/articles/{category}/{id:[0-9]+}".toList false false false true false
        = .ok { template := "/articles/{category}/{id:[0-9]+}".toList
                matchHost := false
                matchQuery := false
                strictSlash := true
                useEncodedPath := false
                regexp := "^/articles/(?P<v0>[^/]+)/(?P<v1>[0-9]+)[/]?$".toList
                reverse := "/articles/%s/%s".toList
                varsN := ["category".toList, "id".toList]
                varsR := ["^[^/]+$".toList, "^[0-9]+$".toList] }
      ∧ ∃ spans, braceIndices "/articles/{category}/{id:[0-9]+}".toList = .ok (flatSpans spans)
          ∧ spans.length = 2
          ∧ goRegexp.compile "^/articles/(?P<v0>[^/]+)/(?P<v1>[0-9]+)[/]?$".toList
            = some spans.length :=
  ⟨rfl,
    (descriptor_counts_agree goRegexp "/articles/{category}/{id:[0-9]+}".toList false false false
      true false
      { template := "/articles/{category}/{id:[0-9]+}".toList
        matchHost := false
        matchQuery := false
        strictSlash := true
        useEncodedPath := false
        regexp := "^/articles/(?P<v0>[^/]+)/(?P<v1>[0-9]+)[/]?$".toList
        reverse := "/articles/%s/%s".toList
        varsN := ["category".toList, "id".toList]
        varsR := ["^[^/]+$".toList, "^[0-9]+$".toList] }
      rfl (fun s n hc hf => goRegexp_find_length _ s n hc hf)).imp
      (fun _ h => ⟨h.1, h.2.2.1.symm, h.2.2.2.2.1⟩)⟩

end Urlpattern
